import Mathlib

/-!
# CheckDependency: a shallow embedding of `CheckDependency.c`

The C program reads a text file of lines `name: dep1,dep2,...`, stores every file it meets
in a table of `File` structs (`processFile`) and then searches the table for a cyclic
dependency with a depth first search (`analyzeData`, `dfs`).

Conventions of the embedding.

* A C string is a `List Char`; a `char *` that may be `NULL` is an `Option (List Char)`.
* The table `dependencies[0 .. gNumberOfFiles)` is a `List File`; `gNumberOfFiles` and the
  static `lastFileIndex` of `addNewFile` are both its length (the two counters start at 0 and
  are only incremented together, in `addNewFile`).  The number of `File` slots the caller
  allocated is the parameter `capacity`.
* The arrays `visited` and `currentDependencies` are allocated with `malloc` and are filled
  through an index the code keeps separately; they are lists of `Option File`, where `none`
  is a slot that has not been written yet.
* `malloc` always succeeds.
* A failed `assert` and an access outside an array (or to a slot never written) stop the run
  with a `Fault`.  The recursion of `dfs` is driven by a fuel counter; running out of fuel is
  the fault `Fault.fuel`.
* `dfsOnPath` is `dfs` with one ghost argument, the files whose calls of `dfs` are active;
  it is used to state where a file found in `currentDependencies` lies.
-/

namespace CheckDependency

/-! ## Constants -/

/-- The macro `MAX_LINE_SIZE`. -/
def MAX_LINE_SIZE : Nat := 1001

/-- The macro `MAX_NUMBER_OF_DEPENDENCIES`. -/
def MAX_NUMBER_OF_DEPENDENCIES : Nat := 100

/-- The macro `FILE_NOT_FOUND`. -/
def FILE_NOT_FOUND : Int := -1

/-- The macro `NO_DEPENDENCIES`. -/
def NO_DEPENDENCIES : Int := 0

/-- The macro `START_INDEX`. -/
def START_INDEX : Int := 0

/-- The macro `FILE_NAME_DELIMITER`, the string `": \n"`. -/
def FILE_NAME_DELIMITER : List Char := [':', ' ', '\n']

/-- The macro `FIRST_DEPENDENCY_DELIMITER`, the string `" ,\n"`. -/
def FIRST_DEPENDENCY_DELIMITER : List Char := [' ', ',', '\n']

/-- The macro `DEPENDENCY_DELIMITER`, the string `",\n"`. -/
def DEPENDENCY_DELIMITER : List Char := [',', '\n']

/-! ## Data model -/

/-- The ways a run can stop without a result. -/
inductive Fault where
  /-- An `assert` failed. -/
  | assertion
  /-- An array was accessed outside its bounds, or a slot was read before it was written. -/
  | outOfBounds
  /-- The fuel of the recursion was used up. -/
  | fuel
  /-- A check of the instrumented search `dfsOnPath` failed; the program itself never
  raises this fault. -/
  | offPath
  deriving DecidableEq, Repr

/-- The struct `File`: a name, the array of dependencies (indices into the table) and the
number of dependencies. -/
structure File where
  fileName : List Char
  fileDependencies : List Int
  numberOfDependencies : Int
  deriving DecidableEq, Repr

/-- The local state of a run of `dfs`: the two arrays with their indices.  `visitedIndex` is
the static variable of `dfs`, `currentIndex` is the cell `*currentIndex`. -/
structure DfsState where
  currentDependencies : List (Option File)
  currentIndex : Int
  visited : List (Option File)
  visitedIndex : Int
  deriving DecidableEq, Repr

/-! ## Reading and tokenizing the input -/

/-- The characters `fgets` stores for one call: at most `n` characters of the stream, up to
and including the first newline.  The result is the line and the rest of the stream. -/
def readLine : Nat → List Char → List Char × List Char
  | 0, s => ([], s)
  | _ + 1, [] => ([], [])
  | n + 1, c :: s =>
    if c = '\n' then ([c], s)
    else ((c :: (readLine n s).1), (readLine n s).2)

/-- The call `fgets(currentLine, size, pFile)`: `none` at the end of the stream. -/
def fgets (size : Nat) (stream : List Char) : Option (List Char × List Char) :=
  match stream with
  | [] => none
  | _ :: _ => some (readLine (size - 1) stream)

/-- The buffers that the successive calls `fgets(currentLine, MAX_LINE_SIZE, pFile)` of a
reading loop deliver, as C strings: a buffer ends at its first `'\0'`. -/
def fgetsLines : Nat → List Char → List (List Char)
  | 0, _ => []
  | fuel + 1, stream =>
    match fgets MAX_LINE_SIZE stream with
    | none => []
    | some (line, rest) =>
      line.takeWhile (fun c => c ≠ Char.ofNat 0) :: fgetsLines fuel rest

/-- The lines of an input file as the loops `while (fgets(...) != NULL)` see them; every call
of `fgets` consumes a character, so the length of the stream is enough fuel. -/
def inputLines (stream : List Char) : List (List Char) :=
  fgetsLines stream.length stream

/-- One call of `strtok` that goes on at the saved position `s`: the token (`none` for
`NULL`) and the new saved position. -/
def strtok (delimiters : List Char) (s : List Char) : Option (List Char) × List Char :=
  match s.dropWhile (fun c => c ∈ delimiters) with
  | [] => (none, [])
  | c :: rest =>
    (some ((c :: rest).takeWhile (fun c => c ∉ delimiters)),
      ((c :: rest).dropWhile (fun c => c ∉ delimiters)).drop 1)

/-- The tokens that repeated calls `strtok(NULL, delimiters)` return until `NULL`. -/
def strtokLoop (delimiters : List Char) : Nat → List Char → List (List Char)
  | 0, _ => []
  | fuel + 1, s =>
    match strtok delimiters s with
    | (none, _) => []
    | (some token, rest) => token :: strtokLoop delimiters fuel rest

/-- The dependency tokens of the loops of `countDependencies` and `processFile`, from the
position `s` that `strtok` saved after the file name: the first with
`FIRST_DEPENDENCY_DELIMITER`, the following ones with `DEPENDENCY_DELIMITER`. -/
def dependencyTokens (s : List Char) : List (List Char) :=
  match strtok FIRST_DEPENDENCY_DELIMITER s with
  | (none, _) => []
  | (some token, rest) => token :: strtokLoop DEPENDENCY_DELIMITER rest.length rest

/-- The test `isalpha(fileDependency[0]) || isdigit(fileDependency[0])`. -/
def isValidName (fileDependency : List Char) : Bool :=
  match fileDependency with
  | [] => false
  | c :: _ => c.isAlpha || c.isDigit

/-- The function `countDependencies`. -/
def countDependencies (currentLine : List Char) : Nat :=
  ((dependencyTokens (strtok FILE_NAME_DELIMITER currentLine).2).filter isValidName).length

/-- The function `estimateFilesCount`. -/
def estimateFilesCount (stream : List Char) : Nat :=
  ((inputLines stream).map (fun currentLine => 1 + countDependencies currentLine)).sum

/-! ## The graph builder -/

/-- The loop of `containsFile`, `i` is the index of the head of the list. -/
def containsFileFrom (fileName : List Char) : List File → Nat → Int
  | [], _ => FILE_NOT_FOUND
  | f :: rest, i =>
    if f.fileName = fileName then (i : Int) else containsFileFrom fileName rest (i + 1)

/-- The function `containsFile`. -/
def containsFile (fileName : List Char) (dependencies : List File) : Int :=
  containsFileFrom fileName dependencies 0

/-- The initializer `{NULL, {FILE_NOT_FOUND}, NO_DEPENDENCIES}` of `addNewFile` followed by
`initializeFile`. -/
def initializeFile (fileName : List Char) (numberOfDependencies : Int) : File :=
  { fileName := fileName,
    fileDependencies := FILE_NOT_FOUND :: List.replicate (MAX_NUMBER_OF_DEPENDENCIES - 1) 0,
    numberOfDependencies := numberOfDependencies }

/-- The function `addNewFile`: the new table and the index of the new file. -/
def addNewFile (capacity : Nat) (fileName : List Char) (dependencies : List File)
    (numberOfDependencies : Int) : Except Fault (List File × Nat) :=
  if numberOfDependencies < NO_DEPENDENCIES then .error .assertion
  else if capacity ≤ dependencies.length then .error .outOfBounds
  else .ok (dependencies ++ [initializeFile fileName numberOfDependencies],
    dependencies.length)

/-- The function `updateExistingFile`. -/
def updateExistingFile (file : File) (numberOfDependencies : Int) : File :=
  { file with numberOfDependencies := file.numberOfDependencies + numberOfDependencies }

/-- The loop of `containsDependency` over the slots `i, i + 1, ...`, `remaining` of them. -/
def containsDependencyLoop (file : File) (fileIndex : Int) : Nat → Nat → Except Fault Bool
  | 0, _ => .ok false
  | remaining + 1, i =>
    match file.fileDependencies[i]? with
    | none => .error .outOfBounds
    | some v =>
      if v = fileIndex then .ok true
      else containsDependencyLoop file fileIndex remaining (i + 1)

/-- The function `containsDependency`. -/
def containsDependency (file : File) (fileIndex : Int) (index : Nat) : Except Fault Bool :=
  containsDependencyLoop file fileIndex index 0

/-- The function `addNewDependency`: the updated file and the updated `*indexToStore`. -/
def addNewDependency (file : File) (fileIndex : Int) (indexToStore : Nat) :
    Except Fault (File × Nat) :=
  match containsDependency file fileIndex indexToStore with
  | .error e => .error e
  | .ok false =>
    if indexToStore < file.fileDependencies.length then
      .ok ({ file with fileDependencies := file.fileDependencies.set indexToStore fileIndex },
        indexToStore + 1)
    else .error .outOfBounds
  | .ok true =>
    if file.numberOfDependencies < NO_DEPENDENCIES then .error .assertion
    else .ok ({ file with numberOfDependencies := file.numberOfDependencies - 1 },
      indexToStore)

/-- The body of the inner loop of `processFile` for the token `fileDependency`;
`currentFileIndex` is the place in the table `currentFile` points to.  The result is the
table and `index` after the iteration. -/
def processDependency (capacity : Nat) (currentFileIndex : Nat) (fileDependency : List Char)
    (dependencies : List File) (index : Nat) : Except Fault (List File × Nat) :=
  let found := containsFile fileDependency dependencies
  match (if found = FILE_NOT_FOUND
      then addNewFile capacity fileDependency dependencies NO_DEPENDENCIES
      else .ok (dependencies, found.toNat)) with
  | .error e => .error e
  | .ok (dependencies1, currentDependencyIndex) =>
    match dependencies1[currentFileIndex]? with
    | none => .error .outOfBounds
    | some currentFile =>
      match addNewDependency currentFile (currentDependencyIndex : Int) index with
      | .error e => .error e
      | .ok (currentFile1, index1) =>
        .ok (dependencies1.set currentFileIndex currentFile1, index1)

/-- The inner loop of `processFile` over the dependency tokens of a line. -/
def processDependencies (capacity : Nat) (currentFileIndex : Nat) :
    List (List Char) → List File → Nat → Except Fault (List File × Nat)
  | [], dependencies, index => .ok (dependencies, index)
  | fileDependency :: tokens, dependencies, index =>
    match processDependency capacity currentFileIndex fileDependency dependencies index with
    | .error e => .error e
    | .ok (dependencies1, index1) =>
      processDependencies capacity currentFileIndex tokens dependencies1 index1

/-- The body of the outer loop of `processFile` for one line. -/
def processLine (capacity : Nat) (dependencies : List File) (currentLine : List Char) :
    Except Fault (List File) :=
  let numberOfDependencies : Int := (countDependencies currentLine : Nat)
  match strtok FILE_NAME_DELIMITER currentLine with
  | (none, _) => .error .assertion
  | (some fileName, rest) =>
    let found := containsFile fileName dependencies
    if found = FILE_NOT_FOUND then
      match addNewFile capacity fileName dependencies numberOfDependencies with
      | .error e => .error e
      | .ok (dependencies1, currentFileIndex) =>
        match processDependencies capacity currentFileIndex (dependencyTokens rest)
            dependencies1 0 with
        | .error e => .error e
        | .ok (dependencies2, _) => .ok dependencies2
    else
      match dependencies[found.toNat]? with
      | none => .error .outOfBounds
      | some currentFile =>
        if currentFile.numberOfDependencies < NO_DEPENDENCIES then .error .assertion
        else
          match processDependencies capacity found.toNat (dependencyTokens rest)
              (dependencies.set found.toNat
                (updateExistingFile currentFile numberOfDependencies))
              currentFile.numberOfDependencies.toNat with
          | .error e => .error e
          | .ok (dependencies2, _) => .ok dependencies2

/-- The outer loop of `processFile` over the lines. -/
def processLines (capacity : Nat) : List (List Char) → List File → Except Fault (List File)
  | [], dependencies => .ok dependencies
  | currentLine :: lines, dependencies =>
    match processLine capacity dependencies currentLine with
    | .error e => .error e
    | .ok dependencies1 => processLines capacity lines dependencies1

/-- The function `processFile` on an empty table of `capacity` slots. -/
def processFile (capacity : Nat) (stream : List Char) : Except Fault (List File) :=
  processLines capacity (inputLines stream) []

/-- The table `main` builds: the array has `estimateFilesCount` slots. -/
def buildTable (stream : List Char) : Except Fault (List File) :=
  processFile (estimateFilesCount stream) stream

/-! ## The cycle detector -/

/-- The loop of `dfsContains`, `n` is `count + 1`: the slots `n - 1, n - 2, ..., 0` are
compared with `fileName` until one matches. -/
def dfsContainsLoop (fileName : List Char) (dependencies : List (Option File)) :
    Nat → Except Fault Bool
  | 0 => .ok false
  | n + 1 =>
    match dependencies[n]? with
    | some (some f) =>
      if f.fileName = fileName then .ok true
      else dfsContainsLoop fileName dependencies n
    | _ => .error .outOfBounds

/-- The function `dfsContains`. -/
def dfsContains (fileName : List Char) (dependencies : List (Option File)) (count : Int) :
    Except Fault Bool :=
  dfsContainsLoop fileName dependencies (count + 1).toNat

/-- The statement `arr[++(*index)] = file`. -/
def pushSlot (arr : List (Option File)) (index : Int) (file : File) :
    Except Fault (List (Option File) × Int) :=
  let j := index + 1
  if 0 ≤ j ∧ j.toNat < arr.length then .ok (arr.set j.toNat (some file), j)
  else .error .outOfBounds

/-- The `for` loop of `dfs` over the dependencies `i, i + 1, ...` of `currentFile`;
`remaining` is the number of iterations left and `recurse` is the recursive call. -/
def dfsLoop (recurse : File → DfsState → Except Fault (Bool × DfsState))
    (dependencies : List File) (currentFile : File) :
    Nat → Nat → DfsState → Except Fault (Bool × DfsState)
  | 0, _, st => .ok (false, st)
  | remaining + 1, i, st =>
    match currentFile.fileDependencies[i]? with
    | none => .error .outOfBounds
    | some idx =>
      if idx < 0 then .error .outOfBounds
      else
        match dependencies[idx.toNat]? with
        | none => .error .outOfBounds
        | some fileDependency =>
          match dfsContains fileDependency.fileName st.visited st.visitedIndex with
          | .error e => .error e
          | .ok true => dfsLoop recurse dependencies currentFile remaining (i + 1) st
          | .ok false =>
            match dfsContains fileDependency.fileName st.currentDependencies
                st.currentIndex with
            | .error e => .error e
            | .ok true => .ok (true, st)
            | .ok false =>
              match pushSlot st.currentDependencies st.currentIndex fileDependency with
              | .error e => .error e
              | .ok (cur, ci) =>
                match recurse fileDependency
                    { st with currentDependencies := cur, currentIndex := ci } with
                | .error e => .error e
                | .ok (true, st1) => .ok (true, st1)
                | .ok (false, st1) =>
                  dfsLoop recurse dependencies currentFile remaining (i + 1) st1

/-- The end of `dfs`: `currentFile` is written to `visited` unless its name is there. -/
def dfsFinish (currentFile : File) (st : DfsState) : Except Fault (Bool × DfsState) :=
  match dfsContains currentFile.fileName st.visited st.visitedIndex with
  | .error e => .error e
  | .ok true => .ok (false, st)
  | .ok false =>
    match pushSlot st.visited st.visitedIndex currentFile with
    | .error e => .error e
    | .ok (vis, vi) => .ok (false, { st with visited := vis, visitedIndex := vi })

/-- The function `dfs`, with a fuel that bounds the depth of the recursion. -/
def dfs : Nat → List File → File → DfsState → Except Fault (Bool × DfsState)
  | 0, _, _, _ => .error .fuel
  | fuel + 1, dependencies, currentFile, st =>
    match dfsLoop (dfs fuel dependencies) dependencies currentFile
        currentFile.numberOfDependencies.toNat 0 st with
    | .error e => .error e
    | .ok (true, st1) => .ok (true, st1)
    | .ok (false, st1) => dfsFinish currentFile st1

/-- The `for` loop of `analyzeData` over the files `roots` of the table: every one gets a
fresh `currentDependencies` array.  The result carries the final `visitedIndex`. -/
def analyzeLoop (fuel : Nat) (dependencies : List File) :
    List File → List (Option File) → Int → Except Fault (Bool × Int)
  | [], _, visitedIndex => .ok (false, visitedIndex)
  | currentFile :: roots, visited, visitedIndex =>
    match dfs fuel dependencies currentFile
        { currentDependencies := List.replicate dependencies.length none,
          currentIndex := START_INDEX - 1,
          visited := visited,
          visitedIndex := visitedIndex } with
    | .error e => .error e
    | .ok (true, st) => .ok (true, st.visitedIndex)
    | .ok (false, st) => analyzeLoop fuel dependencies roots st.visited st.visitedIndex

/-- The function `analyzeData`, entered with the static `visitedIndex` of `dfs` at the given
value; it returns the result and the value the static variable is left with. -/
def analyzeDataFrom (fuel : Nat) (visitedIndex : Int) (dependencies : List File) :
    Except Fault (Bool × Int) :=
  analyzeLoop fuel dependencies dependencies
    (List.replicate dependencies.length none) visitedIndex

/-- The function `analyzeData` in the first run of the process, where the static
`visitedIndex` is `START_INDEX - 1`.  The fuel is one more than the number of files, the
greatest depth the recursion can reach. -/
def analyzeData (dependencies : List File) : Except Fault Bool :=
  match analyzeDataFrom (dependencies.length + 1) (START_INDEX - 1) dependencies with
  | .error e => .error e
  | .ok (b, _) => .ok b

/-! ## The search with the active recursion path as a ghost argument -/

/-- The loop `dfsLoop` with the ghost argument `path`, the files whose calls of `dfs` are
active (the last one is `currentFile`).  The only difference in behaviour: when a file is
found in `currentDependencies` the loop checks that the file is on `path`, and stops with
`Fault.offPath` if it is not. -/
def dfsLoopOnPath (recurse : List File → File → DfsState → Except Fault (Bool × DfsState))
    (dependencies : List File) (path : List File) (currentFile : File) :
    Nat → Nat → DfsState → Except Fault (Bool × DfsState)
  | 0, _, st => .ok (false, st)
  | remaining + 1, i, st =>
    match currentFile.fileDependencies[i]? with
    | none => .error .outOfBounds
    | some idx =>
      if idx < 0 then .error .outOfBounds
      else
        match dependencies[idx.toNat]? with
        | none => .error .outOfBounds
        | some fileDependency =>
          match dfsContains fileDependency.fileName st.visited st.visitedIndex with
          | .error e => .error e
          | .ok true =>
            dfsLoopOnPath recurse dependencies path currentFile remaining (i + 1) st
          | .ok false =>
            match dfsContains fileDependency.fileName st.currentDependencies
                st.currentIndex with
            | .error e => .error e
            | .ok true => if fileDependency ∈ path then .ok (true, st) else .error .offPath
            | .ok false =>
              match pushSlot st.currentDependencies st.currentIndex fileDependency with
              | .error e => .error e
              | .ok (cur, ci) =>
                match recurse (path ++ [fileDependency]) fileDependency
                    { st with currentDependencies := cur, currentIndex := ci } with
                | .error e => .error e
                | .ok (true, st1) => .ok (true, st1)
                | .ok (false, st1) =>
                  dfsLoopOnPath recurse dependencies path currentFile remaining (i + 1) st1

/-- The function `dfs` with the ghost argument `path`. -/
def dfsOnPath : Nat → List File → List File → File → DfsState →
    Except Fault (Bool × DfsState)
  | 0, _, _, _, _ => .error .fuel
  | fuel + 1, dependencies, path, currentFile, st =>
    match dfsLoopOnPath (dfsOnPath fuel dependencies) dependencies path currentFile
        currentFile.numberOfDependencies.toNat 0 st with
    | .error e => .error e
    | .ok (true, st1) => .ok (true, st1)
    | .ok (false, st1) => dfsFinish currentFile st1

/-- The loop `analyzeLoop` over `dfsOnPath`: the path of a call on a root is the root. -/
def analyzeLoopOnPath (fuel : Nat) (dependencies : List File) :
    List File → List (Option File) → Int → Except Fault (Bool × Int)
  | [], _, visitedIndex => .ok (false, visitedIndex)
  | currentFile :: roots, visited, visitedIndex =>
    match dfsOnPath fuel dependencies [currentFile] currentFile
        { currentDependencies := List.replicate dependencies.length none,
          currentIndex := START_INDEX - 1,
          visited := visited,
          visitedIndex := visitedIndex } with
    | .error e => .error e
    | .ok (true, st) => .ok (true, st.visitedIndex)
    | .ok (false, st) =>
      analyzeLoopOnPath fuel dependencies roots st.visited st.visitedIndex

/-- The function `analyzeData` (first run) over `dfsOnPath`. -/
def analyzeDataOnPath (dependencies : List File) : Except Fault Bool :=
  match analyzeLoopOnPath (dependencies.length + 1) dependencies dependencies
      (List.replicate dependencies.length none) (START_INDEX - 1) with
  | .error e => .error e
  | .ok (b, _) => .ok b

/-! ## The program -/

/-- The computation of `main` on an opened file: `true` for the message
`Cyclic dependency`, `false` for `No Cyclic dependency`. -/
def checkDependency (stream : List Char) : Except Fault Bool :=
  match buildTable stream with
  | .error e => .error e
  | .ok dependencies => analyzeData dependencies

/-! ## The dependency graph of a table -/

/-- Equality of results is decidable. -/
instance instDecidableEqExcept {ε α : Type} [DecidableEq ε] [DecidableEq α] :
    DecidableEq (Except ε α)
  | .ok a, .ok b =>
    if h : a = b then isTrue (by rw [h]) else isFalse (by intro h1; cases h1; exact h rfl)
  | .error a, .error b =>
    if h : a = b then isTrue (by rw [h]) else isFalse (by intro h1; cases h1; exact h rfl)
  | .ok _, .error _ => isFalse (by intro h; cases h)
  | .error _, .ok _ => isFalse (by intro h; cases h)

/-- The recorded dependencies of a file: the first `numberOfDependencies` entries of its
`fileDependencies`, the entries the loop of `dfs` reads. -/
def recordedDependencies (f : File) : List Int :=
  f.fileDependencies.take f.numberOfDependencies.toNat

/-- The edge `a → b` of the table: the file at index `a` has `b` as the entry `i` of its
`fileDependencies` for some `i < numberOfDependencies`. -/
def Edge (t : List File) (a b : Nat) : Prop :=
  ∃ f, t[a]? = some f ∧
    ∃ i : Nat, (i : Int) < f.numberOfDependencies ∧ f.fileDependencies[i]? = some (b : Int)

/-- The table contains a directed cycle: some index reaches itself along one or more
edges. -/
def HasCycle (t : List File) : Prop :=
  ∃ a, Relation.TransGen (Edge t) a a

/-- A topological order of the table: a rank that strictly decreases along every edge. -/
def TopologicalOrder (t : List File) (rank : Nat → Nat) : Prop :=
  ∀ a b, Edge t a b → rank b < rank a

/-- A well-formed table: the names are pairwise distinct and each of the first
`numberOfDependencies` entries of every `fileDependencies` is an index of the table. -/
structure WellFormed (t : List File) : Prop where
  names_nodup : (t.map File.fileName).Nodup
  deps_valid : ∀ f ∈ t, ∀ i : Nat, (i : Int) < f.numberOfDependencies →
    ∃ j : Nat, f.fileDependencies[i]? = some (j : Int) ∧ j < t.length

/-! ## Predicates of the correctness proof of the search -/

/-- The array `arr` with index `idx` holds exactly the files `l` in its slots `0 .. idx`. -/
def Rep (arr : List (Option File)) (idx : Int) (l : List File) : Prop :=
  idx + 1 = (l.length : Int) ∧ l.length ≤ arr.length ∧ ∀ j, j < l.length → arr[j]? = some l[j]?

/-- The edge `f → g` between files: `g` is the table entry that one of the first
`numberOfDependencies` entries of `f` refers to. -/
def EdgeF (t : List File) (f g : File) : Prop :=
  ∃ i : Nat, (i : Int) < f.numberOfDependencies ∧
    ∃ j : Nat, f.fileDependencies[i]? = some (j : Int) ∧ t[j]? = some g

/-- A file of the table reaches itself. -/
def HasCycleF (t : List File) : Prop :=
  ∃ f, f ∈ t ∧ Relation.TransGen (EdgeF t) f f

/-- The invariant of `visited`: files of the table, without repetition, closed under
dependencies, and none of them on a cycle. -/
structure GoodV (t vis : List File) : Prop where
  sub : ∀ f, f ∈ vis → f ∈ t
  nodup : vis.Nodup
  closed : ∀ v, v ∈ vis → ∀ g, EdgeF t v g → g ∈ vis
  acyc : ∀ v, v ∈ vis → ¬ Relation.TransGen (EdgeF t) v v

/-- The invariant of `currentDependencies`: files of the table, without repetition. -/
structure GoodC (t cur : List File) : Prop where
  sub : ∀ f, f ∈ cur → f ∈ t
  nodup : cur.Nodup

/-- The state `st` of the search holds the lists `vis` and `cur` in arrays of the size of
the table. -/
structure Abs (t : List File) (st : DfsState) (vis cur : List File) : Prop where
  vrep : Rep st.visited st.visitedIndex vis
  crep : Rep st.currentDependencies st.currentIndex cur
  vlen : st.visited.length = t.length
  clen : st.currentDependencies.length = t.length

/-- What a call of `dfs` on `f`, entered with the lists `vis` and `cur`, delivers: a result
and no fault; with `true` there is a cycle, with `false` the file `f` is in `visited`,
`visited` has only grown and every file of `currentDependencies` that was not there at the
entry is in `visited`. -/
def CallPost (t : List File) (f : File) (vis cur : List File)
    (r : Except Fault (Bool × DfsState)) : Prop :=
  ∃ b st1, r = .ok (b, st1) ∧ (b = true → HasCycleF t) ∧
    (b = false → ∃ vis1 cur1, Abs t st1 vis1 cur1 ∧ GoodV t vis1 ∧ GoodC t cur1 ∧
      (∀ x, x ∈ vis → x ∈ vis1) ∧ cur.length ≤ cur1.length ∧ f ∈ vis1 ∧
      (∀ x, x ∈ cur1 → x ∈ cur ∨ x ∈ vis1))

/-- The contract of a search function `r` that may nest `k` calls: at the entry every file
of `currentDependencies` is in `visited` or on the active path, and every file of the
active path reaches the file the call is made on. -/
def DfsSpec (t : List File)
    (r : List File → File → DfsState → Except Fault (Bool × DfsState)) (k : Nat) : Prop :=
  ∀ path f st vis cur, f ∈ t → Abs t st vis cur → GoodV t vis → GoodC t cur →
    (∀ x, x ∈ cur → x ∈ vis ∨ x ∈ path) →
    (∀ x, x ∈ path → Relation.ReflTransGen (EdgeF t) x f) →
    t.length < cur.length + k → CallPost t f vis cur (r path f st)

/-- What the loop of `dfs` over the dependencies of `f` delivers. -/
def LoopPost (t : List File) (f : File) (vis cur : List File)
    (r : Except Fault (Bool × DfsState)) : Prop :=
  ∃ b st1, r = .ok (b, st1) ∧ (b = true → HasCycleF t) ∧
    (b = false → ∃ vis1 cur1, Abs t st1 vis1 cur1 ∧ GoodV t vis1 ∧ GoodC t cur1 ∧
      (∀ x, x ∈ vis → x ∈ vis1) ∧ cur.length ≤ cur1.length ∧
      (∀ g, EdgeF t f g → g ∈ vis1) ∧
      (∀ x, x ∈ cur1 → x ∈ cur ∨ x ∈ vis1))

/-! ## Example tables -/

/-- The table of the input `A: B\nD: C\nC: D\n`: the cycle `D → C → D` is not reachable from
the first file, and `C` was first created as a placeholder of a forward reference. -/
def tableForwardCycle : List File :=
  [⟨['A'], 1 :: List.replicate 99 0, 1⟩, ⟨['B'], -1 :: List.replicate 99 0, 0⟩,
   ⟨['D'], 3 :: List.replicate 99 0, 1⟩, ⟨['C'], 2 :: List.replicate 99 0, 1⟩]

/-- The table of the input `A: B\nC: D\n`, two chains without a cycle. -/
def tableTwoChains : List File :=
  [⟨['A'], 1 :: List.replicate 99 0, 1⟩, ⟨['B'], -1 :: List.replicate 99 0, 0⟩,
   ⟨['C'], 3 :: List.replicate 99 0, 1⟩, ⟨['D'], -1 :: List.replicate 99 0, 0⟩]

/-- The table of the input `A:\nB:\n`, two files without dependencies. -/
def tableNoEdges : List File :=
  [⟨['A'], -1 :: List.replicate 99 0, 0⟩, ⟨['B'], -1 :: List.replicate 99 0, 0⟩]

/-- The table of the input `A: B\nA: B\n`, and of `A: B,B,B\n`: the file `A` with the one
dependency `B`. -/
def tableOneEdge : List File :=
  [⟨['A'], 1 :: List.replicate 99 0, 1⟩, ⟨['B'], -1 :: List.replicate 99 0, 0⟩]

/-- The table that `A: B, B, B\n` gives in an array of three or more slots: the tokens are
`B`, ` B`, ` B`, and `A` is left with the count 0. -/
def tableSpacedRepeat : List File :=
  [⟨['A'], 1 :: 2 :: List.replicate 98 0, 0⟩, ⟨['B'], -1 :: List.replicate 99 0, 0⟩,
   ⟨[' ', 'B'], -1 :: List.replicate 99 0, 0⟩]

/-- The table of the input `A: B,C,B\nA: C\n`: `A` with the two dependencies `B` and `C`. -/
def tableRepeats : List File :=
  [⟨['A'], 1 :: 2 :: List.replicate 98 0, 2⟩, ⟨['B'], -1 :: List.replicate 99 0, 0⟩,
   ⟨['C'], -1 :: List.replicate 99 0, 0⟩]

/-- The table of the input `A: B, C\nB:\n`: the tokens of the first line are `B` and ` C`,
both are stored, and the count of `A` is 1. -/
def tableSpacedPair : List File :=
  [⟨['A'], 1 :: 2 :: List.replicate 98 0, 1⟩, ⟨['B'], -1 :: List.replicate 99 0, 0⟩,
   ⟨[' ', 'C'], -1 :: List.replicate 99 0, 0⟩]

/-- A name of the input format: not empty and free of the delimiter characters `:`, space,
`,`, newline and of `'\0'`. -/
abbrev IsName (n : List Char) : Prop :=
  n ≠ [] ∧ ∀ c ∈ n, c ≠ ':' ∧ c ≠ ' ' ∧ c ≠ ',' ∧ c ≠ '\n' ∧ c ≠ Char.ofNat 0

/-- The text `d1,d2,...,dk`: the names separated by one comma, without whitespace. -/
def joinDependencies : List (List Char) → List Char
  | [] => []
  | [d] => d
  | d :: d1 :: ds => d ++ ',' :: joinDependencies (d1 :: ds)

/-- The line `name: d1,d2,...,dk` with its newline. -/
def renderLine (name : List Char) (deps : List (List Char)) : List Char :=
  name ++ ':' :: ' ' :: (joinDependencies deps ++ ['\n'])

/-- The input text with one line `name: d1,...,dk` for every declaration. -/
def renderInput : List (List Char × List (List Char)) → List Char
  | [] => []
  | d :: decls => renderLine d.1 d.2 ++ renderInput decls

/-- A declaration in the format of the program: the names are names and the line fits
into the buffer `currentLine`. -/
abbrev IsDeclaration (d : List Char × List (List Char)) : Prop :=
  IsName d.1 ∧ (∀ x ∈ d.2, IsName x) ∧ (renderLine d.1 d.2).length < MAX_LINE_SIZE

/-! ## Invariants of the graph builder -/

/-- The number of leading entries of `fileDependencies` that are in use for the file `f` at
the index `a`, while the line of the file at `ci` is processed and the next entry is to be
stored at `index`: for the current file it is `index`, for the others their
`numberOfDependencies`. -/
def liveCount (ci index a : Nat) (f : File) : Nat :=
  if a = ci then index else f.numberOfDependencies.toNat

/-- The invariant inside the loop over the dependency tokens: the names are distinct, the
current file is in the table, the entries in use are indices of the table and no file has
an entry in use twice. -/
structure LineInv (t : List File) (ci index : Nat) : Prop where
  names : (t.map File.fileName).Nodup
  cur : ci < t.length
  valid : ∀ (a : Nat) (f : File), t[a]? = some f → ∀ i, i < liveCount ci index a f →
    ∃ j : Nat, f.fileDependencies[i]? = some (j : Int) ∧ j < t.length
  dedup : ∀ (a : Nat) (f : File), t[a]? = some f →
    (f.fileDependencies.take (liveCount ci index a f)).Nodup

/-- The entries in use are exactly the pairs `P` of names declared so far. -/
structure LineDecl (P : List (List Char × List Char)) (t : List File) (ci index : Nat) :
    Prop where
  recorded_declared : ∀ (a : Nat) (f : File), t[a]? = some f →
    ∀ i, i < liveCount ci index a f →
      ∀ (j : Nat) (y : List Char), f.fileDependencies[i]? = some (j : Int) →
        (t.map File.fileName)[j]? = some y → (f.fileName, y) ∈ P
  declared_recorded : ∀ (X y : List Char), (X, y) ∈ P →
    ∃ (a : Nat) (f : File), t[a]? = some f ∧ f.fileName = X ∧
      ∃ i, i < liveCount ci index a f ∧
        ∃ j : Nat, f.fileDependencies[i]? = some (j : Int) ∧
          (t.map File.fileName)[j]? = some y

/-- The invariant of the table between two lines: the table is well formed and no file has
a recorded dependency twice. -/
structure TableInv (t : List File) : Prop where
  wf : WellFormed t
  dedup : ∀ f ∈ t, (recordedDependencies f).Nodup

/-- Between two lines the recorded dependencies are exactly the pairs `P` of names declared
so far. -/
structure TableDecl (P : List (List Char × List Char)) (t : List File) : Prop where
  recorded_declared : ∀ (a : Nat) (f : File), t[a]? = some f →
    ∀ i : Nat, (i : Int) < f.numberOfDependencies →
      ∀ (j : Nat) (y : List Char), f.fileDependencies[i]? = some (j : Int) →
        (t.map File.fileName)[j]? = some y → (f.fileName, y) ∈ P
  declared_recorded : ∀ (X y : List Char), (X, y) ∈ P →
    ∃ (a : Nat) (f : File), t[a]? = some f ∧ f.fileName = X ∧
      ∃ i : Nat, (i : Int) < f.numberOfDependencies ∧
        ∃ j : Nat, f.fileDependencies[i]? = some (j : Int) ∧
          (t.map File.fileName)[j]? = some y

/-- The pairs `(name, dependency)` that a line declares, with the tokens of the program. -/
def linePairs (currentLine : List Char) : List (List Char × List Char) :=
  match strtok FILE_NAME_DELIMITER currentLine with
  | (none, _) => []
  | (some fileName, rest) => (dependencyTokens rest).map (fun d => (fileName, d))

/-- The pairs that the lines of an input declare. -/
def declaredPairs : List (List Char) → List (List Char × List Char)
  | [] => []
  | currentLine :: lines => linePairs currentLine ++ declaredPairs lines

/-- Every dependency token of the line starts with a letter or a digit: the counting pass
counts every token of the line. -/
abbrev CleanLine (currentLine : List Char) : Prop :=
  ∀ d ∈ dependencyTokens (strtok FILE_NAME_DELIMITER currentLine).2, isValidName d = true

/-- The dependency relation that the lines declare, with the tokens of the program: an edge
`x → y` for every dependency token `y` on a line with the name token `x`. -/
def TokenEdge (lines : List (List Char)) (x y : List Char) : Prop :=
  (x, y) ∈ declaredPairs lines

/-- The dependency relation of a list of declarations `name: d1,...,dk`: an edge
`name → di` for every dependency of every declaration. -/
def DeclaredEdge (decls : List (List Char × List (List Char))) (x y : List Char) : Prop :=
  ∃ d ∈ decls, d.1 = x ∧ y ∈ d.2

/-- The part of the invariant that keeps the builder clear of its faults: every
`fileDependencies` has its `MAX_NUMBER_OF_DEPENDENCIES` slots, and no file other than the
current one has a negative count. -/
structure LineExtra (t : List File) (ci : Nat) : Prop where
  slots : ∀ (a : Nat) (f : File), t[a]? = some f →
    f.fileDependencies.length = MAX_NUMBER_OF_DEPENDENCIES
  nonneg : ∀ (a : Nat) (f : File), t[a]? = some f → a ≠ ci → 0 ≤ f.numberOfDependencies

/-- The same between two lines. -/
structure TableExtra (t : List File) : Prop where
  slots : ∀ f ∈ t, f.fileDependencies.length = MAX_NUMBER_OF_DEPENDENCIES
  nonneg : ∀ f ∈ t, 0 ≤ f.numberOfDependencies

/-- No name has more than `MAX_NUMBER_OF_DEPENDENCIES` distinct dependencies among the
pairs `D`. -/
def PairsBound (D : List (List Char × List Char)) : Prop :=
  ∀ (X : List Char) (l : List (List Char)), l.Nodup → (∀ y ∈ l, (X, y) ∈ D) →
    l.length ≤ MAX_NUMBER_OF_DEPENDENCIES

/-- The dependencies that the declarations give to the name `X`, with repetitions. -/
def declaredDependencies (decls : List (List Char × List (List Char))) (X : List Char) :
    List (List Char) :=
  ((decls.filter (fun d => d.1 = X)).map (fun d => d.2)).flatten

/-- No declared file has more than `MAX_NUMBER_OF_DEPENDENCIES` distinct dependencies. -/
abbrev DependencyBound (decls : List (List Char × List (List Char))) : Prop :=
  ∀ d ∈ decls, (declaredDependencies decls d.1).dedup.length ≤ MAX_NUMBER_OF_DEPENDENCIES

/-! ## The input format in the words of the specification -/

/-- The text without its leading and trailing whitespace. -/
def specTrim (s : List Char) : List Char :=
  ((s.dropWhile Char.isWhitespace).reverse.dropWhile Char.isWhitespace).reverse

/-- The pieces of a text between the occurrences of a separator. -/
def specSplit (sep : Char) : List Char → List (List Char)
  | [] => [[]]
  | c :: s =>
    if c = sep then [] :: specSplit sep s
    else
      match specSplit sep s with
      | [] => [[c]]
      | w :: ws => (c :: w) :: ws

/-- The parsing rule of the specification for one line: the line is split on the first
`:` to get the name of the declaring node, the remaining text is split on commas and the
pieces, trimmed of whitespace, are the dependency names. -/
def specParseLine (line : List Char) : List (List Char × List Char) :=
  if ':' ∈ line then
    (((specSplit ',' ((line.dropWhile (fun c => c ≠ ':')).drop 1)).map specTrim).filter
      (fun d => d ≠ [])).map
      (fun d => (specTrim (line.takeWhile (fun c => c ≠ ':')), d))
  else []

/-- The edges `name → dep` that a text declares, read with the rule of the specification. -/
def specEdges (text : List Char) : List (List Char × List Char) :=
  ((specSplit '\n' text).map specParseLine).flatten

/-- The relation declared by the text, read with the rule of the specification, contains a
directed cycle. -/
def SpecHasCycle (text : List Char) : Prop :=
  ∃ x, Relation.TransGen (fun a b => (a, b) ∈ specEdges text) x x

/-! ## The names of an input -/

/-- The name tokens of a line as the program reads them: the declaring name followed by
the dependency names; none when the line has no name token. -/
def lineNames (currentLine : List Char) : List (List Char) :=
  match strtok FILE_NAME_DELIMITER currentLine with
  | (none, _) => []
  | (some fileName, rest) => fileName :: dependencyTokens rest

/-- The name tokens of the lines of an input, with repetitions. -/
def allNames : List (List Char) → List (List Char)
  | [] => []
  | currentLine :: lines => lineNames currentLine ++ allNames lines

/-- The table of the input `A: B\nB: C\n` after its first line: `B` is a placeholder. -/
def tableAfterFirstLine : List File :=
  [⟨['A'], 1 :: List.replicate 99 0, 1⟩, ⟨['B'], -1 :: List.replicate 99 0, 0⟩]

/-- The table of the input `A: B\nB: C\n`: the placeholder `B` of the first line is the
entry that the second line declares. -/
def tableForwardReference : List File :=
  [⟨['A'], 1 :: List.replicate 99 0, 1⟩, ⟨['B'], 2 :: List.replicate 99 0, 1⟩,
   ⟨['C'], -1 :: List.replicate 99 0, 0⟩]

/-- The table of the input `A: B, C\nB:\nC:\n`: the table of its first line with the file
`C` of the third line appended. -/
def tableExampleTwo : List File :=
  tableSpacedPair ++ [⟨['C'], -1 :: List.replicate 99 0, 0⟩]

/-- The table of the input `A: B,B,-x,-x,-x\n`: the count of `A` is `-1`. -/
def tableNegativeCount : List File :=
  [⟨['A'], 1 :: 2 :: List.replicate 98 0, -1⟩, ⟨['B'], -1 :: List.replicate 99 0, 0⟩,
    ⟨['-', 'x'], -1 :: List.replicate 99 0, 0⟩]

/-! ## Families of inputs: rings and pairs -/

/-- The declarations `x1: x2`, `x2: x3`, ..., `xn: first` for the names `x1 ... xn`. -/
def ringFrom (first : List Char) : List (List Char) → List (List Char × List (List Char))
  | [] => []
  | [x] => [(x, [first])]
  | x :: y :: rest => (x, [y]) :: ringFrom first (y :: rest)

/-- The ring of declarations `f1: f2`, `f2: f3`, ..., `fn: f1`. -/
def ringDecls : List (List Char) → List (List Char × List (List Char))
  | [] => []
  | f :: rest => ringFrom f (f :: rest)

/-- The declarations `a: b`, one for every pair `(a, b)`. -/
def pairDecls (pairs : List (List Char × List Char)) : List (List Char × List (List Char)) :=
  pairs.map (fun p => (p.1, [p.2]))

/-- A name of 1000 characters: the line `A: ` followed by it does not fit into the buffer
`currentLine`. -/
def longLeaf : List Char := List.replicate 1000 'B'

/-! ## MyLinkedList.c

Conventions of the embedding of the linked list.

* A C string is the list of its characters before the terminator; `strcmp` gives
  `STRING_EQUALITY` exactly on equal lists. A pointer that may be `NULL` is an `Option`.
* A `Node` is created by `createNode` only, so its `data` is never `NULL`: a node is
  represented by its `data`, and the chain of nodes that starts at `head` by the list of
  their data, `[]` for `head == NULL`.
* The functions that write through the pointer `l` return the list after the call.
* An `int` has 32 bits: `size++`, `size--` and `numberOfOccurrences++` wrap around.
* The outcomes of the calls of `malloc` are a parameter: the list of the outcomes still to
  come, `true` for a block and `false` for `NULL`.
* The header `MyLinkedList.h` is not part of the sources: its constant `MYLIST_ERROR_CODE`
  is a parameter of the functions that return it. -/

/-- The largest `int`. -/
def INT_MAX : Int := 2147483647

/-- The value of an `int` expression: the integer result brought back into the 32 bits of
an `int`. -/
def wrapInt (x : Int) : Int :=
  (x + 2147483648) % 4294967296 - 2147483648

/-- The macro `EMPTY_LIST_SIZE`. -/
def EMPTY_LIST_SIZE : Int := 0

/-- The macro `NO_OCCURRENCES`. -/
def NO_OCCURRENCES : Int := 0

/-- The struct `_MyLinkedList`: `head` holds the data of the nodes reachable from the
pointer `head`, in order; `size` is the field `size`. -/
structure MyLinkedList where
  head : List (List Char)
  size : Int
  deriving DecidableEq, Repr

/-- One call of `malloc`: the outcome and the outcomes still to come. When the list of
outcomes is used up, the call succeeds. -/
def malloc : List Bool → Bool × List Bool
  | [] => (true, [])
  | outcome :: rest => (outcome, rest)

/-- The function `createNode`: a node with a copy of `data`, or `NULL` when one of the two
allocations (the node, its string) fails. -/
def createNode (heap : List Bool) (data : List Char) : Option (List Char) × List Bool :=
  match malloc heap with
  | (false, heap1) => (none, heap1)
  | (true, heap1) =>
    match malloc heap1 with
    | (true, heap2) => (some data, heap2)
    | (false, heap2) => (none, heap2)

/-- The function `createList`. -/
def createList (heap : List Bool) : Option MyLinkedList × List Bool :=
  match malloc heap with
  | (true, heap1) => (some ⟨[], EMPTY_LIST_SIZE⟩, heap1)
  | (false, heap1) => (none, heap1)

/-- The function `insertFirst`: the returned boolean, the list after the call and the
outcomes of `malloc` still to come. -/
def insertFirst (heap : List Bool) (l : Option MyLinkedList) (val : Option (List Char)) :
    Bool × Option MyLinkedList × List Bool :=
  match l, val with
  | some l, some val =>
    match createNode heap val with
    | (some newHead, heap1) => (true, some ⟨newHead :: l.head, wrapInt (l.size + 1)⟩, heap1)
    | (none, heap1) => (false, some l, heap1)
  | l, _ => (false, l, heap)

/-- The loop of `isInList`: walks the chain to its end and counts the nodes whose data
equals `val`. -/
def isInListLoop (val : List Char) : List (List Char) → Int → Int
  | [], numberOfOccurrences => numberOfOccurrences
  | data :: next, numberOfOccurrences =>
    isInListLoop val next
      (if data = val then wrapInt (numberOfOccurrences + 1) else numberOfOccurrences)

/-- The function `isInList`. -/
def isInList (MYLIST_ERROR_CODE : Int) (l : Option MyLinkedList) (val : Option (List Char)) :
    Int :=
  match l, val with
  | some l, some val => isInListLoop val l.head NO_OCCURRENCES
  | _, _ => MYLIST_ERROR_CODE

/-- The function `getSize`. -/
def getSize (MYLIST_ERROR_CODE : Int) (l : Option MyLinkedList) : Except Fault Int :=
  match l with
  | some l => if l.size ≥ EMPTY_LIST_SIZE then .ok l.size else .error .assertion
  | none => .ok MYLIST_ERROR_CODE

/-- The loop of `removeData` with `remaining = numberOfElements - i` iterations to go:
`previous` holds the nodes kept so far (the chain from `head` up to `previousNode`),
`current` the chain that starts at `currentNode`. A node whose data equals `val` is
unlinked and freed. The result is the chain from `head`, `size` and
`numberOfOccurrences`. -/
def removeDataLoop (val : List Char) :
    Nat → List (List Char) → List (List Char) → Int → Int →
      Except Fault (List (List Char) × Int × Int)
  | 0, previous, current, size, numberOfOccurrences =>
    .ok (previous ++ current, size, numberOfOccurrences)
  | _ + 1, _, [], _, _ => .error .assertion
  | remaining + 1, previous, data :: next, size, numberOfOccurrences =>
    if data = val then
      removeDataLoop val remaining previous next (wrapInt (size - 1))
        (wrapInt (numberOfOccurrences + 1))
    else
      removeDataLoop val remaining (previous ++ [data]) next size numberOfOccurrences

/-- The function `removeData`: the returned number and the list after the call. -/
def removeData (MYLIST_ERROR_CODE : Int) (l : Option MyLinkedList)
    (val : Option (List Char)) : Except Fault (Int × Option MyLinkedList) :=
  match l, val with
  | some l, some val =>
    if l.size ≥ EMPTY_LIST_SIZE then
      if l.head ≠ [] then
        match removeDataLoop val l.size.toNat [] l.head l.size NO_OCCURRENCES with
        | .ok (head, size, numberOfOccurrences) =>
          .ok (numberOfOccurrences, some ⟨head, size⟩)
        | .error e => .error e
      else .ok (NO_OCCURRENCES, some l)
    else .error .assertion
  | l, _ => .ok (MYLIST_ERROR_CODE, l)

/-- The representation invariant of a list: `size` is the number of nodes of the chain,
and it is an `int`. -/
def SizeInv (l : MyLinkedList) : Prop :=
  l.size = (l.head.length : Int) ∧ l.size ≤ INT_MAX

/-- The list `b -> a -> b` with `size` 3. -/
def listBAB : MyLinkedList := ⟨["b".toList, "a".toList, "b".toList], 3⟩

/-! ## MyLinkedList.c: cloning and freeing -/

/-- The loop of `freeList` with `remaining = numberOfElements - i` iterations to go, on the
chain that starts at `currentNode`. -/
def freeListLoop : Nat → List (List Char) → Except Fault Unit
  | 0, _ => .ok ()
  | _ + 1, [] => .error .assertion
  | remaining + 1, _ :: next => freeListLoop remaining next

/-- The function `freeList`. -/
def freeList (l : Option MyLinkedList) : Except Fault Unit :=
  match l with
  | none => .ok ()
  | some l =>
    if l.head ≠ [] then
      if l.size ≥ EMPTY_LIST_SIZE then freeListLoop l.size.toNat l.head
      else .error .assertion
    else .ok ()

/-- The function `cloneListHelper` on the chain that starts at `pNode`: the result of the
recursive call on the rest of the chain is dropped, the result of the function is the
result of `insertFirst` for the data of `pNode`. -/
def cloneListHelper (heap : List Bool) (pMyLinkedList : Option MyLinkedList) :
    List (List Char) → Bool × Option MyLinkedList × List Bool
  | [] => (true, pMyLinkedList, heap)
  | data :: next =>
    match cloneListHelper heap pMyLinkedList next with
    | (_, l1, heap1) => insertFirst heap1 l1 (some data)

/-- The function `cloneList`: the clone, or `NULL`, and the outcomes of `malloc` still to
come. -/
def cloneList (heap : List Bool) (l : Option MyLinkedList) :
    Except Fault (Option MyLinkedList × List Bool) :=
  match l with
  | none => .ok (none, heap)
  | some l =>
    match createList heap with
    | (none, heap1) => .ok (none, heap1)
    | (some clone, heap1) =>
      match cloneListHelper heap1 (some clone) l.head with
      | (true, clone1, heap2) => .ok (clone1, heap2)
      | (false, clone1, heap2) =>
        match freeList clone1 with
        | .ok _ => .ok (none, heap2)
        | .error e => .error e

/-- The lists that the functions of the module produce: a list is obtained from
`createList` by calls of `insertFirst`, `removeData` and `cloneList` (the clone is obtained
from the list it copies). `insertFirst` is called on a list with fewer than `INT_MAX`
elements, so that `size++` stays within `int`. -/
inductive Obtained (MYLIST_ERROR_CODE : Int) : MyLinkedList → Prop
  | create (heap : List Bool) (l : MyLinkedList) (heap1 : List Bool) :
      createList heap = (some l, heap1) → Obtained MYLIST_ERROR_CODE l
  | insert (heap : List Bool) (l : MyLinkedList) (val : Option (List Char)) (b : Bool)
      (l2 : MyLinkedList) (heap1 : List Bool) :
      Obtained MYLIST_ERROR_CODE l → l.size < INT_MAX →
      insertFirst heap (some l) val = (b, some l2, heap1) → Obtained MYLIST_ERROR_CODE l2
  | remove (l : MyLinkedList) (val : Option (List Char)) (n : Int) (l2 : MyLinkedList) :
      Obtained MYLIST_ERROR_CODE l →
      removeData MYLIST_ERROR_CODE (some l) val = .ok (n, some l2) →
      Obtained MYLIST_ERROR_CODE l2
  | clone (heap : List Bool) (l l2 : MyLinkedList) (heap1 : List Bool) :
      Obtained MYLIST_ERROR_CODE l → cloneList heap (some l) = .ok (some l2, heap1) →
      Obtained MYLIST_ERROR_CODE l2

/-! ## The search with a log of its steps

The functions `dfsLoopTrace`, `dfsTrace`, `analyzeLoopTrace` and `analyzeDataTrace` are
`dfsLoop`, `dfs`, `analyzeLoop` and `analyzeData` with one more argument, the log, to which
every step of the search appends an event; the log has no influence on the run. -/

/-- The files in the slots `0 .. idx` of an array. -/
def filled (arr : List (Option File)) (idx : Int) : List File :=
  (arr.take (idx + 1).toNat).filterMap id

/-- The steps of the search that are logged. -/
inductive EventKind where
  /-- The loop of `analyzeData` calls `dfs` on a file of the table. -/
  | enterRoot
  /-- The statement `currentDependencies[++(*currentIndex)] = *fileDependency`. -/
  | pushCurrent
  /-- The recursive call `dfs(fileDependency, ...)`. -/
  | enterDependency
  /-- The statement `visited[++visitedIndex] = *currentFile`. -/
  | pushVisited
  /-- A call of `dfs` returns `false`. -/
  | returnFalse
  /-- A call of `dfs` returns `true`. -/
  | returnTrue
  deriving DecidableEq, Repr

/-- An event of the log: the step, the file it concerns, and the content of the two arrays
with their indices at the moment of the step (for the two writes: just before the
write). -/
structure Event where
  kind : EventKind
  file : File
  visited : List File
  visitedIndex : Int
  current : List File
  currentIndex : Int
  deriving DecidableEq, Repr

/-- The event of a step on `file` in the state `st`. -/
def eventOf (kind : EventKind) (file : File) (st : DfsState) : Event :=
  { kind := kind, file := file,
    visited := filled st.visited st.visitedIndex, visitedIndex := st.visitedIndex,
    current := filled st.currentDependencies st.currentIndex,
    currentIndex := st.currentIndex }

/-- The loop `dfsLoop` with the log. -/
def dfsLoopTrace
    (recurse : File → DfsState → List Event → Except Fault (Bool × DfsState × List Event))
    (dependencies : List File) (currentFile : File) :
    Nat → Nat → DfsState → List Event → Except Fault (Bool × DfsState × List Event)
  | 0, _, st, log => .ok (false, st, log)
  | remaining + 1, i, st, log =>
    match currentFile.fileDependencies[i]? with
    | none => .error .outOfBounds
    | some idx =>
      if idx < 0 then .error .outOfBounds
      else
        match dependencies[idx.toNat]? with
        | none => .error .outOfBounds
        | some fileDependency =>
          match dfsContains fileDependency.fileName st.visited st.visitedIndex with
          | .error e => .error e
          | .ok true =>
            dfsLoopTrace recurse dependencies currentFile remaining (i + 1) st log
          | .ok false =>
            match dfsContains fileDependency.fileName st.currentDependencies
                st.currentIndex with
            | .error e => .error e
            | .ok true => .ok (true, st, log)
            | .ok false =>
              match pushSlot st.currentDependencies st.currentIndex fileDependency with
              | .error e => .error e
              | .ok (cur, ci) =>
                match recurse fileDependency
                    { st with currentDependencies := cur, currentIndex := ci }
                    (log ++ [eventOf .pushCurrent fileDependency st,
                      eventOf .enterDependency fileDependency
                        { st with currentDependencies := cur, currentIndex := ci }]) with
                | .error e => .error e
                | .ok (true, st1, log1) => .ok (true, st1, log1)
                | .ok (false, st1, log1) =>
                  dfsLoopTrace recurse dependencies currentFile remaining (i + 1) st1 log1

/-- The end of `dfs` with the log. -/
def dfsFinishTrace (currentFile : File) (st : DfsState) (log : List Event) :
    Except Fault (Bool × DfsState × List Event) :=
  match dfsContains currentFile.fileName st.visited st.visitedIndex with
  | .error e => .error e
  | .ok true => .ok (false, st, log ++ [eventOf .returnFalse currentFile st])
  | .ok false =>
    match pushSlot st.visited st.visitedIndex currentFile with
    | .error e => .error e
    | .ok (vis, vi) =>
      .ok (false, { st with visited := vis, visitedIndex := vi },
        log ++ [eventOf .pushVisited currentFile st,
          eventOf .returnFalse currentFile { st with visited := vis, visitedIndex := vi }])

/-- The function `dfs` with the log. -/
def dfsTrace : Nat → List File → File → DfsState → List Event →
    Except Fault (Bool × DfsState × List Event)
  | 0, _, _, _, _ => .error .fuel
  | fuel + 1, dependencies, currentFile, st, log =>
    match dfsLoopTrace (dfsTrace fuel dependencies) dependencies currentFile
        currentFile.numberOfDependencies.toNat 0 st log with
    | .error e => .error e
    | .ok (true, st1, log1) => .ok (true, st1, log1 ++ [eventOf .returnTrue currentFile st1])
    | .ok (false, st1, log1) => dfsFinishTrace currentFile st1 log1

/-- The loop `analyzeLoop` with the log. -/
def analyzeLoopTrace (fuel : Nat) (dependencies : List File) :
    List File → List (Option File) → Int → List Event →
      Except Fault (Bool × Int × List Event)
  | [], _, visitedIndex, log => .ok (false, visitedIndex, log)
  | currentFile :: roots, visited, visitedIndex, log =>
    match dfsTrace fuel dependencies currentFile
        { currentDependencies := List.replicate dependencies.length none,
          currentIndex := START_INDEX - 1,
          visited := visited,
          visitedIndex := visitedIndex }
        (log ++ [eventOf .enterRoot currentFile
          { currentDependencies := List.replicate dependencies.length none,
            currentIndex := START_INDEX - 1,
            visited := visited,
            visitedIndex := visitedIndex }]) with
    | .error e => .error e
    | .ok (true, st, log1) => .ok (true, st.visitedIndex, log1)
    | .ok (false, st, log1) =>
      analyzeLoopTrace fuel dependencies roots st.visited st.visitedIndex log1

/-- The function `analyzeData` (first run) with the log: the result and the log of the
run. -/
def analyzeDataTrace (dependencies : List File) : Except Fault (Bool × List Event) :=
  match analyzeLoopTrace (dependencies.length + 1) dependencies dependencies
      (List.replicate dependencies.length none) (START_INDEX - 1) [] with
  | .error e => .error e
  | .ok (b, _, log) => .ok (b, log)

/-- The files written to `visited` in the steps of a log, in order. -/
def pushedVisited (log : List Event) : List File :=
  (log.filter (fun e => decide (e.kind = .pushVisited))).map Event.file

/-- The files written to a `currentDependencies` array in the steps of a log, in order. -/
def pushedCurrent (log : List Event) : List File :=
  (log.filter (fun e => decide (e.kind = .pushCurrent))).map Event.file

/-- What holds at the moment of an event: the content of `visited` satisfies its
invariant, the indices are the indices of the last files of the arrays, a file is written
to an array when it is not in `visited` and not in that array, into a slot of the array,
a recursive call is made on a file that is not in `visited`, and a call that returns
`false` leaves its file in `visited`. -/
structure EventGood (t : List File) (e : Event) : Prop where
  file_mem : e.file ∈ t
  goodV : GoodV t e.visited
  goodC : GoodC t e.current
  vindex : e.visitedIndex + 1 = (e.visited.length : Int)
  cindex : e.currentIndex + 1 = (e.current.length : Int)
  pushC : e.kind = .pushCurrent →
    e.file ∉ e.visited ∧ e.file ∉ e.current ∧ e.current.length < t.length
  enterD : e.kind = .enterDependency → e.file ∉ e.visited
  pushV : e.kind = .pushVisited → e.file ∉ e.visited ∧ e.visited.length < t.length
  retF : e.kind = .returnFalse → e.file ∈ e.visited

/-- Every recursive call in the log comes right after the write of its file to
`currentDependencies`, with `visited` as it was at the write. -/
def CallsPreceded (log : List Event) : Prop :=
  ∀ (i : Nat) (e : Event), log[i]? = some e → e.kind = .enterDependency →
    ∃ (j : Nat) (p : Event), i = j + 1 ∧ log[j]? = some p ∧ p.kind = .pushCurrent ∧
      p.file = e.file ∧ p.visited = e.visited

/-- The invariant of the log. -/
structure LogGood (t : List File) (log : List Event) : Prop where
  events : ∀ e ∈ log, EventGood t e
  visitedOnce : (pushedVisited log).Nodup
  currentOnce : (pushedCurrent log).Nodup
  preceded : CallsPreceded log

/-- The log and the arrays: the files written to `visited` are in `visited`, the files
written to a `currentDependencies` array are in the present one or in `visited`. -/
structure LogLink (log : List Event) (vis cur : List File) : Prop where
  visited : ∀ x ∈ pushedVisited log, x ∈ vis
  current : ∀ x ∈ pushedCurrent log, x ∈ cur ∨ x ∈ vis

/-- What a call of `dfsTrace` on `f` delivers when it is entered with the lists `vis` and
`cur`. -/
def TracePost (t : List File) (f : File) (vis cur : List File)
    (r : Except Fault (Bool × DfsState × List Event)) : Prop :=
  ∃ b st1 log1, r = .ok (b, st1, log1) ∧ LogGood t log1 ∧
    ∃ vis1 cur1, Abs t st1 vis1 cur1 ∧ GoodV t vis1 ∧ GoodC t cur1 ∧
      (∀ x, x ∈ vis → x ∈ vis1) ∧ cur.length ≤ cur1.length ∧ LogLink log1 vis1 cur1 ∧
      (b = false → f ∈ vis1 ∧ ∀ x, x ∈ cur1 → x ∈ cur ∨ x ∈ vis1)

/-- The contract of a search function with a log that may nest `k` calls. -/
def TraceSpec (t : List File)
    (r : File → DfsState → List Event → Except Fault (Bool × DfsState × List Event))
    (k : Nat) : Prop :=
  ∀ f st log vis cur, f ∈ t → Abs t st vis cur → GoodV t vis → GoodC t cur →
    t.length < cur.length + k → LogGood t log → LogLink log vis cur →
    TracePost t f vis cur (r f st log)

/-- What the loop of `dfsTrace` over the dependencies of `f` delivers. -/
def TraceLoopPost (t : List File) (f : File) (vis cur : List File)
    (r : Except Fault (Bool × DfsState × List Event)) : Prop :=
  ∃ b st1 log1, r = .ok (b, st1, log1) ∧ LogGood t log1 ∧
    ∃ vis1 cur1, Abs t st1 vis1 cur1 ∧ GoodV t vis1 ∧ GoodC t cur1 ∧
      (∀ x, x ∈ vis → x ∈ vis1) ∧ cur.length ≤ cur1.length ∧ LogLink log1 vis1 cur1 ∧
      (b = false → (∀ g, EdgeF t f g → g ∈ vis1) ∧ ∀ x, x ∈ cur1 → x ∈ cur ∨ x ∈ vis1)

/-! ## More example inputs -/

/-- The list `a -> b` with `size` 2. -/
def listAB : MyLinkedList := ⟨["a".toList, "b".toList], 2⟩

/-! ## Lines without a space after the colon, and the index of the storing pass -/

/-- The body of the outer loop of `processFile` for one line, as `processLine`, with the
values of `currentFileIndex` and of `index` at the end of the body next to the table:
`index` is the first entry of `fileDependencies` of the current file that the storing pass
has not written. -/
def processLineIndex (capacity : Nat) (dependencies : List File) (currentLine : List Char) :
    Except Fault (List File × Nat × Nat) :=
  let numberOfDependencies : Int := (countDependencies currentLine : Nat)
  match strtok FILE_NAME_DELIMITER currentLine with
  | (none, _) => .error .assertion
  | (some fileName, rest) =>
    let found := containsFile fileName dependencies
    if found = FILE_NOT_FOUND then
      match addNewFile capacity fileName dependencies numberOfDependencies with
      | .error e => .error e
      | .ok (dependencies1, currentFileIndex) =>
        match processDependencies capacity currentFileIndex (dependencyTokens rest)
            dependencies1 0 with
        | .error e => .error e
        | .ok (dependencies2, index) => .ok (dependencies2, currentFileIndex, index)
    else
      match dependencies[found.toNat]? with
      | none => .error .outOfBounds
      | some currentFile =>
        if currentFile.numberOfDependencies < NO_DEPENDENCIES then .error .assertion
        else
          match processDependencies capacity found.toNat (dependencyTokens rest)
              (dependencies.set found.toNat
                (updateExistingFile currentFile numberOfDependencies))
              currentFile.numberOfDependencies.toNat with
          | .error e => .error e
          | .ok (dependencies2, index) => .ok (dependencies2, found.toNat, index)

/-! ## Two runs of the search in one process -/

/-- The table of the input `A: B,C\nB: \nC: \n`. -/
def tableTrimmed : List File :=
  [⟨['A'], 1 :: 2 :: List.replicate 98 0, 2⟩, ⟨['B'], -1 :: List.replicate 99 0, 0⟩,
    ⟨['C'], -1 :: List.replicate 99 0, 0⟩]

/-! # Theorems -/

/-! ## The arrays of the search as lists -/

theorem rep_empty (n : Nat) : Rep (List.replicate n none) (START_INDEX - 1) [] := by
  refine ⟨by simp [START_INDEX], by simp, ?_⟩
  intro j hj
  simp at hj

theorem dfsContainsLoop_rep (name : List Char) (arr : List (Option File)) (l : List File)
    (h : ∀ j, j < l.length → arr[j]? = some l[j]?) :
    ∀ n, n ≤ l.length →
      dfsContainsLoop name arr n = .ok (decide (name ∈ (l.take n).map File.fileName)) := by
  intro n
  induction n with
  | zero => intro _; simp [dfsContainsLoop]
  | succ n ih =>
    intro hn
    have hlt : n < l.length := hn
    have h1 := h n hlt
    rw [List.getElem?_eq_getElem hlt] at h1
    have ht : l.take (n + 1) = l.take n ++ [l[n]] := by
      rw [List.take_succ, List.getElem?_eq_getElem hlt]; rfl
    rw [dfsContainsLoop, h1]
    simp only
    by_cases hname : l[n].fileName = name
    · rw [if_pos hname, ht]
      congr 1
      symm
      apply decide_eq_true
      rw [List.map_append, List.mem_append]
      right
      rw [← hname]
      exact List.mem_singleton.mpr rfl
    · rw [if_neg hname, ih (Nat.le_of_lt hlt), ht]
      have hne : ¬ name = l[n].fileName := fun e => hname e.symm
      congr 1
      apply decide_eq_decide.mpr
      rw [List.map_append, List.mem_append]
      constructor
      · exact Or.inl
      · rintro (h | h)
        · exact h
        · exact absurd (List.mem_singleton.mp h) hne

theorem dfsContains_rep (name : List Char) (arr : List (Option File)) (idx : Int)
    (l : List File) (h : Rep arr idx l) :
    dfsContains name arr idx = .ok (decide (name ∈ l.map File.fileName)) := by
  obtain ⟨h1, _, h3⟩ := h
  unfold dfsContains
  rw [h1]
  have := dfsContainsLoop_rep name arr l h3 l.length (Nat.le_refl _)
  simpa using this

theorem pushSlot_rep (arr : List (Option File)) (idx : Int) (l : List File) (f : File)
    (h : Rep arr idx l) (hlen : l.length < arr.length) :
    pushSlot arr idx f = .ok (arr.set l.length (some f), idx + 1) ∧
      Rep (arr.set l.length (some f)) (idx + 1) (l ++ [f]) := by
  obtain ⟨h1, h2, h3⟩ := h
  have hj : (idx + 1).toNat = l.length := by rw [h1]; simp
  constructor
  · unfold pushSlot
    simp only [hj]
    rw [if_pos]
    constructor
    · rw [h1]; exact Int.ofNat_nonneg _
    · exact hlen
  · refine ⟨by rw [h1]; simp, by simp; omega, ?_⟩
    intro j hj'
    simp only [List.length_append, List.length_singleton] at hj'
    by_cases hjl : j = l.length
    · subst hjl
      rw [List.getElem?_set_self hlen, List.getElem?_append_right (Nat.le_refl _)]
      simp
    · have hlt : j < l.length := by omega
      rw [List.getElem?_set_ne (Ne.symm hjl), h3 j hlt, List.getElem?_append_left hlt]

/-! ## Facts about the graph on the files of the table -/

theorem edgeF_mem {t : List File} {f g : File} (h : EdgeF t f g) : g ∈ t := by
  obtain ⟨i, _, j, _, hj⟩ := h
  exact List.getElem?_mem hj

theorem edge_edgeF {t : List File} {a b : Nat} (hb : b < t.length) (h : Edge t a b) :
    ∃ f g, t[a]? = some f ∧ t[b]? = some g ∧ EdgeF t f g := by
  obtain ⟨f, hf, i, hi, hd⟩ := h
  exact ⟨f, t[b], hf, List.getElem?_eq_getElem hb, i, hi, b, hd, List.getElem?_eq_getElem hb⟩

theorem edgeF_edge {t : List File} {f g : File} {a : Nat} (ha : t[a]? = some f)
    (h : EdgeF t f g) : ∃ b, t[b]? = some g ∧ Edge t a b := by
  obtain ⟨i, hi, j, hd, hj⟩ := h
  exact ⟨j, hj, f, ha, i, hi, hd⟩

theorem name_mem_iff {t l : List File} (wf : WellFormed t) (hsub : ∀ x, x ∈ l → x ∈ t)
    {f : File} (hf : f ∈ t) : f.fileName ∈ l.map File.fileName ↔ f ∈ l := by
  constructor
  · intro h
    obtain ⟨x, hx, hxf⟩ := List.mem_map.mp h
    have := List.inj_on_of_nodup_map wf.names_nodup (hsub x hx) hf hxf
    rw [← this]; exact hx
  · intro h
    exact List.mem_map.mpr ⟨f, h, rfl⟩

theorem length_le_of_nodup_sub {t l : List File} (hn : l.Nodup) (hsub : ∀ x, x ∈ l → x ∈ t) :
    l.length ≤ t.length :=
  (List.subperm_of_subset hn (fun x hx => hsub x hx)).length_le

theorem length_lt_of_not_mem {t l : List File} (hn : l.Nodup) (hsub : ∀ x, x ∈ l → x ∈ t)
    {f : File} (hf : f ∈ t) (hnot : f ∉ l) : l.length < t.length := by
  have h1 : (f :: l).Nodup := List.nodup_cons.mpr ⟨hnot, hn⟩
  have h2 : ∀ x, x ∈ f :: l → x ∈ t := by
    intro x hx
    rcases List.mem_cons.mp hx with h | h
    · rw [h]; exact hf
    · exact hsub x h
  have := length_le_of_nodup_sub h1 h2
  simpa using this

theorem closed_reach {t vis : List File} (hc : ∀ v, v ∈ vis → ∀ g, EdgeF t v g → g ∈ vis)
    {v w : File} (hv : v ∈ vis) (h : Relation.ReflTransGen (EdgeF t) v w) : w ∈ vis := by
  induction h with
  | refl => exact hv
  | tail _ hbc ih => exact hc _ ih _ hbc

theorem goodV_push {t vis : List File} (g : GoodV t vis) {f : File} (hf : f ∈ t)
    (hnot : f ∉ vis) (hdeps : ∀ d, EdgeF t f d → d ∈ vis) : GoodV t (vis ++ [f]) := by
  refine ⟨?_, ?_, ?_, ?_⟩
  · intro x hx
    rcases List.mem_append.mp hx with h | h
    · exact g.sub x h
    · rw [List.mem_singleton.mp h]; exact hf
  · refine List.Nodup.append g.nodup (List.nodup_singleton f) ?_
    intro x hx hx'
    rw [List.mem_singleton.mp hx'] at hx
    exact hnot hx
  · intro v hv d hd
    rcases List.mem_append.mp hv with h | h
    · exact List.mem_append_left _ (g.closed v h d hd)
    · rw [List.mem_singleton.mp h] at hd
      exact List.mem_append_left _ (hdeps d hd)
  · intro v hv hcyc
    rcases List.mem_append.mp hv with h | h
    · exact g.acyc v h hcyc
    · rw [List.mem_singleton.mp h] at hcyc
      obtain ⟨d, hd, hreach⟩ := Relation.TransGen.head'_iff.mp hcyc
      exact hnot (closed_reach g.closed (hdeps d hd) hreach)

theorem goodC_push {t cur : List File} (g : GoodC t cur) {f : File} (hf : f ∈ t)
    (hnot : f ∉ cur) : GoodC t (cur ++ [f]) := by
  refine ⟨?_, ?_⟩
  · intro x hx
    rcases List.mem_append.mp hx with h | h
    · exact g.sub x h
    · rw [List.mem_singleton.mp h]; exact hf
  · refine List.Nodup.append g.nodup (List.nodup_singleton f) ?_
    intro x hx hx'
    rw [List.mem_singleton.mp hx'] at hx
    exact hnot hx

/-! ## The specification of `dfs` -/

theorem contains_visited {t : List File} (wf : WellFormed t) {st : DfsState}
    {vis cur : List File} (ha : Abs t st vis cur) (gv : GoodV t vis) {g : File}
    (hg : g ∈ t) :
    dfsContains g.fileName st.visited st.visitedIndex = .ok (decide (g ∈ vis)) := by
  rw [dfsContains_rep _ _ _ _ ha.vrep]
  congr 1
  exact decide_eq_decide.mpr (name_mem_iff wf gv.sub hg)

theorem contains_current {t : List File} (wf : WellFormed t) {st : DfsState}
    {vis cur : List File} (ha : Abs t st vis cur) (gc : GoodC t cur) {g : File}
    (hg : g ∈ t) :
    dfsContains g.fileName st.currentDependencies st.currentIndex =
      .ok (decide (g ∈ cur)) := by
  rw [dfsContains_rep _ _ _ _ ha.crep]
  congr 1
  exact decide_eq_decide.mpr (name_mem_iff wf gc.sub hg)

theorem dfsLoopOnPath_spec {t : List File} (wf : WellFormed t)
    (r : List File → File → DfsState → Except Fault (Bool × DfsState)) (k : Nat)
    (hr : DfsSpec t r k) (path : List File) (f : File) (hf : f ∈ t)
    (hreach : ∀ x, x ∈ path → Relation.ReflTransGen (EdgeF t) x f) :
    ∀ (rem i : Nat) (st : DfsState) (vis cur : List File),
      i + rem = f.numberOfDependencies.toNat →
      Abs t st vis cur → GoodV t vis → GoodC t cur →
      (∀ x, x ∈ cur → x ∈ vis ∨ x ∈ path) →
      t.length < cur.length + (k + 1) →
      (∀ i1, i1 < i → ∀ (j : Nat) (g : File), f.fileDependencies[i1]? = some (j : Int) →
        t[j]? = some g → g ∈ vis) →
      LoopPost t f vis cur (dfsLoopOnPath r t path f rem i st) := by
  intro rem
  induction rem with
  | zero =>
    intro i st vis cur hi ha gv gc _ _ hdone
    refine ⟨false, st, rfl, by simp, fun _ => ⟨vis, cur, ha, gv, gc, fun _ h => h,
      Nat.le_refl _, ?_, fun _ h => Or.inl h⟩⟩
    rintro g ⟨i1, hi1, j, hd, hj⟩
    have : i1 < i := by omega
    exact hdone i1 this j g hd hj
  | succ rem ih =>
    intro i st vis cur hi ha gv gc hpath hfuel hdone
    have hilt : (i : Int) < f.numberOfDependencies := by omega
    obtain ⟨j, hd, hjlt⟩ := wf.deps_valid f hf i hilt
    have hj : t[j]? = some t[j] := List.getElem?_eq_getElem hjlt
    have hg : t[j] ∈ t := List.getElem_mem hjlt
    have hedge : EdgeF t f t[j] := ⟨i, hilt, j, hd, hj⟩
    have hstep : ∀ (st1 : DfsState) (vis1 cur1 : List File),
        Abs t st1 vis1 cur1 → GoodV t vis1 → GoodC t cur1 →
        (∀ x, x ∈ vis → x ∈ vis1) → cur.length ≤ cur1.length →
        (∀ x, x ∈ cur1 → x ∈ cur ∨ x ∈ vis1) → t[j] ∈ vis1 →
        LoopPost t f vis cur (dfsLoopOnPath r t path f rem (i + 1) st1) := by
      intro st1 vis1 cur1 ha1 gv1 gc1 hvv hcc hnew hgv1
      have hpath1 : ∀ x, x ∈ cur1 → x ∈ vis1 ∨ x ∈ path := by
        intro x hx
        rcases hnew x hx with h | h
        · rcases hpath x h with h2 | h2
          · exact Or.inl (hvv x h2)
          · exact Or.inr h2
        · exact Or.inl h
      have hdone1 : ∀ i1, i1 < i + 1 → ∀ (j1 : Nat) (g : File),
          f.fileDependencies[i1]? = some (j1 : Int) → t[j1]? = some g → g ∈ vis1 := by
        intro i1 hi1 j1 g hd1 hj1
        by_cases hlt : i1 < i
        · exact hvv g (hdone i1 hlt j1 g hd1 hj1)
        · have hieq : i1 = i := by omega
          subst hieq
          rw [hd] at hd1
          have hjj : j = j1 := by
            have := Option.some.inj hd1
            exact Int.ofNat.inj this
          subst hjj
          rw [hj] at hj1
          rw [← Option.some.inj hj1]
          exact hgv1
      obtain ⟨b, st2, hres, htrue, hfalse⟩ :=
        ih (i + 1) st1 vis1 cur1 (by omega) ha1 gv1 gc1 hpath1 (by omega) hdone1
      refine ⟨b, st2, hres, htrue, ?_⟩
      intro hb
      obtain ⟨vis2, cur2, ha2, gv2, gc2, hvv2, hcc2, hdeps2, hnew2⟩ := hfalse hb
      refine ⟨vis2, cur2, ha2, gv2, gc2, fun x hx => hvv2 x (hvv x hx),
        Nat.le_trans hcc hcc2, hdeps2, ?_⟩
      intro x hx
      rcases hnew2 x hx with h | h
      · rcases hnew x h with h3 | h3
        · exact Or.inl h3
        · exact Or.inr (hvv2 x h3)
      · exact Or.inr h
    have hnn : ¬ ((j : Int) < 0) := by omega
    rw [dfsLoopOnPath]
    simp only [hd, hnn, if_false, Int.toNat_ofNat, hj]
    rw [contains_visited wf ha gv hg]
    by_cases hgv : t[j] ∈ vis
    · simp only [hgv, decide_True]
      exact hstep st vis cur ha gv gc (fun _ h => h) (Nat.le_refl _) (fun _ h => Or.inl h) hgv
    · simp only [hgv, decide_False]
      rw [contains_current wf ha gc hg]
      by_cases hgc : t[j] ∈ cur
      · simp only [hgc, decide_True]
        have hon : t[j] ∈ path := by
          rcases hpath _ hgc with h | h
          · exact absurd h hgv
          · exact h
        rw [if_pos hon]
        exact ⟨true, st, rfl, fun _ => ⟨f, hf, Relation.TransGen.head' hedge (hreach _ hon)⟩,
          by simp⟩
      · simp only [hgc, decide_False]
        have hlen : cur.length < st.currentDependencies.length := by
          rw [ha.clen]; exact length_lt_of_not_mem gc.nodup gc.sub hg hgc
        obtain ⟨hpush, hrep⟩ := pushSlot_rep _ _ _ t[j] ha.crep hlen
        rw [hpush]
        simp only
        have ha1 : Abs t { st with
            currentDependencies := st.currentDependencies.set cur.length (some t[j]),
            currentIndex := st.currentIndex + 1 } vis (cur ++ [t[j]]) :=
          ⟨ha.vrep, hrep, ha.vlen, by simp [ha.clen]⟩
        have hpath1 : ∀ x, x ∈ cur ++ [t[j]] → x ∈ vis ∨ x ∈ path ++ [t[j]] := by
          intro x hx
          rcases List.mem_append.mp hx with h | h
          · rcases hpath x h with h2 | h2
            · exact Or.inl h2
            · exact Or.inr (List.mem_append_left _ h2)
          · exact Or.inr (List.mem_append_right _ h)
        have hreach1 : ∀ x, x ∈ path ++ [t[j]] →
            Relation.ReflTransGen (EdgeF t) x t[j] := by
          intro x hx
          rcases List.mem_append.mp hx with h | h
          · exact Relation.ReflTransGen.tail (hreach x h) hedge
          · rw [List.mem_singleton.mp h]
        obtain ⟨b, st1, hres, htrue, hfalse⟩ :=
          hr (path ++ [t[j]]) t[j] _ vis (cur ++ [t[j]]) hg ha1 gv (goodC_push gc hg hgc)
            hpath1 hreach1 (by simp; omega)
        rw [hres]
        cases b with
        | true =>
          exact ⟨true, st1, rfl, fun _ => htrue rfl, by simp⟩
        | false =>
          obtain ⟨vis1, cur1, ha2, gv1, gc1, hvv, hcc, hgv1, hnew⟩ := hfalse rfl
          simp only
          refine hstep st1 vis1 cur1 ha2 gv1 gc1 hvv (by simp at hcc; omega) ?_ hgv1
          intro x hx
          rcases hnew x hx with h | h
          · rcases List.mem_append.mp h with h3 | h3
            · exact Or.inl h3
            · rw [List.mem_singleton.mp h3]; exact Or.inr hgv1
          · exact Or.inr h

theorem dfsOnPath_spec {t : List File} (wf : WellFormed t) :
    ∀ k, DfsSpec t (dfsOnPath k t) k := by
  intro k
  induction k with
  | zero =>
    intro path f st vis cur _ _ _ gc _ _ hfuel
    have := length_le_of_nodup_sub gc.nodup gc.sub
    omega
  | succ k ih =>
    intro path f st vis cur hf ha gv gc hpath hreach hfuel
    obtain ⟨b, st1, hres, htrue, hfalse⟩ :=
      dfsLoopOnPath_spec wf (dfsOnPath k t) k ih path f hf hreach
        f.numberOfDependencies.toNat 0 st vis cur
        (by omega) ha gv gc hpath hfuel (fun i1 h => absurd h (Nat.not_lt_zero i1))
    rw [dfsOnPath, hres]
    cases b with
    | true => exact ⟨true, st1, rfl, fun _ => htrue rfl, by simp⟩
    | false =>
      obtain ⟨vis1, cur1, ha1, gv1, gc1, hvv, hcc, hdeps, hnew⟩ := hfalse rfl
      simp only
      unfold dfsFinish
      rw [contains_visited wf ha1 gv1 hf]
      by_cases hfv : f ∈ vis1
      · simp only [hfv, decide_True]
        exact ⟨false, st1, rfl, by simp, fun _ =>
          ⟨vis1, cur1, ha1, gv1, gc1, hvv, hcc, hfv, hnew⟩⟩
      · simp only [hfv, decide_False]
        have hlen : vis1.length < st1.visited.length := by
          rw [ha1.vlen]; exact length_lt_of_not_mem gv1.nodup gv1.sub hf hfv
        obtain ⟨hpush, hrep⟩ := pushSlot_rep _ _ _ f ha1.vrep hlen
        rw [hpush]
        refine ⟨false, _, rfl, by simp, fun _ => ⟨vis1 ++ [f], cur1, ?_, ?_, gc1, ?_, hcc, ?_, ?_⟩⟩
        · exact ⟨hrep, ha1.crep, by simp [ha1.vlen], ha1.clen⟩
        · exact goodV_push gv1 hf hfv hdeps
        · intro x hx; exact List.mem_append_left _ (hvv x hx)
        · simp
        · intro x hx
          rcases hnew x hx with h | h
          · exact Or.inl h
          · exact Or.inr (List.mem_append_left _ h)

theorem goodV_nil (t : List File) : GoodV t [] :=
  ⟨fun _ h => absurd h (List.not_mem_nil _), List.nodup_nil,
    fun _ h => absurd h (List.not_mem_nil _), fun _ h => absurd h (List.not_mem_nil _)⟩

theorem goodC_nil (t : List File) : GoodC t [] :=
  ⟨fun _ h => absurd h (List.not_mem_nil _), List.nodup_nil⟩

theorem analyzeLoopOnPath_spec {t : List File} (wf : WellFormed t) :
    ∀ (roots : List File) (visited : List (Option File)) (vi : Int) (vis : List File),
      (∀ x, x ∈ roots → x ∈ t) → Rep visited vi vis → visited.length = t.length →
      GoodV t vis →
      ∃ b vi1, analyzeLoopOnPath (t.length + 1) t roots visited vi = .ok (b, vi1) ∧
        (b = true → HasCycleF t) ∧
        (b = false → ∃ vis1, GoodV t vis1 ∧ (∀ x, x ∈ vis → x ∈ vis1) ∧
          (∀ x, x ∈ roots → x ∈ vis1)) := by
  intro roots
  induction roots with
  | nil =>
    intro visited vi vis _ _ _ gv
    exact ⟨false, vi, rfl, by simp, fun _ => ⟨vis, gv, fun _ h => h,
      fun _ h => absurd h (List.not_mem_nil _)⟩⟩
  | cons f roots ih =>
    intro visited vi vis hsub hrep hlen gv
    have hf : f ∈ t := hsub f (List.mem_cons_self _ _)
    have ha : Abs t (DfsState.mk (List.replicate t.length none) (START_INDEX - 1) visited vi)
        vis [] :=
      ⟨hrep, rep_empty _, hlen, by simp⟩
    obtain ⟨b, st1, hres, htrue, hfalse⟩ :=
      dfsOnPath_spec wf (t.length + 1) [f] f _ vis [] hf ha gv (goodC_nil t)
        (fun _ h => absurd h (List.not_mem_nil _))
        (fun x h => by rw [List.mem_singleton.mp h]) (by simp)
    rw [analyzeLoopOnPath, hres]
    cases b with
    | true => exact ⟨true, st1.visitedIndex, rfl, fun _ => htrue rfl, by simp⟩
    | false =>
      obtain ⟨vis1, cur1, ha1, gv1, _, hvv, _, hfv, _⟩ := hfalse rfl
      simp only
      obtain ⟨b2, vi2, hres2, htrue2, hfalse2⟩ :=
        ih st1.visited st1.visitedIndex vis1
          (fun x hx => hsub x (List.mem_cons_of_mem _ hx)) ha1.vrep ha1.vlen gv1
      refine ⟨b2, vi2, hres2, htrue2, fun hb => ?_⟩
      obtain ⟨vis2, gv2, hvv2, hroots⟩ := hfalse2 hb
      refine ⟨vis2, gv2, fun x hx => hvv2 x (hvv x hx), ?_⟩
      intro x hx
      rcases List.mem_cons.mp hx with h | h
      · rw [h]; exact hvv2 f hfv
      · exact hroots x h

theorem hasCycle_of_hasCycleF {t : List File} (wf : WellFormed t) (h : HasCycleF t) :
    HasCycle t := by
  obtain ⟨f, hf, hcyc⟩ := h
  obtain ⟨a, ha⟩ := List.getElem?_of_mem hf
  have key : ∀ g, Relation.TransGen (EdgeF t) f g →
      ∃ b, t[b]? = some g ∧ Relation.TransGen (Edge t) a b := by
    intro g hg
    induction hg with
    | single h1 =>
      obtain ⟨b, hb, he⟩ := edgeF_edge ha h1
      exact ⟨b, hb, Relation.TransGen.single he⟩
    | tail _ h2 ih =>
      obtain ⟨b, hb, hab⟩ := ih
      obtain ⟨c, hc, he⟩ := edgeF_edge hb h2
      exact ⟨c, hc, Relation.TransGen.tail hab he⟩
  obtain ⟨b, hb, hab⟩ := key f hcyc
  have hab' : a = b := by
    obtain ⟨ha1, ha2⟩ := List.getElem?_eq_some_iff.mp ha
    obtain ⟨hb1, hb2⟩ := List.getElem?_eq_some_iff.mp hb
    have hn := wf.names_nodup
    have ha3 : a < (t.map File.fileName).length := by simpa using ha1
    have hb3 : b < (t.map File.fileName).length := by simpa using hb1
    exact (@List.Nodup.getElem_inj_iff _ (t.map File.fileName) hn a ha3 b hb3).mp
      (by simp [ha2, hb2])
  subst hab'
  exact ⟨a, hab⟩

theorem edge_lt {t : List File} (wf : WellFormed t) {a b : Nat} (h : Edge t a b) :
    a < t.length ∧ b < t.length := by
  obtain ⟨f, hf, i, hi, hd⟩ := h
  obtain ⟨ha, _⟩ := List.getElem?_eq_some_iff.mp hf
  obtain ⟨j, hj, hjlt⟩ := wf.deps_valid f (List.getElem?_mem hf) i hi
  rw [hd] at hj
  have : b = j := Int.ofNat.inj (Option.some.inj hj)
  exact ⟨ha, by omega⟩

theorem hasCycleF_of_hasCycle {t : List File} (wf : WellFormed t) (h : HasCycle t) :
    HasCycleF t := by
  obtain ⟨a, hcyc⟩ := h
  have key : ∀ b, Relation.TransGen (Edge t) a b →
      ∃ f g, t[a]? = some f ∧ t[b]? = some g ∧ Relation.TransGen (EdgeF t) f g := by
    intro b hb
    induction hb with
    | single h1 =>
      obtain ⟨f, g, hf, hg, he⟩ := edge_edgeF (edge_lt wf h1).2 h1
      exact ⟨f, g, hf, hg, Relation.TransGen.single he⟩
    | tail _ h2 ih =>
      obtain ⟨f, g, hf, hg, hfg⟩ := ih
      obtain ⟨g1, g2, hg1, hg2, he⟩ := edge_edgeF (edge_lt wf h2).2 h2
      rw [hg] at hg1
      rw [← Option.some.inj hg1] at he
      exact ⟨f, g2, hf, hg2, Relation.TransGen.tail hfg he⟩
  obtain ⟨f, g, hf, hg, hfg⟩ := key a hcyc
  rw [hf] at hg
  rw [← Option.some.inj hg] at hfg
  exact ⟨f, List.getElem?_mem hf, hfg⟩

/-! ## The ghost argument does not change the result -/

theorem dfsLoopOnPath_erase
    (rp : List File → File → DfsState → Except Fault (Bool × DfsState))
    (r : File → DfsState → Except Fault (Bool × DfsState))
    (hr : ∀ p f st x, rp p f st = .ok x → r f st = .ok x)
    (t path : List File) (f : File) :
    ∀ (rem i : Nat) (st : DfsState) (x : Bool × DfsState),
      dfsLoopOnPath rp t path f rem i st = .ok x → dfsLoop r t f rem i st = .ok x := by
  intro rem
  induction rem with
  | zero => intro i st x h; simpa [dfsLoopOnPath, dfsLoop] using h
  | succ rem ih =>
    intro i st x h
    rw [dfsLoopOnPath] at h
    rw [dfsLoop]
    cases hd : f.fileDependencies[i]? with
    | none => simp [hd] at h
    | some idx =>
      simp only [hd] at h ⊢
      by_cases hneg : idx < 0
      · simp [hneg] at h
      · simp only [hneg, if_false] at h ⊢
        cases hg : t[idx.toNat]? with
        | none => simp [hg] at h
        | some g =>
          simp only [hg] at h ⊢
          cases hv : dfsContains g.fileName st.visited st.visitedIndex with
          | error e => simp [hv] at h
          | ok bv =>
            cases bv with
            | true =>
              simp only [hv] at h ⊢
              exact ih _ _ _ h
            | false =>
              simp only [hv] at h ⊢
              cases hc : dfsContains g.fileName st.currentDependencies st.currentIndex with
              | error e => simp [hc] at h
              | ok bc =>
                cases bc with
                | true =>
                  simp only [hc] at h ⊢
                  by_cases hon : g ∈ path
                  · rw [if_pos hon] at h; exact h
                  · rw [if_neg hon] at h; simp at h
                | false =>
                  simp only [hc] at h ⊢
                  cases hp : pushSlot st.currentDependencies st.currentIndex g with
                  | error e => simp [hp] at h
                  | ok pr =>
                    obtain ⟨cur, ci⟩ := pr
                    simp only [hp] at h ⊢
                    cases hrec : rp (path ++ [g]) g
                        { st with currentDependencies := cur, currentIndex := ci } with
                    | error e => simp [hrec] at h
                    | ok res =>
                      obtain ⟨b, st1⟩ := res
                      rw [hr _ _ _ _ hrec]
                      simp only [hrec] at h
                      cases b with
                      | true => exact h
                      | false => exact ih _ _ _ h

theorem dfsOnPath_erase (t : List File) :
    ∀ (k : Nat) (path : List File) (f : File) (st : DfsState) (x : Bool × DfsState),
      dfsOnPath k t path f st = .ok x → dfs k t f st = .ok x := by
  intro k
  induction k with
  | zero => intro path f st x h; simp [dfsOnPath] at h
  | succ k ih =>
    intro path f st x h
    rw [dfsOnPath] at h
    rw [dfs]
    split at h
    · exact absurd h (by simp)
    · rename_i st1 hl
      rw [dfsLoopOnPath_erase _ _ ih t path f _ _ _ _ hl]
      exact h
    · rename_i st1 hl
      rw [dfsLoopOnPath_erase _ _ ih t path f _ _ _ _ hl]
      exact h

theorem analyzeLoopOnPath_erase (k : Nat) (t : List File) :
    ∀ (roots : List File) (visited : List (Option File)) (vi : Int) (x : Bool × Int),
      analyzeLoopOnPath k t roots visited vi = .ok x →
      analyzeLoop k t roots visited vi = .ok x := by
  intro roots
  induction roots with
  | nil => intro visited vi x h; simpa [analyzeLoopOnPath, analyzeLoop] using h
  | cons f roots ih =>
    intro visited vi x h
    rw [analyzeLoopOnPath] at h
    rw [analyzeLoop]
    split at h
    · exact absurd h (by simp)
    · rename_i st hd
      rw [dfsOnPath_erase _ _ _ _ _ _ hd]
      exact h
    · rename_i st hd
      rw [dfsOnPath_erase _ _ _ _ _ _ hd]
      exact ih _ _ _ h

/-- On a well-formed table the first run of `analyzeData` returns a result, the search with
the ghost path returns the same result, and the result is `true` exactly when the table has
a cycle. -/
theorem analyzeData_spec {t : List File} (wf : WellFormed t) :
    ∃ b, analyzeData t = .ok b ∧ analyzeDataOnPath t = .ok b ∧ (b = true ↔ HasCycle t) := by
  obtain ⟨b, vi, hres, htrue, hfalse⟩ :=
    analyzeLoopOnPath_spec wf t (List.replicate t.length none) (START_INDEX - 1) []
      (fun _ h => h) (rep_empty _) (by simp) (goodV_nil t)
  refine ⟨b, ?_, ?_, ?_⟩
  · unfold analyzeData analyzeDataFrom
    rw [analyzeLoopOnPath_erase _ _ _ _ _ _ hres]
  · unfold analyzeDataOnPath
    rw [hres]
  · constructor
    · intro hb
      exact hasCycle_of_hasCycleF wf (htrue hb)
    · intro hc
      cases b with
      | true => rfl
      | false =>
        exfalso
        obtain ⟨vis1, gv1, _, hall⟩ := hfalse rfl
        obtain ⟨f, hf, hcyc⟩ := hasCycleF_of_hasCycle wf hc
        exact gv1.acyc f (hall f hf) hcyc

/-! ## The detector: completeness, soundness, tables without edges -/

theorem buildTable_forwardCycle :
    buildTable "A: B\nD: C\nC: D\n".toList = .ok tableForwardCycle := by decide

theorem buildTable_twoChains :
    buildTable "A: B\nC: D\n".toList = .ok tableTwoChains := by decide

theorem buildTable_noEdges : buildTable "A:\nB:\n".toList = .ok tableNoEdges := by decide

theorem wellFormed_forwardCycle : WellFormed tableForwardCycle := by
  refine ⟨by decide, ?_⟩
  intro f hf i hi
  simp only [tableForwardCycle, List.mem_cons, List.mem_singleton, List.not_mem_nil,
    or_false] at hf
  rcases hf with rfl | rfl | rfl | rfl
  · have : i = 0 := by simp only at hi; omega
    subst this; exact ⟨1, rfl, by decide⟩
  · simp only at hi; omega
  · have : i = 0 := by simp only at hi; omega
    subst this; exact ⟨3, rfl, by decide⟩
  · have : i = 0 := by simp only at hi; omega
    subst this; exact ⟨2, rfl, by decide⟩

theorem hasCycle_forwardCycle : HasCycle tableForwardCycle :=
  ⟨2, Relation.TransGen.tail
    (Relation.TransGen.single ⟨_, rfl, 0, by decide, rfl⟩) ⟨_, rfl, 0, by decide, rfl⟩⟩

theorem wellFormed_twoChains : WellFormed tableTwoChains := by
  refine ⟨by decide, ?_⟩
  intro f hf i hi
  simp only [tableTwoChains, List.mem_cons, List.mem_singleton, List.not_mem_nil,
    or_false] at hf
  rcases hf with rfl | rfl | rfl | rfl
  · have : i = 0 := by simp only at hi; omega
    subst this; exact ⟨1, rfl, by decide⟩
  · simp only at hi; omega
  · have : i = 0 := by simp only at hi; omega
    subst this; exact ⟨3, rfl, by decide⟩
  · simp only at hi; omega

theorem topologicalOrder_twoChains :
    TopologicalOrder tableTwoChains (fun a => if a = 0 ∨ a = 2 then 1 else 0) := by
  rintro a b ⟨f, hf, i, hi, hd⟩
  match a, hf with
  | 0, hf =>
    have hf' : f = ⟨['A'], 1 :: List.replicate 99 0, 1⟩ := (Option.some.inj hf).symm
    subst hf'
    have : i = 0 := by simp only at hi; omega
    subst this
    have : b = 1 := (Int.ofNat.inj (Option.some.inj hd)).symm
    subst this; decide
  | 1, hf =>
    have hf' : f = ⟨['B'], -1 :: List.replicate 99 0, 0⟩ := (Option.some.inj hf).symm
    subst hf'
    simp only at hi; omega
  | 2, hf =>
    have hf' : f = ⟨['C'], 3 :: List.replicate 99 0, 1⟩ := (Option.some.inj hf).symm
    subst hf'
    have : i = 0 := by simp only at hi; omega
    subst this
    have : b = 3 := (Int.ofNat.inj (Option.some.inj hd)).symm
    subst this; decide
  | 3, hf =>
    have hf' : f = ⟨['D'], -1 :: List.replicate 99 0, 0⟩ := (Option.some.inj hf).symm
    subst hf'
    simp only at hi; omega
  | n + 4, hf => simp [tableTwoChains] at hf

theorem not_hasCycle_of_topologicalOrder {t : List File} {rank : Nat → Nat}
    (h : TopologicalOrder t rank) : ¬ HasCycle t := by
  rintro ⟨a, hcyc⟩
  have key : ∀ b, Relation.TransGen (Edge t) a b → rank b < rank a := by
    intro b hb
    induction hb with
    | single h1 => exact h _ _ h1
    | tail _ h2 ih => exact Nat.lt_trans (h _ _ h2) ih
  exact Nat.lt_irrefl _ (key a hcyc)

/-- C2 (detector completeness): on every well-formed table that contains a directed cycle,
the first run of `analyzeData` returns `true`; nothing is assumed about where the cycle
lies in the table or about the order in which its files were created. -/
theorem analyzeData_complete (t : List File) (wf : WellFormed t) (hc : HasCycle t) :
    analyzeData t = .ok true := by
  obtain ⟨b, hres, _, hiff⟩ := analyzeData_spec wf
  rw [hres, hiff.mpr hc]

/-- Witness of C2: the table of `A: B\nD: C\nC: D\n`, whose cycle is not reachable from the
first file and goes through the placeholder `C`. -/
theorem analyzeData_complete_witness :
    WellFormed tableForwardCycle ∧ HasCycle tableForwardCycle ∧
      analyzeData tableForwardCycle = .ok true :=
  ⟨wellFormed_forwardCycle, hasCycle_forwardCycle,
    analyzeData_complete tableForwardCycle wellFormed_forwardCycle hasCycle_forwardCycle⟩

/-- C3 (detector soundness): on every well-formed table that has a topological order, the
first run of `analyzeData` returns `false`.  Moreover, on every well-formed table the
search `analyzeDataOnPath`, which checks each time a file is found in
`currentDependencies` that the file is on the active recursion path, gives the same
result as `analyzeData`: the check never fails, a file found there is never a leftover of
a finished branch. -/
theorem analyzeData_sound (t : List File) (wf : WellFormed t) :
    (∀ rank, TopologicalOrder t rank → analyzeData t = .ok false) ∧
      analyzeDataOnPath t = analyzeData t := by
  obtain ⟨b, hres, hpath, hiff⟩ := analyzeData_spec wf
  refine ⟨?_, by rw [hres, hpath]⟩
  intro rank htopo
  cases b with
  | true => exact absurd (hiff.mp rfl) (not_hasCycle_of_topologicalOrder htopo)
  | false => exact hres

/-- Witness of C3: the table of `A: B\nC: D\n` with the rank 1 for `A`, `C` and 0 for `B`,
`D`. -/
theorem analyzeData_sound_witness :
    WellFormed tableTwoChains ∧
      TopologicalOrder tableTwoChains (fun a => if a = 0 ∨ a = 2 then 1 else 0) ∧
      analyzeData tableTwoChains = .ok false :=
  ⟨wellFormed_twoChains, topologicalOrder_twoChains,
    (analyzeData_sound tableTwoChains wellFormed_twoChains).1 _ topologicalOrder_twoChains⟩

theorem dfs_noDependencies (k : Nat) (t : List File) (f : File) (st : DfsState)
    (vis : List File) (hf : f.numberOfDependencies = 0)
    (hrep : Rep st.visited st.visitedIndex vis) (hlen : vis.length < st.visited.length) :
    ∃ st1 vis1, dfs (k + 1) t f st = .ok (false, st1) ∧
      Rep st1.visited st1.visitedIndex vis1 ∧ st1.visited.length = st.visited.length ∧
      vis1.length ≤ vis.length + 1 := by
  rw [dfs, hf]
  simp only [Int.toNat_zero, dfsLoop]
  unfold dfsFinish
  rw [dfsContains_rep _ _ _ _ hrep]
  by_cases hmem : f.fileName ∈ vis.map File.fileName
  · simp only [hmem, decide_True]
    exact ⟨st, vis, rfl, hrep, rfl, Nat.le_succ _⟩
  · simp only [hmem, decide_False]
    obtain ⟨hpush, hrep1⟩ := pushSlot_rep _ _ _ f hrep hlen
    rw [hpush]
    exact ⟨_, vis ++ [f], rfl, hrep1, by simp, by simp⟩

theorem analyzeLoop_noDependencies (k : Nat) (t : List File) :
    ∀ (roots : List File) (visited : List (Option File)) (vi : Int) (vis : List File),
      (∀ f, f ∈ roots → f.numberOfDependencies = 0) → Rep visited vi vis →
      vis.length + roots.length ≤ visited.length →
      ∃ vi1, analyzeLoop (k + 1) t roots visited vi = .ok (false, vi1) := by
  intro roots
  induction roots with
  | nil => intro visited vi vis _ _ _; exact ⟨vi, rfl⟩
  | cons f roots ih =>
    intro visited vi vis hall hrep hlen
    simp only [List.length_cons] at hlen
    obtain ⟨st1, vis1, hres, hrep1, hlen1, hle⟩ :=
      dfs_noDependencies k t f
        (DfsState.mk (List.replicate t.length none) (START_INDEX - 1) visited vi) vis
        (hall f (List.mem_cons_self _ _)) hrep (by simp only; omega)
    rw [analyzeLoop, hres]
    simp only at hlen1 ⊢
    exact ih st1.visited st1.visitedIndex vis1
      (fun g hg => hall g (List.mem_cons_of_mem _ hg)) hrep1 (by omega)

/-- C5: on every table in which every file has zero dependencies the first run of
`analyzeData` returns `false` (the names need not even be distinct); the empty input builds
the empty table, on which `analyzeData` returns `false`. -/
theorem analyzeData_noDependencies :
    (∀ t : List File, (∀ f, f ∈ t → f.numberOfDependencies = 0) →
      analyzeData t = .ok false) ∧
    buildTable [] = .ok [] ∧ analyzeData [] = .ok false := by
  refine ⟨?_, by decide, by decide⟩
  intro t hall
  obtain ⟨vi1, hres⟩ :=
    analyzeLoop_noDependencies t.length t t (List.replicate t.length none)
      (START_INDEX - 1) [] hall (rep_empty _) (by simp)
  unfold analyzeData analyzeDataFrom
  rw [hres]

/-- Witness of C5: the table of the input `A:\nB:\n`. -/
theorem analyzeData_noDependencies_witness :
    (∀ f, f ∈ tableNoEdges → f.numberOfDependencies = 0) ∧
      analyzeData tableNoEdges = .ok false :=
  ⟨by decide, analyzeData_noDependencies.1 tableNoEdges (by decide)⟩

/-! ## A larger array does not change the table -/

theorem addNewFile_mono {c1 c2 : Nat} (hc : c1 ≤ c2) {name : List Char} {t : List File}
    {n : Int} {x : List File × Nat} (h : addNewFile c1 name t n = .ok x) :
    addNewFile c2 name t n = .ok x := by
  unfold addNewFile at h ⊢
  by_cases h1 : n < NO_DEPENDENCIES
  · simp [h1] at h
  · by_cases h2 : c1 ≤ t.length
    · simp [h1, h2] at h
    · have h3 : ¬ c2 ≤ t.length := by omega
      simp only [h1, h2, h3, if_false] at h ⊢
      exact h

theorem processDependency_mono {c1 c2 : Nat} (hc : c1 ≤ c2) {ci : Nat} {d : List Char}
    {t : List File} {index : Nat} {x : List File × Nat}
    (h : processDependency c1 ci d t index = .ok x) :
    processDependency c2 ci d t index = .ok x := by
  unfold processDependency at h ⊢
  by_cases hf : containsFile d t = FILE_NOT_FOUND
  · simp only [hf, if_true] at h ⊢
    cases ha : addNewFile c1 d t NO_DEPENDENCIES with
    | error e => simp [ha] at h
    | ok y =>
      rw [addNewFile_mono hc ha]
      rw [ha] at h
      exact h
  · simp only [hf, if_false] at h ⊢
    exact h

theorem processDependencies_mono {c1 c2 : Nat} (hc : c1 ≤ c2) (ci : Nat) :
    ∀ (toks : List (List Char)) (t : List File) (index : Nat) (x : List File × Nat),
      processDependencies c1 ci toks t index = .ok x →
      processDependencies c2 ci toks t index = .ok x := by
  intro toks
  induction toks with
  | nil => intro t index x h; exact h
  | cons d toks ih =>
    intro t index x h
    rw [processDependencies] at h ⊢
    cases hd : processDependency c1 ci d t index with
    | error e => simp [hd] at h
    | ok y =>
      rw [processDependency_mono hc hd]
      rw [hd] at h
      exact ih _ _ _ h

theorem processLine_mono {c1 c2 : Nat} (hc : c1 ≤ c2) {t : List File} {line : List Char}
    {t1 : List File} (h : processLine c1 t line = .ok t1) :
    processLine c2 t line = .ok t1 := by
  unfold processLine at h ⊢
  cases hs : strtok FILE_NAME_DELIMITER line with
  | mk tok rest =>
    cases tok with
    | none => simp [hs] at h
    | some name =>
      simp only [hs] at h ⊢
      by_cases hf : containsFile name t = FILE_NOT_FOUND
      · simp only [hf, if_true] at h ⊢
        cases ha : addNewFile c1 name t (countDependencies line : Nat) with
        | error e => simp [ha] at h
        | ok y =>
          obtain ⟨t2, ci⟩ := y
          rw [addNewFile_mono hc ha]
          simp only [ha] at h ⊢
          cases hp : processDependencies c1 ci (dependencyTokens rest) t2 0 with
          | error e => simp [hp] at h
          | ok z =>
            rw [processDependencies_mono hc ci _ _ _ _ hp]
            rw [hp] at h
            exact h
      · simp only [hf, if_false] at h ⊢
        cases hg : t[(containsFile name t).toNat]? with
        | none => simp [hg] at h
        | some cf =>
          simp only [hg] at h ⊢
          by_cases hn : cf.numberOfDependencies < NO_DEPENDENCIES
          · simp [hn] at h
          · simp only [hn, if_false] at h ⊢
            cases hp : processDependencies c1 (containsFile name t).toNat
                (dependencyTokens rest)
                (t.set (containsFile name t).toNat
                  (updateExistingFile cf (countDependencies line : Nat)))
                cf.numberOfDependencies.toNat with
            | error e => simp [hp] at h
            | ok z =>
              rw [processDependencies_mono hc _ _ _ _ _ hp]
              rw [hp] at h
              exact h

theorem processLines_mono {c1 c2 : Nat} (hc : c1 ≤ c2) :
    ∀ (lines : List (List Char)) (t t1 : List File),
      processLines c1 lines t = .ok t1 → processLines c2 lines t = .ok t1 := by
  intro lines
  induction lines with
  | nil => intro t t1 h; exact h
  | cons line lines ih =>
    intro t t1 h
    rw [processLines] at h ⊢
    cases hl : processLine c1 t line with
    | error e => simp [hl] at h
    | ok t2 =>
      rw [processLine_mono hc hl]
      rw [hl] at h
      exact ih _ _ h

/-- A table built in an array of `c1` slots is built, the same, in every array that has at
least `c1` slots. -/
theorem processFile_mono {c1 c2 : Nat} (hc : c1 ≤ c2) {stream : List Char} {t : List File}
    (h : processFile c1 stream = .ok t) : processFile c2 stream = .ok t :=
  processLines_mono hc _ _ _ h

/-- When an array of `c` slots is enough, every array gives this table or a fault. -/
theorem processFile_unique {c c1 : Nat} {stream : List Char} {t t1 : List File}
    (h : processFile c stream = .ok t) (h1 : processFile c1 stream = .ok t1) : t1 = t := by
  rcases Nat.le_total c c1 with hle | hle
  · have := processFile_mono hle h
    rw [h1] at this
    exact Except.ok.inj this
  · have := processFile_mono hle h1
    rw [h] at this
    exact (Except.ok.inj this).symm

/-! ## Deduplication on the two example inputs -/

/-- C10 (deduplication across lines): the input `A: B\nA: B\n` builds the table with exactly
the two files `A` and `B`, where `A` has `numberOfDependencies = 1` and its one recorded
dependency is the index 1, the file `B`. -/
theorem dedup_across_lines :
    buildTable "A: B\nA: B\n".toList = .ok tableOneEdge ∧
      tableOneEdge.map File.fileName = ["A".toList, "B".toList] ∧
      tableOneEdge.map File.numberOfDependencies = [1, 0] ∧
      tableOneEdge.map recordedDependencies = [[1], []] := by
  decide

/-- Counterexample of C9: on `A: B, B, B\n` the array of `main` overflows, and in every
array that is large enough the file `A` is left with `numberOfDependencies = 0` (and with
the two stored entries `B` and ` B`), not with 1. -/
theorem spaced_repeat_miscounted :
    buildTable "A: B, B, B\n".toList = .error .outOfBounds ∧
      (∀ c t, processFile c "A: B, B, B\n".toList = .ok t → t = tableSpacedRepeat) ∧
      processFile 3 "A: B, B, B\n".toList = .ok tableSpacedRepeat ∧
      tableSpacedRepeat.map File.fileName = ["A".toList, "B".toList, " B".toList] ∧
      tableSpacedRepeat.map File.numberOfDependencies = [0, 0, 0] := by
  refine ⟨by decide, ?_, by decide, by decide, by decide⟩
  intro c t h
  exact processFile_unique (by decide : processFile 3 "A: B, B, B\n".toList = _) h

/-- C9 as amended (deduplication within one line): the input `A: B,B,B\n` builds the table
with the two files `A` and `B`, where `A` has `numberOfDependencies = 1` and its one
recorded dependency is the index 1, the file `B`. -/
theorem dedup_within_line :
    buildTable "A: B,B,B\n".toList = .ok tableOneEdge ∧
      tableOneEdge.map File.fileName = ["A".toList, "B".toList] ∧
      (tableOneEdge.map File.numberOfDependencies)[0]? = some 1 ∧
      (tableOneEdge.map recordedDependencies)[0]? = some [1] := by
  decide

/-! ## Tokens of a line in the format of the program -/

theorem dropWhile_not_mem_eq {p : Char → Bool} :
    ∀ (tok : List Char) (s : List Char), (∀ c ∈ tok, p c = true) →
      (tok ++ s).dropWhile p = s.dropWhile p := by
  intro tok
  induction tok with
  | nil => intro s _; rfl
  | cons a tok ih =>
    intro s h
    have ha := h a (List.mem_cons_self _ _)
    rw [List.cons_append, List.dropWhile_cons, if_pos ha]
    exact ih s (fun c hc => h c (List.mem_cons_of_mem _ hc))

theorem takeWhile_append_stop {p : Char → Bool} :
    ∀ (tok : List Char) (d : Char) (s : List Char), (∀ c ∈ tok, p c = true) →
      p d = false → (tok ++ d :: s).takeWhile p = tok := by
  intro tok
  induction tok with
  | nil => intro d s _ hd; simp [List.takeWhile_cons, hd]
  | cons a tok ih =>
    intro d s h hd
    have ha := h a (List.mem_cons_self _ _)
    rw [List.cons_append, List.takeWhile_cons, if_pos ha]
    rw [ih d s (fun c hc => h c (List.mem_cons_of_mem _ hc)) hd]

theorem takeWhile_all {p : Char → Bool} :
    ∀ (tok : List Char), (∀ c ∈ tok, p c = true) → tok.takeWhile p = tok := by
  intro tok
  induction tok with
  | nil => intro _; rfl
  | cons a tok ih =>
    intro h
    rw [List.takeWhile_cons, if_pos (h a (List.mem_cons_self _ _))]
    rw [ih (fun c hc => h c (List.mem_cons_of_mem _ hc))]

theorem strtok_nil (delims : List Char) : strtok delims [] = (none, []) := rfl

theorem strtok_skip {delims : List Char} {d : Char} (hd : d ∈ delims) (s : List Char) :
    strtok delims (d :: s) = strtok delims s := by
  unfold strtok
  rw [List.dropWhile_cons, if_pos (by simpa using hd)]

theorem strtok_token {delims : List Char} {tok : List Char} (hne : tok ≠ [])
    (hfree : ∀ c ∈ tok, c ∉ delims) {d : Char} (hd : d ∈ delims) (s : List Char) :
    strtok delims (tok ++ d :: s) = (some tok, s) := by
  obtain ⟨a, tl, rfl⟩ := List.exists_cons_of_ne_nil hne
  have ha : a ∉ delims := hfree a (List.mem_cons_self _ _)
  have hp : ∀ c ∈ a :: tl, (decide (c ∉ delims)) = true := by
    intro c hc; simpa using hfree c hc
  unfold strtok
  rw [List.cons_append, List.dropWhile_cons, if_neg (by simpa using ha)]
  simp only
  rw [← List.cons_append, takeWhile_append_stop (a :: tl) d s hp (by simpa using hd),
    dropWhile_not_mem_eq (a :: tl) (d :: s) hp, List.dropWhile_cons,
    if_neg (by simpa using hd)]
  rfl

theorem strtok_last {delims : List Char} {tok : List Char} (hne : tok ≠ [])
    (hfree : ∀ c ∈ tok, c ∉ delims) : strtok delims tok = (some tok, []) := by
  obtain ⟨a, tl, rfl⟩ := List.exists_cons_of_ne_nil hne
  have ha : a ∉ delims := hfree a (List.mem_cons_self _ _)
  have hp : ∀ c ∈ a :: tl, (decide (c ∉ delims)) = true := by
    intro c hc; simpa using hfree c hc
  unfold strtok
  rw [List.dropWhile_cons, if_neg (by simpa using ha)]
  simp only
  rw [takeWhile_all (a :: tl) hp]
  have := dropWhile_not_mem_eq (a :: tl) [] hp
  rw [List.append_nil] at this
  rw [this]
  rfl

theorem strtokLoop_nil (delims : List Char) (k : Nat) : strtokLoop delims k [] = [] := by
  cases k <;> rfl

theorem isName_free_name {n : List Char} (h : IsName n) :
    ∀ c ∈ n, c ∉ FILE_NAME_DELIMITER := by
  intro c hc
  obtain ⟨h1, h2, _, h4, _⟩ := h.2 c hc
  simp [FILE_NAME_DELIMITER, h1, h2, h4]

theorem isName_free_first {n : List Char} (h : IsName n) :
    ∀ c ∈ n, c ∉ FIRST_DEPENDENCY_DELIMITER := by
  intro c hc
  obtain ⟨_, h2, h3, h4, _⟩ := h.2 c hc
  simp [FIRST_DEPENDENCY_DELIMITER, h2, h3, h4]

theorem isName_free_dep {n : List Char} (h : IsName n) :
    ∀ c ∈ n, c ∉ DEPENDENCY_DELIMITER := by
  intro c hc
  obtain ⟨_, _, h3, h4, _⟩ := h.2 c hc
  simp [DEPENDENCY_DELIMITER, h3, h4]

theorem strtokLoop_join :
    ∀ (ds : List (List Char)) (k : Nat), (∀ d ∈ ds, IsName d) →
      (joinDependencies ds ++ ['\n']).length ≤ k →
      strtokLoop DEPENDENCY_DELIMITER k (joinDependencies ds ++ ['\n']) = ds := by
  intro ds
  induction ds with
  | nil =>
    intro k _ hk
    cases k with
    | zero => simp [joinDependencies] at hk
    | succ k => rfl
  | cons d ds ih =>
    intro k hall hk
    have hd := hall d (List.mem_cons_self _ _)
    cases k with
    | zero => simp at hk
    | succ k =>
      cases ds with
      | nil =>
        rw [strtokLoop]
        simp only [joinDependencies]
        rw [strtok_token hd.1 (isName_free_dep hd) (by decide : '\n' ∈ DEPENDENCY_DELIMITER)]
        simp only [strtokLoop_nil]
      | cons d1 ds =>
        rw [strtokLoop]
        simp only [joinDependencies, List.append_assoc, List.cons_append]
        rw [strtok_token hd.1 (isName_free_dep hd) (by decide : ',' ∈ DEPENDENCY_DELIMITER)]
        simp only
        rw [ih k (fun x hx => hall x (List.mem_cons_of_mem _ hx))]
        simp only [joinDependencies, List.length_append, List.length_cons,
          List.length_singleton, List.length_nil] at hk ⊢
        omega

theorem dependencyTokens_join (ds : List (List Char)) (hall : ∀ d ∈ ds, IsName d) :
    dependencyTokens (' ' :: (joinDependencies ds ++ ['\n'])) = ds := by
  unfold dependencyTokens
  rw [strtok_skip (by decide : ' ' ∈ FIRST_DEPENDENCY_DELIMITER)]
  cases ds with
  | nil => rfl
  | cons d ds =>
    have hd := hall d (List.mem_cons_self _ _)
    cases ds with
    | nil =>
      simp only [joinDependencies]
      rw [strtok_token hd.1 (isName_free_first hd)
        (by decide : '\n' ∈ FIRST_DEPENDENCY_DELIMITER)]
      rfl
    | cons d1 ds =>
      simp only [joinDependencies, List.append_assoc, List.cons_append]
      rw [strtok_token hd.1 (isName_free_first hd)
        (by decide : ',' ∈ FIRST_DEPENDENCY_DELIMITER)]
      simp only
      rw [strtokLoop_join (d1 :: ds) _ (fun x hx => hall x (List.mem_cons_of_mem _ hx))
        (Nat.le_refl _)]

theorem strtok_renderLine (name : List Char) (ds : List (List Char)) (hn : IsName name) :
    strtok FILE_NAME_DELIMITER (renderLine name ds) =
      (some name, ' ' :: (joinDependencies ds ++ ['\n'])) := by
  unfold renderLine
  exact strtok_token hn.1 (isName_free_name hn) (by decide : ':' ∈ FILE_NAME_DELIMITER) _

/-- Counterexample of C7: on the line `A: B, C` the dependency names are `B` and ` C`, the
second with its leading space; so the table of `A: B, C\nB:\nC:\n` has the four files `A`,
`B`, ` C` and `C`, and `A` does not refer to the file `C` of the line `C:`. -/
theorem tokens_keep_space :
    strtok FILE_NAME_DELIMITER "A: B, C\n".toList = (some "A".toList, " B, C\n".toList) ∧
      dependencyTokens " B, C\n".toList = ["B".toList, " C".toList] ∧
      (buildTable "A: B, C\nB:\nC:\n".toList).map (fun t => t.map File.fileName) =
        .ok ["A".toList, "B".toList, " C".toList, "C".toList] := by
  decide

/-! ## Lines of an input in the format of the program -/

theorem readLine_length :
    ∀ (n : Nat) (s : List Char),
      (readLine n s).1.length + (readLine n s).2.length = s.length := by
  intro n
  induction n with
  | zero => intro s; simp [readLine]
  | succ n ih =>
    intro s
    cases s with
    | nil => simp [readLine]
    | cons c s =>
      rw [readLine]
      by_cases hc : c = '\n'
      · simp only [hc, if_true, List.length_cons, List.length_nil]
        omega
      · simp only [hc, if_false, List.length_cons]
        have := ih s
        omega

theorem readLine_rest_lt (n : Nat) (c : Char) (s : List Char) :
    (readLine (n + 1) (c :: s)).2.length < (c :: s).length := by
  rw [readLine]
  by_cases hc : c = '\n'
  · simp [hc]
  · simp only [hc, if_false, List.length_cons]
    have := readLine_length n s
    omega

theorem fgetsLines_fuel :
    ∀ (k k1 : Nat) (s : List Char), s.length ≤ k → s.length ≤ k1 →
      fgetsLines k s = fgetsLines k1 s := by
  intro k
  induction k with
  | zero =>
    intro k1 s h _
    have hs : s = [] := List.length_eq_zero.mp (Nat.le_zero.mp h)
    subst hs
    cases k1 <;> rfl
  | succ k ih =>
    intro k1 s h h1
    cases s with
    | nil => cases k1 <;> rfl
    | cons c s =>
      cases k1 with
      | zero => simp at h1
      | succ k1 =>
        have hlt := readLine_rest_lt (MAX_LINE_SIZE - 2) c s
        simp only [fgetsLines, fgets]
        have h2 : MAX_LINE_SIZE - 1 = (MAX_LINE_SIZE - 2) + 1 := by decide
        rw [h2]
        rw [ih k1 _ (by simp only [List.length_cons] at h hlt; omega)
          (by simp only [List.length_cons] at h1 hlt; omega)]

theorem readLine_line :
    ∀ (body : List Char) (n : Nat) (rest : List Char), (∀ c ∈ body, c ≠ '\n') →
      body.length < n → readLine n (body ++ '\n' :: rest) = (body ++ ['\n'], rest) := by
  intro body
  induction body with
  | nil =>
    intro n rest _ hn
    cases n with
    | zero => simp at hn
    | succ n => simp [readLine]
  | cons a body ih =>
    intro n rest hfree hn
    cases n with
    | zero => simp at hn
    | succ n =>
      have ha := hfree a (List.mem_cons_self _ _)
      rw [List.cons_append, readLine]
      simp only [ha, if_false]
      rw [ih n rest (fun c hc => hfree c (List.mem_cons_of_mem _ hc))
        (by simp only [List.length_cons] at hn; omega)]
      rfl

theorem renderLine_eq (name : List Char) (ds : List (List Char)) :
    renderLine name ds = (name ++ ':' :: ' ' :: joinDependencies ds) ++ ['\n'] := by
  simp [renderLine]

theorem joinDependencies_free :
    ∀ (ds : List (List Char)), (∀ d ∈ ds, IsName d) →
      ∀ c ∈ joinDependencies ds, c ≠ '\n' ∧ c ≠ Char.ofNat 0 := by
  intro ds
  induction ds with
  | nil => intro _ c hc; simp [joinDependencies] at hc
  | cons d ds ih =>
    intro hall c hc
    have hd := hall d (List.mem_cons_self _ _)
    cases ds with
    | nil =>
      simp only [joinDependencies] at hc
      obtain ⟨_, _, _, h4, h5⟩ := hd.2 c hc
      exact ⟨h4, h5⟩
    | cons d1 ds =>
      simp only [joinDependencies, List.mem_append, List.mem_cons] at hc
      rcases hc with h | h | h
      · obtain ⟨_, _, _, h4, h5⟩ := hd.2 c h
        exact ⟨h4, h5⟩
      · subst h; exact ⟨by decide, by decide⟩
      · exact ih (fun x hx => hall x (List.mem_cons_of_mem _ hx)) c h

theorem renderLine_body_free (d : List Char × List (List Char)) (hd : IsDeclaration d) :
    ∀ c ∈ d.1 ++ ':' :: ' ' :: joinDependencies d.2, c ≠ '\n' ∧ c ≠ Char.ofNat 0 := by
  intro c hc
  simp only [List.mem_append, List.mem_cons] at hc
  rcases hc with h | h | h | h
  · obtain ⟨_, _, _, h4, h5⟩ := hd.1.2 c h
    exact ⟨h4, h5⟩
  · subst h; exact ⟨by decide, by decide⟩
  · subst h; exact ⟨by decide, by decide⟩
  · exact joinDependencies_free d.2 hd.2.1 c h

theorem takeWhile_renderLine (d : List Char × List (List Char)) (hd : IsDeclaration d) :
    (renderLine d.1 d.2).takeWhile (fun c => c ≠ Char.ofNat 0) = renderLine d.1 d.2 := by
  apply takeWhile_all
  intro c hc
  rw [renderLine_eq] at hc
  rcases List.mem_append.mp hc with h | h
  · simpa using (renderLine_body_free d hd c h).2
  · rw [List.mem_singleton.mp h]; decide

theorem fgetsLines_renderInput :
    ∀ (decls : List (List Char × List (List Char))) (k : Nat),
      (∀ d ∈ decls, IsDeclaration d) → (renderInput decls).length ≤ k →
      fgetsLines k (renderInput decls) = decls.map (fun d => renderLine d.1 d.2) := by
  intro decls
  induction decls with
  | nil => intro k _ _; cases k <;> rfl
  | cons d decls ih =>
    intro k hall hk
    have hd := hall d (List.mem_cons_self _ _)
    have hlen : (renderLine d.1 d.2).length < MAX_LINE_SIZE := hd.2.2
    have hread : readLine (MAX_LINE_SIZE - 1) (renderInput (d :: decls)) =
        (renderLine d.1 d.2, renderInput decls) := by
      have := readLine_line (d.1 ++ ':' :: ' ' :: joinDependencies d.2) (MAX_LINE_SIZE - 1)
        (renderInput decls) (fun c hc => (renderLine_body_free d hd c hc).1)
        (by rw [renderLine_eq] at hlen
            have h1 : MAX_LINE_SIZE = 1001 := rfl
            rw [h1] at hlen ⊢
            simp only [List.length_append, List.length_singleton, List.length_cons] at hlen ⊢
            omega)
      rw [← renderLine_eq] at this
      rw [← this, renderInput, renderLine_eq]
      simp
    have hne : ∃ c s, renderInput (d :: decls) = c :: s := by
      obtain ⟨a, tl, hatl⟩ := List.exists_cons_of_ne_nil hd.1.1
      refine ⟨a, tl ++ ':' :: ' ' :: (joinDependencies d.2 ++ ['\n']) ++ renderInput decls, ?_⟩
      rw [renderInput, renderLine, hatl]
      simp
    obtain ⟨c, s, hcs⟩ := hne
    cases k with
    | zero => rw [hcs] at hk; simp at hk
    | succ k =>
      rw [fgetsLines]
      have hf : fgets MAX_LINE_SIZE (renderInput (d :: decls)) =
          some (renderLine d.1 d.2, renderInput decls) := by
        rw [← hread, hcs]; rfl
      rw [hf]
      simp only [List.map_cons]
      rw [takeWhile_renderLine d hd,
        ih k (fun x hx => hall x (List.mem_cons_of_mem _ hx))
          (by rw [renderInput] at hk
              simp only [List.length_append] at hk
              have : 0 < (renderLine d.1 d.2).length := by
                rw [renderLine_eq]; simp
              omega)]

/-- The lines that the reading loops see on an input in the format of the program are the
lines of its declarations. -/
theorem inputLines_renderInput (decls : List (List Char × List (List Char)))
    (hall : ∀ d ∈ decls, IsDeclaration d) :
    inputLines (renderInput decls) = decls.map (fun d => renderLine d.1 d.2) :=
  fgetsLines_renderInput decls _ hall (Nat.le_refl _)

/-! ## A file that depends on itself -/

theorem processLine_selfLoop (N : List Char) (hn : IsName N) (hv : isValidName N = true)
    (c : Nat) (hc : 1 ≤ c) :
    processLine c [] (renderLine N [N]) = .ok [⟨N, 0 :: List.replicate 99 0, 1⟩] := by
  have hcount : countDependencies (renderLine N [N]) = 1 := by
    unfold countDependencies
    rw [strtok_renderLine N [N] hn]
    simp only
    rw [dependencyTokens_join [N] (by simpa using hn)]
    simp [hv]
  have hc0 : ¬ c ≤ 0 := by omega
  unfold processLine
  rw [strtok_renderLine N [N] hn, hcount]
  simp only
  rw [dependencyTokens_join [N] (by simpa using hn)]
  simp [containsFile, containsFileFrom, FILE_NOT_FOUND, addNewFile, NO_DEPENDENCIES, hc0,
    processDependencies, processDependency, initializeFile, addNewDependency,
    containsDependency, containsDependencyLoop, MAX_NUMBER_OF_DEPENDENCIES]

/-- Counterexample of C4: the name `_x` does not start with a letter or a digit, so the
counting pass gives the file zero dependencies: the input `_x: _x\n` builds the single file
`_x` with `numberOfDependencies = 0`, and `analyzeData` returns `false`. -/
theorem selfLoop_missed :
    buildTable "_x: _x\n".toList = .ok [⟨"_x".toList, 0 :: List.replicate 99 0, 0⟩] ∧
      checkDependency "_x: _x\n".toList = .ok false := by
  decide

/-- C4 as amended (self-loop): for every name `N` that is free of delimiter characters,
starts with a letter or a digit and whose line fits into the line buffer, the one-line
input `N: N` builds the table with the single file `N`, whose one recorded dependency is
its own index 0, and `analyzeData` returns `true` on it. -/
theorem selfLoop_detected (N : List Char) (hn : IsName N) (hv : isValidName N = true)
    (hlen : (renderLine N [N]).length < MAX_LINE_SIZE) :
    buildTable (renderLine N [N]) = .ok [⟨N, 0 :: List.replicate 99 0, 1⟩] ∧
      recordedDependencies ⟨N, 0 :: List.replicate 99 0, 1⟩ = [0] ∧
      analyzeData [⟨N, 0 :: List.replicate 99 0, 1⟩] = .ok true ∧
      checkDependency (renderLine N [N]) = .ok true := by
  have hlines : inputLines (renderLine N [N]) = [renderLine N [N]] := by
    have := inputLines_renderInput [(N, [N])]
      (by intro d hd
          rw [List.mem_singleton.mp hd]
          exact ⟨hn, by simpa using hn, hlen⟩)
    simpa [renderInput] using this
  have hbuild : buildTable (renderLine N [N]) = .ok [⟨N, 0 :: List.replicate 99 0, 1⟩] := by
    unfold buildTable processFile
    rw [hlines, processLines, processLine_selfLoop N hn hv _
      (by unfold estimateFilesCount; rw [hlines]; simp)]
    rfl
  have hwf : WellFormed [⟨N, 0 :: List.replicate 99 0, 1⟩] := by
    refine ⟨by simp, ?_⟩
    intro f hf i hi
    rw [List.mem_singleton.mp hf] at hi ⊢
    have : i = 0 := by simp only at hi; omega
    subst this
    exact ⟨0, rfl, by simp⟩
  have hcyc : HasCycle [⟨N, 0 :: List.replicate 99 0, 1⟩] :=
    ⟨0, Relation.TransGen.single ⟨_, rfl, 0, by simp, rfl⟩⟩
  have hres : analyzeData [⟨N, 0 :: List.replicate 99 0, 1⟩] = .ok true := by
    obtain ⟨b, hb, _, hiff⟩ := analyzeData_spec hwf
    rw [hb, hiff.mpr hcyc]
  refine ⟨hbuild, rfl, hres, ?_⟩
  unfold checkDependency
  rw [hbuild]
  exact hres

/-- Witness of C4 as amended: the input `A: A\n`. -/
theorem selfLoop_detected_witness :
    renderLine "A".toList ["A".toList] = "A: A\n".toList ∧ IsName "A".toList ∧
      isValidName "A".toList = true ∧ checkDependency "A: A\n".toList = .ok true :=
  ⟨by decide, by decide, by decide,
    (selfLoop_detected "A".toList (by decide) (by decide) (by decide)).2.2.2⟩

/-! ## What one step of the builder does -/

theorem containsFileFrom_spec (name : List Char) :
    ∀ (l : List File) (i : Nat),
      (containsFileFrom name l i = FILE_NOT_FOUND ∧ ∀ f ∈ l, f.fileName ≠ name) ∨
      (∃ j f, containsFileFrom name l i = ((i + j : Nat) : Int) ∧ l[j]? = some f ∧
        f.fileName = name) := by
  intro l
  induction l with
  | nil => intro i; left; exact ⟨rfl, fun _ h => absurd h (List.not_mem_nil _)⟩
  | cons g l ih =>
    intro i
    rw [containsFileFrom]
    by_cases hg : g.fileName = name
    · right
      exact ⟨0, g, by simp [hg], by simp, hg⟩
    · rw [if_neg hg]
      rcases ih (i + 1) with ⟨h1, h2⟩ | ⟨j, f, h1, h2, h3⟩
      · left
        refine ⟨h1, ?_⟩
        intro f hf
        rcases List.mem_cons.mp hf with h | h
        · rw [h]; exact hg
        · exact h2 f h
      · right
        refine ⟨j + 1, f, ?_, by simpa using h2, h3⟩
        rw [h1]
        congr 1
        omega

theorem containsFile_spec (name : List Char) (t : List File) :
    (containsFile name t = FILE_NOT_FOUND ∧ ∀ f ∈ t, f.fileName ≠ name) ∨
      (∃ j f, containsFile name t = ((j : Nat) : Int) ∧ t[j]? = some f ∧
        f.fileName = name) := by
  rcases containsFileFrom_spec name t 0 with h | ⟨j, f, h1, h2, h3⟩
  · left; exact h
  · right
    refine ⟨j, f, ?_, h2, h3⟩
    unfold containsFile
    rw [h1]
    simp

theorem addNewFile_ok {c : Nat} {name : List Char} {t : List File} {n : Int}
    {t1 : List File} {j : Nat} (h : addNewFile c name t n = .ok (t1, j)) :
    t1 = t ++ [initializeFile name n] ∧ j = t.length ∧ 0 ≤ n := by
  unfold addNewFile at h
  by_cases h1 : n < NO_DEPENDENCIES
  · simp [h1] at h
  · by_cases h2 : c ≤ t.length
    · simp [h1, h2] at h
    · simp only [h1, h2, if_false] at h
      have := Except.ok.inj h
      simp only [Prod.mk.injEq] at this
      refine ⟨this.1.symm, this.2.symm, ?_⟩
      simp only [NO_DEPENDENCIES] at h1
      omega

/-- The lookup of a name with the creation of a placeholder: the table is unchanged and
the name is found at `j`, or the name is new and the placeholder is appended at `j`. -/
theorem resolve_ok {c : Nat} {d : List Char} {t t1 : List File} {j : Nat}
    (h : (if containsFile d t = FILE_NOT_FOUND then addNewFile c d t NO_DEPENDENCIES
      else .ok (t, (containsFile d t).toNat)) = .ok (t1, j)) :
    (t1 = t ∧ ∃ g, t[j]? = some g ∧ g.fileName = d) ∨
      (t1 = t ++ [initializeFile d 0] ∧ j = t.length ∧ ∀ f ∈ t, f.fileName ≠ d) := by
  rcases containsFile_spec d t with ⟨h1, h2⟩ | ⟨k, f, h1, h2, h3⟩
  · rw [if_pos h1] at h
    obtain ⟨ht, hj, _⟩ := addNewFile_ok h
    right
    exact ⟨ht, hj, h2⟩
  · have hne : containsFile d t ≠ FILE_NOT_FOUND := by
      rw [h1]; simp only [FILE_NOT_FOUND]; omega
    rw [if_neg hne, h1] at h
    have := Except.ok.inj h
    simp only [Prod.mk.injEq, Int.toNat_ofNat] at this
    left
    refine ⟨this.1.symm, f, ?_, h3⟩
    rw [← this.2]; exact h2

theorem containsDependencyLoop_ok (cf : File) (v : Int) :
    ∀ (rem i : Nat) (b : Bool), containsDependencyLoop cf v rem i = .ok b →
      (b = true ↔ v ∈ (cf.fileDependencies.drop i).take rem) := by
  intro rem
  induction rem with
  | zero =>
    intro i b h
    simp only [containsDependencyLoop] at h
    have := Except.ok.inj h
    subst this
    simp
  | succ rem ih =>
    intro i b h
    rw [containsDependencyLoop] at h
    cases hd : cf.fileDependencies[i]? with
    | none => simp [hd] at h
    | some w =>
      obtain ⟨hi, hw⟩ := List.getElem?_eq_some_iff.mp hd
      have hdrop : cf.fileDependencies.drop i = w :: cf.fileDependencies.drop (i + 1) := by
        rw [← hw]; exact List.drop_eq_getElem_cons hi
      simp only [hd] at h
      rw [hdrop, List.take_succ_cons, List.mem_cons]
      by_cases hwv : w = v
      · rw [if_pos hwv] at h
        have := Except.ok.inj h
        subst this
        simp [hwv]
      · rw [if_neg hwv] at h
        have := ih (i + 1) b h
        rw [this]
        constructor
        · exact Or.inr
        · rintro (h1 | h1)
          · exact absurd h1.symm hwv
          · exact h1

theorem containsDependency_ok {cf : File} {v : Int} {index : Nat} {b : Bool}
    (h : containsDependency cf v index = .ok b) :
    (b = true ↔ v ∈ cf.fileDependencies.take index) := by
  have := containsDependencyLoop_ok cf v index 0 b h
  simpa using this

theorem addNewDependency_ok {cf cf1 : File} {v : Int} {index index1 : Nat}
    (h : addNewDependency cf v index = .ok (cf1, index1)) :
    (v ∉ cf.fileDependencies.take index ∧ index < cf.fileDependencies.length ∧
        cf1 = { cf with fileDependencies := cf.fileDependencies.set index v } ∧
        index1 = index + 1) ∨
      (v ∈ cf.fileDependencies.take index ∧ 0 ≤ cf.numberOfDependencies ∧
        cf1 = { cf with numberOfDependencies := cf.numberOfDependencies - 1 } ∧
        index1 = index) := by
  unfold addNewDependency at h
  cases hc : containsDependency cf v index with
  | error e => simp [hc] at h
  | ok b =>
    have hb := containsDependency_ok hc
    simp only [hc] at h
    cases b with
    | false =>
      simp only at h
      by_cases hlen : index < cf.fileDependencies.length
      · rw [if_pos hlen] at h
        have := Except.ok.inj h
        simp only [Prod.mk.injEq] at this
        left
        refine ⟨?_, hlen, this.1.symm, this.2.symm⟩
        intro hmem
        exact absurd (hb.mpr hmem) (by simp)
      · rw [if_neg hlen] at h
        simp at h
    | true =>
      simp only at h
      by_cases hn : cf.numberOfDependencies < NO_DEPENDENCIES
      · rw [if_pos hn] at h
        simp at h
      · rw [if_neg hn] at h
        have := Except.ok.inj h
        simp only [Prod.mk.injEq] at this
        right
        refine ⟨hb.mp rfl, ?_, this.1.symm, this.2.symm⟩
        simp only [NO_DEPENDENCIES] at hn
        omega

/-- One iteration of the loop over the dependency tokens, when it ends without a fault:
the name is looked up (or appended as a placeholder) at `j`, and `j` is stored at `index`
in the current file, or it is among the `index` entries already and the count of the
current file is decremented. -/
theorem processDependency_ok {c ci : Nat} {d : List Char} {t t2 : List File}
    {index index2 : Nat} (h : processDependency c ci d t index = .ok (t2, index2)) :
    ∃ (t1 : List File) (j : Nat) (cf cf1 : File),
      ((t1 = t ∧ ∃ g, t[j]? = some g ∧ g.fileName = d) ∨
        (t1 = t ++ [initializeFile d 0] ∧ j = t.length ∧ ∀ f ∈ t, f.fileName ≠ d)) ∧
      t1[ci]? = some cf ∧ t2 = t1.set ci cf1 ∧
      (((j : Int) ∉ cf.fileDependencies.take index ∧ index < cf.fileDependencies.length ∧
          cf1 = { cf with fileDependencies := cf.fileDependencies.set index (j : Int) } ∧
          index2 = index + 1) ∨
        ((j : Int) ∈ cf.fileDependencies.take index ∧ 0 ≤ cf.numberOfDependencies ∧
          cf1 = { cf with numberOfDependencies := cf.numberOfDependencies - 1 } ∧
          index2 = index)) := by
  unfold processDependency at h
  simp only at h
  cases hr : (if containsFile d t = FILE_NOT_FOUND then addNewFile c d t NO_DEPENDENCIES
      else .ok (t, (containsFile d t).toNat)) with
  | error e => simp [hr] at h
  | ok x =>
    obtain ⟨t1, j⟩ := x
    simp only [hr] at h
    cases hcf : t1[ci]? with
    | none => simp [hcf] at h
    | some cf =>
      simp only [hcf] at h
      cases ha : addNewDependency cf (j : Int) index with
      | error e => simp [ha] at h
      | ok y =>
        obtain ⟨cf1, index1⟩ := y
        simp only [ha] at h
        have := Except.ok.inj h
        simp only [Prod.mk.injEq] at this
        refine ⟨t1, j, cf, cf1, resolve_ok hr, hcf, this.1.symm, ?_⟩
        rw [← this.2]
        exact addNewDependency_ok ha

/-! ## The invariants are kept by one step of the builder -/

theorem getElem?_set_cases {t : List File} {ci a : Nat} {x f : File}
    (h : (t.set ci x)[a]? = some f) : (a = ci ∧ f = x) ∨ (a ≠ ci ∧ t[a]? = some f) := by
  rw [List.getElem?_set] at h
  by_cases hc : ci = a
  · rw [if_pos hc] at h
    left
    refine ⟨hc.symm, ?_⟩
    by_cases hl : ci < t.length
    · rw [if_pos hl] at h; exact (Option.some.inj h).symm
    · rw [if_neg hl] at h; simp at h
  · rw [if_neg hc] at h
    right
    exact ⟨fun e => hc e.symm, h⟩

theorem map_fileName_set {t : List File} {ci : Nat} {cf : File} (x : File)
    (hcf : t[ci]? = some cf) (hx : x.fileName = cf.fileName) :
    (t.set ci x).map File.fileName = t.map File.fileName := by
  rw [List.map_set]
  apply List.ext_getElem?
  intro n
  rw [List.getElem?_set]
  by_cases hc : ci = n
  · subst hc
    obtain ⟨hl, _⟩ := List.getElem?_eq_some_iff.mp hcf
    rw [if_pos rfl, if_pos (by simpa using hl), List.getElem?_map, hcf, hx]
    rfl
  · rw [if_neg hc]

theorem liveCount_self (ci index : Nat) (f : File) : liveCount ci index ci f = index := by
  simp [liveCount]

theorem liveCount_other {ci a : Nat} (h : a ≠ ci) (index : Nat) (f : File) :
    liveCount ci index a f = f.numberOfDependencies.toNat := by
  simp [liveCount, h]

/-- The lookup of a name keeps the invariant, and the name is at the index `j`. -/
theorem lineInv_resolve {t t1 : List File} {ci index j : Nat} {d : List Char}
    (inv : LineInv t ci index)
    (hr : (t1 = t ∧ ∃ g, t[j]? = some g ∧ g.fileName = d) ∨
      (t1 = t ++ [initializeFile d 0] ∧ j = t.length ∧ ∀ f ∈ t, f.fileName ≠ d)) :
    LineInv t1 ci index ∧ j < t1.length ∧ (t1.map File.fileName)[j]? = some d := by
  rcases hr with ⟨rfl, g, hg, hgd⟩ | ⟨rfl, rfl, hnew⟩
  · refine ⟨inv, (List.getElem?_eq_some_iff.mp hg).1, ?_⟩
    rw [List.getElem?_map, hg, ← hgd]; rfl
  · refine ⟨⟨?_, ?_, ?_, ?_⟩, by simp, ?_⟩
    · rw [List.map_append]
      refine List.Nodup.append inv.names (List.nodup_singleton _) ?_
      intro x hx hx'
      simp only [List.map_cons, List.map_nil, List.mem_singleton] at hx'
      obtain ⟨f, hf, hfx⟩ := List.mem_map.mp hx
      exact hnew f hf (by rw [hfx, hx']; rfl)
    · have := inv.cur; simp; omega
    · intro a f ha i hi
      by_cases hlt : a < t.length
      · rw [List.getElem?_append_left hlt] at ha
        obtain ⟨k, hk, hkl⟩ := inv.valid a f ha i hi
        exact ⟨k, hk, by simp; omega⟩
      · rw [List.getElem?_append_right (by omega)] at ha
        have ha0 : a - t.length = 0 := by
          by_contra hne
          rw [List.getElem?_eq_none (by simp; omega)] at ha
          simp at ha
        rw [ha0] at ha
        have hf : f = initializeFile d 0 := by simpa using ha.symm
        have hne : a ≠ ci := by have := inv.cur; omega
        rw [liveCount_other hne, hf] at hi
        simp [initializeFile] at hi
    · intro a f ha
      by_cases hlt : a < t.length
      · rw [List.getElem?_append_left hlt] at ha
        exact inv.dedup a f ha
      · rw [List.getElem?_append_right (by omega)] at ha
        have ha0 : a - t.length = 0 := by
          by_contra hne
          rw [List.getElem?_eq_none (by simp; omega)] at ha
          simp at ha
        rw [ha0] at ha
        have hf : f = initializeFile d 0 := by simpa using ha.symm
        have hne : a ≠ ci := by have := inv.cur; omega
        rw [liveCount_other hne, hf]
        simp [initializeFile]
    · rw [List.map_append, List.getElem?_append_right (by simp)]
      simp [initializeFile]

theorem lineDecl_resolve {P : List (List Char × List Char)} {t t1 : List File}
    {ci index j : Nat} {d : List Char} (inv : LineInv t ci index)
    (dec : LineDecl P t ci index)
    (hr : (t1 = t ∧ ∃ g, t[j]? = some g ∧ g.fileName = d) ∨
      (t1 = t ++ [initializeFile d 0] ∧ j = t.length ∧ ∀ f ∈ t, f.fileName ≠ d)) :
    LineDecl P t1 ci index := by
  rcases hr with ⟨rfl, _⟩ | ⟨rfl, rfl, _⟩
  · exact dec
  · refine ⟨?_, ?_⟩
    · intro a f ha i hi k y hk hy
      by_cases hlt : a < t.length
      · rw [List.getElem?_append_left hlt] at ha
        obtain ⟨k1, hk1, hk1l⟩ := inv.valid a f ha i hi
        rw [hk] at hk1
        have hkk : k = k1 := Int.ofNat.inj (Option.some.inj hk1)
        subst hkk
        rw [List.map_append, List.getElem?_append_left (by simpa using hk1l)] at hy
        exact dec.recorded_declared a f ha i hi k y hk hy
      · rw [List.getElem?_append_right (by omega)] at ha
        have ha0 : a - t.length = 0 := by
          by_contra hne
          rw [List.getElem?_eq_none (by simp; omega)] at ha
          simp at ha
        rw [ha0] at ha
        have hf : f = initializeFile d 0 := by simpa using ha.symm
        have hne : a ≠ ci := by have := inv.cur; omega
        rw [liveCount_other hne, hf] at hi
        simp [initializeFile] at hi
    · intro X y hxy
      obtain ⟨a, f, ha, hfx, i, hi, k, hk, hy⟩ := dec.declared_recorded X y hxy
      have hal := (List.getElem?_eq_some_iff.mp ha).1
      have hkl : k < (t.map File.fileName).length := (List.getElem?_eq_some_iff.mp hy).1
      refine ⟨a, f, ?_, hfx, i, hi, k, hk, ?_⟩
      · rw [List.getElem?_append_left hal]; exact ha
      · rw [List.map_append, List.getElem?_append_left hkl]; exact hy

/-- Storing the new index `j` at `index` keeps the invariant, with `index + 1`. -/
theorem lineInv_store {t : List File} {ci index j : Nat} {cf : File}
    (inv : LineInv t ci index) (hcf : t[ci]? = some cf) (hj : j < t.length)
    (hnot : (j : Int) ∉ cf.fileDependencies.take index)
    (hlen : index < cf.fileDependencies.length) :
    LineInv (t.set ci { cf with fileDependencies := cf.fileDependencies.set index (j : Int) })
      ci (index + 1) := by
  have htake : (cf.fileDependencies.set index (j : Int)).take (index + 1) =
      cf.fileDependencies.take index ++ [(j : Int)] := by
    rw [List.take_succ, List.getElem?_set_self hlen]
    congr 1
    apply List.ext_getElem?
    intro n
    rw [List.getElem?_take, List.getElem?_take]
    by_cases hn : n < index
    · rw [if_pos hn, if_pos hn, List.getElem?_set_ne (by omega)]
    · rw [if_neg hn, if_neg hn]
  refine ⟨?_, by simpa using inv.cur, ?_, ?_⟩
  · rw [map_fileName_set
      { cf with fileDependencies := cf.fileDependencies.set index (j : Int) } hcf rfl]
    exact inv.names
  · intro a f ha i hi
    rw [List.length_set]
    rcases getElem?_set_cases ha with ⟨rfl, rfl⟩ | ⟨hne, ha'⟩
    · rw [liveCount_self] at hi
      by_cases hii : i = index
      · subst hii
        exact ⟨j, by simp [List.getElem?_set_self hlen], hj⟩
      · have hlt : i < index := by omega
        have := inv.valid a cf hcf i (by rw [liveCount_self]; exact hlt)
        simpa [List.getElem?_set_ne (Ne.symm hii)] using this
    · rw [liveCount_other hne] at hi
      exact inv.valid a f ha' i (by rw [liveCount_other hne]; exact hi)
  · intro a f ha
    rcases getElem?_set_cases ha with ⟨rfl, rfl⟩ | ⟨hne, ha'⟩
    · rw [liveCount_self]
      simp only
      rw [htake]
      have hold := inv.dedup a cf hcf
      rw [liveCount_self] at hold
      refine List.Nodup.append hold (List.nodup_singleton _) ?_
      intro x hx hx'
      rw [List.mem_singleton.mp hx'] at hx
      exact hnot hx
    · rw [liveCount_other hne]
      have := inv.dedup a f ha'
      rw [liveCount_other hne] at this
      exact this

/-- Changing only the count of the current file keeps the invariant. -/
theorem lineInv_count {t : List File} {ci index : Nat} {cf : File} (n : Int)
    (inv : LineInv t ci index) (hcf : t[ci]? = some cf) :
    LineInv (t.set ci { cf with numberOfDependencies := n }) ci index := by
  refine ⟨?_, by simpa using inv.cur, ?_, ?_⟩
  · rw [map_fileName_set { cf with numberOfDependencies := n } hcf rfl]
    exact inv.names
  · intro a f ha i hi
    rw [List.length_set]
    rcases getElem?_set_cases ha with ⟨rfl, rfl⟩ | ⟨hne, ha'⟩
    · rw [liveCount_self] at hi
      exact inv.valid a cf hcf i (by rw [liveCount_self]; exact hi)
    · rw [liveCount_other hne] at hi
      exact inv.valid a f ha' i (by rw [liveCount_other hne]; exact hi)
  · intro a f ha
    rcases getElem?_set_cases ha with ⟨rfl, rfl⟩ | ⟨hne, ha'⟩
    · rw [liveCount_self]
      have := inv.dedup a cf hcf
      rw [liveCount_self] at this
      exact this
    · rw [liveCount_other hne]
      have := inv.dedup a f ha'
      rw [liveCount_other hne] at this
      exact this

theorem lineDecl_store {P : List (List Char × List Char)} {t : List File}
    {ci index j : Nat} {cf : File} {d : List Char} (dec : LineDecl P t ci index)
    (hcf : t[ci]? = some cf) (hjd : (t.map File.fileName)[j]? = some d)
    (hlen : index < cf.fileDependencies.length) :
    LineDecl (P ++ [(cf.fileName, d)])
      (t.set ci { cf with fileDependencies := cf.fileDependencies.set index (j : Int) })
      ci (index + 1) := by
  have hnames := map_fileName_set
    { cf with fileDependencies := cf.fileDependencies.set index (j : Int) } hcf rfl
  refine ⟨?_, ?_⟩
  · intro a f ha i hi k y hk hy
    rw [hnames] at hy
    rcases getElem?_set_cases ha with ⟨rfl, rfl⟩ | ⟨hne, ha'⟩
    · rw [liveCount_self] at hi
      simp only at hk ⊢
      by_cases hii : i = index
      · subst hii
        rw [List.getElem?_set_self hlen] at hk
        have hkj : j = k := Int.ofNat.inj (Option.some.inj hk)
        subst hkj
        rw [hjd] at hy
        rw [← Option.some.inj hy]
        exact List.mem_append_right _ (List.mem_singleton.mpr rfl)
      · rw [List.getElem?_set_ne (Ne.symm hii)] at hk
        exact List.mem_append_left _
          (dec.recorded_declared a cf hcf i (by rw [liveCount_self]; omega) k y hk hy)
    · rw [liveCount_other hne] at hi
      exact List.mem_append_left _
        (dec.recorded_declared a f ha' i (by rw [liveCount_other hne]; exact hi) k y hk hy)
  · intro X y hxy
    rcases List.mem_append.mp hxy with h | h
    · obtain ⟨a, f, ha, hfx, i, hi, k, hk, hy⟩ := dec.declared_recorded X y h
      by_cases hac : a = ci
      · subst hac
        rw [hcf] at ha
        have hfc : cf = f := Option.some.inj ha
        subst hfc
        rw [liveCount_self] at hi
        refine ⟨a, _, List.getElem?_set_self (List.getElem?_eq_some_iff.mp hcf).1, hfx, i,
          by rw [liveCount_self]; omega, k, ?_, by rw [hnames]; exact hy⟩
        simp only
        rw [List.getElem?_set_ne (by omega)]
        exact hk
      · refine ⟨a, f, ?_, hfx, i, ?_, k, hk, by rw [hnames]; exact hy⟩
        · rw [List.getElem?_set_ne (Ne.symm hac)]; exact ha
        · rw [liveCount_other hac] at hi ⊢; exact hi
    · have hp := List.mem_singleton.mp h
      simp only [Prod.mk.injEq] at hp
      obtain ⟨rfl, rfl⟩ := hp
      refine ⟨ci, _, List.getElem?_set_self (List.getElem?_eq_some_iff.mp hcf).1, rfl, index,
        by rw [liveCount_self]; omega, j, ?_, by rw [hnames]; exact hjd⟩
      simp only
      rw [List.getElem?_set_self hlen]

theorem lineDecl_count {P : List (List Char × List Char)} {t : List File}
    {ci index : Nat} {cf : File} (n : Int) (dec : LineDecl P t ci index)
    (hcf : t[ci]? = some cf) :
    LineDecl P (t.set ci { cf with numberOfDependencies := n }) ci index := by
  have hnames := map_fileName_set { cf with numberOfDependencies := n } hcf rfl
  refine ⟨?_, ?_⟩
  · intro a f ha i hi k y hk hy
    rw [hnames] at hy
    rcases getElem?_set_cases ha with ⟨rfl, rfl⟩ | ⟨hne, ha'⟩
    · rw [liveCount_self] at hi
      exact dec.recorded_declared a cf hcf i (by rw [liveCount_self]; exact hi) k y hk hy
    · rw [liveCount_other hne] at hi
      exact dec.recorded_declared a f ha' i (by rw [liveCount_other hne]; exact hi) k y hk hy
  · intro X y hxy
    obtain ⟨a, f, ha, hfx, i, hi, k, hk, hy⟩ := dec.declared_recorded X y hxy
    by_cases hac : a = ci
    · subst hac
      rw [hcf] at ha
      have hfc : cf = f := Option.some.inj ha
      subst hfc
      rw [liveCount_self] at hi
      exact ⟨a, _, List.getElem?_set_self (List.getElem?_eq_some_iff.mp hcf).1, hfx, i,
        by rw [liveCount_self]; exact hi, k, hk, by rw [hnames]; exact hy⟩
    · refine ⟨a, f, ?_, hfx, i, ?_, k, hk, by rw [hnames]; exact hy⟩
      · rw [List.getElem?_set_ne (Ne.symm hac)]; exact ha
      · rw [liveCount_other hac] at hi ⊢; exact hi

theorem lineDecl_present {P : List (List Char × List Char)} {t : List File}
    {ci index j : Nat} {cf : File} {d : List Char} (dec : LineDecl P t ci index)
    (hcf : t[ci]? = some cf) (hjd : (t.map File.fileName)[j]? = some d)
    (hmem : (j : Int) ∈ cf.fileDependencies.take index) :
    LineDecl (P ++ [(cf.fileName, d)]) t ci index := by
  refine ⟨?_, ?_⟩
  · intro a f ha i hi k y hk hy
    exact List.mem_append_left _ (dec.recorded_declared a f ha i hi k y hk hy)
  · intro X y hxy
    rcases List.mem_append.mp hxy with h | h
    · exact dec.declared_recorded X y h
    · have hp := List.mem_singleton.mp h
      simp only [Prod.mk.injEq] at hp
      obtain ⟨rfl, rfl⟩ := hp
      obtain ⟨i, hi⟩ := List.getElem?_of_mem hmem
      have hil : i < index := by
        have := (List.getElem?_eq_some_iff.mp hi).1
        simp only [List.length_take] at this
        omega
      rw [List.getElem?_take, if_pos hil] at hi
      exact ⟨ci, cf, hcf, rfl, i, by rw [liveCount_self]; exact hil, j, hi, hjd⟩

/-- One iteration of the loop over the dependency tokens keeps the invariant, and the
difference between the count of the current file and `index` goes down by one. -/
theorem processDependency_inv {c ci : Nat} {d : List Char} {t t2 : List File}
    {index index2 : Nat} {cf : File} (inv : LineInv t ci index) (hcf : t[ci]? = some cf)
    (h : processDependency c ci d t index = .ok (t2, index2)) :
    LineInv t2 ci index2 ∧
      ∃ cf2, t2[ci]? = some cf2 ∧ cf2.fileName = cf.fileName ∧
        cf2.numberOfDependencies - (index2 : Int) =
          cf.numberOfDependencies - (index : Int) - 1 := by
  obtain ⟨t1, j, cf0, cf1, hr, hcf0, ht2, hadd⟩ := processDependency_ok h
  obtain ⟨inv1, hj, hjd⟩ := lineInv_resolve inv hr
  have hcfeq : cf0 = cf := by
    rcases hr with ⟨rfl, _⟩ | ⟨rfl, _, _⟩
    · rw [hcf] at hcf0; exact (Option.some.inj hcf0).symm
    · rw [List.getElem?_append_left inv.cur, hcf] at hcf0
      exact (Option.some.inj hcf0).symm
  subst hcfeq
  have hcil : ci < t1.length := inv1.cur
  rcases hadd with ⟨hnot, hlen, rfl, rfl⟩ | ⟨hmem, _, rfl, rfl⟩
  · subst ht2
    refine ⟨lineInv_store inv1 hcf0 hj hnot hlen, _, List.getElem?_set_self hcil, rfl, ?_⟩
    simp only
    push_cast
    omega
  · subst ht2
    refine ⟨lineInv_count _ inv1 hcf0, _, List.getElem?_set_self hcil, rfl, ?_⟩
    simp only
    omega

/-- One iteration of the loop over the dependency tokens adds the pair of the current file
and the token to the pairs that the entries in use stand for. -/
theorem processDependency_decl {P : List (List Char × List Char)} {c ci : Nat}
    {d : List Char} {t t2 : List File} {index index2 : Nat} {cf : File}
    (inv : LineInv t ci index) (dec : LineDecl P t ci index) (hcf : t[ci]? = some cf)
    (h : processDependency c ci d t index = .ok (t2, index2)) :
    LineDecl (P ++ [(cf.fileName, d)]) t2 ci index2 := by
  obtain ⟨t1, j, cf0, cf1, hr, hcf0, ht2, hadd⟩ := processDependency_ok h
  obtain ⟨inv1, hj, hjd⟩ := lineInv_resolve inv hr
  have dec1 := lineDecl_resolve inv dec hr
  have hcfeq : cf0 = cf := by
    rcases hr with ⟨rfl, _⟩ | ⟨rfl, _, _⟩
    · rw [hcf] at hcf0; exact (Option.some.inj hcf0).symm
    · rw [List.getElem?_append_left inv.cur, hcf] at hcf0
      exact (Option.some.inj hcf0).symm
  subst hcfeq
  rcases hadd with ⟨_, hlen, rfl, rfl⟩ | ⟨hmem, _, rfl, rfl⟩
  · subst ht2
    exact lineDecl_store dec1 hcf0 hjd hlen
  · subst ht2
    exact lineDecl_count _ (lineDecl_present dec1 hcf0 hjd hmem) hcf0

/-- The loop over the dependency tokens of a line keeps the invariant. -/
theorem processDependencies_inv (c ci : Nat) (X : List Char) :
    ∀ (toks : List (List Char)) (t t2 : List File) (index index2 : Nat) (cf : File),
      LineInv t ci index → t[ci]? = some cf → cf.fileName = X →
      processDependencies c ci toks t index = .ok (t2, index2) →
      LineInv t2 ci index2 ∧
        ∃ cf2, t2[ci]? = some cf2 ∧ cf2.fileName = X ∧
          cf2.numberOfDependencies - (index2 : Int) =
            cf.numberOfDependencies - (index : Int) - (toks.length : Int) := by
  intro toks
  induction toks with
  | nil =>
    intro t t2 index index2 cf inv hcf hX h
    simp only [processDependencies] at h
    have := Except.ok.inj h
    simp only [Prod.mk.injEq] at this
    obtain ⟨rfl, rfl⟩ := this
    exact ⟨inv, cf, hcf, hX, by simp⟩
  | cons d toks ih =>
    intro t t2 index index2 cf inv hcf hX h
    rw [processDependencies] at h
    cases hd : processDependency c ci d t index with
    | error e => simp [hd] at h
    | ok x =>
      obtain ⟨t1, index1⟩ := x
      simp only [hd] at h
      obtain ⟨inv1, cf1, hcf1, hname1, hnum1⟩ := processDependency_inv inv hcf hd
      rw [hX] at hname1
      obtain ⟨inv2, cf2, hcf2, hname2, hnum2⟩ :=
        ih t1 t2 index1 index2 cf1 inv1 hcf1 hname1 h
      refine ⟨inv2, cf2, hcf2, hname2, ?_⟩
      simp only [List.length_cons]
      push_cast
      omega

/-- The loop over the dependency tokens of a line adds the pairs of the line to the pairs
that the entries in use stand for. -/
theorem processDependencies_decl (c ci : Nat) (X : List Char) :
    ∀ (toks : List (List Char)) (P : List (List Char × List Char)) (t t2 : List File)
      (index index2 : Nat) (cf : File),
      LineInv t ci index → LineDecl P t ci index → t[ci]? = some cf → cf.fileName = X →
      processDependencies c ci toks t index = .ok (t2, index2) →
      LineDecl (P ++ toks.map (fun d => (X, d))) t2 ci index2 := by
  intro toks
  induction toks with
  | nil =>
    intro P t t2 index index2 cf inv dec hcf hX h
    simp only [processDependencies] at h
    have := Except.ok.inj h
    simp only [Prod.mk.injEq] at this
    obtain ⟨rfl, rfl⟩ := this
    simpa using dec
  | cons d toks ih =>
    intro P t t2 index index2 cf inv dec hcf hX h
    rw [processDependencies] at h
    cases hd : processDependency c ci d t index with
    | error e => simp [hd] at h
    | ok x =>
      obtain ⟨t1, index1⟩ := x
      simp only [hd] at h
      obtain ⟨inv1, cf1, hcf1, hname1, _⟩ := processDependency_inv inv hcf hd
      have dec1 := processDependency_decl inv dec hcf hd
      rw [hX] at dec1 hname1
      have dec2 := ih _ t1 t2 index1 index2 cf1 inv1 dec1 hcf1 hname1 h
      simpa [List.append_assoc] using dec2

/-! ## The invariants between two lines -/

theorem liveCount_table {t : List File} {ci : Nat} {cf : File} (hcf : t[ci]? = some cf)
    {a : Nat} {f : File} (ha : t[a]? = some f) :
    liveCount ci cf.numberOfDependencies.toNat a f = f.numberOfDependencies.toNat := by
  by_cases hac : a = ci
  · subst hac
    rw [hcf] at ha
    rw [liveCount_self, Option.some.inj ha]
  · exact liveCount_other hac _ _

theorem lineInv_of_tableInv {t : List File} {ci : Nat} {cf : File} (inv : TableInv t)
    (hcf : t[ci]? = some cf) : LineInv t ci cf.numberOfDependencies.toNat := by
  refine ⟨inv.wf.names_nodup, (List.getElem?_eq_some_iff.mp hcf).1, ?_, ?_⟩
  · intro a f ha i hi
    rw [liveCount_table hcf ha] at hi
    exact inv.wf.deps_valid f (List.getElem?_mem ha) i (by omega)
  · intro a f ha
    rw [liveCount_table hcf ha]
    exact inv.dedup f (List.getElem?_mem ha)

theorem lineDecl_of_tableDecl {P : List (List Char × List Char)} {t : List File} {ci : Nat}
    {cf : File} (dec : TableDecl P t) (hcf : t[ci]? = some cf) :
    LineDecl P t ci cf.numberOfDependencies.toNat := by
  refine ⟨?_, ?_⟩
  · intro a f ha i hi k y hk hy
    rw [liveCount_table hcf ha] at hi
    exact dec.recorded_declared a f ha i (by omega) k y hk hy
  · intro X y hxy
    obtain ⟨a, f, ha, hfx, i, hi, k, hk, hy⟩ := dec.declared_recorded X y hxy
    exact ⟨a, f, ha, hfx, i, by rw [liveCount_table hcf ha]; omega, k, hk, hy⟩

theorem tableInv_of_lineInv {t : List File} {ci index : Nat} {cf : File}
    (inv : LineInv t ci index) (hcf : t[ci]? = some cf)
    (hle : cf.numberOfDependencies ≤ (index : Int)) : TableInv t := by
  have hlive : ∀ (a : Nat) (f : File), t[a]? = some f →
      f.numberOfDependencies.toNat ≤ liveCount ci index a f := by
    intro a f ha
    by_cases hac : a = ci
    · subst hac
      rw [hcf] at ha
      rw [liveCount_self, ← Option.some.inj ha]
      omega
    · rw [liveCount_other hac]
  refine ⟨⟨inv.names, ?_⟩, ?_⟩
  · intro f hf i hi
    obtain ⟨a, ha⟩ := List.getElem?_of_mem hf
    have := hlive a f ha
    exact inv.valid a f ha i (by omega)
  · intro f hf
    obtain ⟨a, ha⟩ := List.getElem?_of_mem hf
    have hle2 := hlive a f ha
    have hnd := inv.dedup a f ha
    unfold recordedDependencies
    have : f.fileDependencies.take f.numberOfDependencies.toNat =
        (f.fileDependencies.take (liveCount ci index a f)).take
          f.numberOfDependencies.toNat := by
      rw [List.take_take, Nat.min_eq_left hle2]
    rw [this]
    exact List.Nodup.sublist (List.take_sublist _ _) hnd

theorem tableDecl_of_lineDecl {P : List (List Char × List Char)} {t : List File}
    {ci index : Nat} {cf : File} (dec : LineDecl P t ci index) (hcf : t[ci]? = some cf)
    (heq : cf.numberOfDependencies = (index : Int)) : TableDecl P t := by
  have hlive : ∀ (a : Nat) (f : File), t[a]? = some f →
      liveCount ci index a f = f.numberOfDependencies.toNat := by
    intro a f ha
    by_cases hac : a = ci
    · subst hac
      rw [hcf] at ha
      rw [liveCount_self, ← Option.some.inj ha]
      omega
    · rw [liveCount_other hac]
  refine ⟨?_, ?_⟩
  · intro a f ha i hi k y hk hy
    exact dec.recorded_declared a f ha i (by rw [hlive a f ha]; omega) k y hk hy
  · intro X y hxy
    obtain ⟨a, f, ha, hfx, i, hi, k, hk, hy⟩ := dec.declared_recorded X y hxy
    rw [hlive a f ha] at hi
    exact ⟨a, f, ha, hfx, i, by omega, k, hk, hy⟩

theorem getElem?_append_singleton {t : List File} {x f : File} {a : Nat}
    (h : (t ++ [x])[a]? = some f) : t[a]? = some f ∨ (a = t.length ∧ f = x) := by
  by_cases hlt : a < t.length
  · rw [List.getElem?_append_left hlt] at h
    exact Or.inl h
  · rw [List.getElem?_append_right (by omega)] at h
    have ha0 : a - t.length = 0 := by
      by_contra hne
      rw [List.getElem?_eq_none (by simp; omega)] at h
      simp at h
    rw [ha0] at h
    right
    exact ⟨by omega, by simpa using h.symm⟩

/-- A new file at the end of the table, before its dependencies are stored. -/
theorem lineInv_new {t : List File} (inv : TableInv t) {X : List Char} (n : Int)
    (hnew : ∀ f ∈ t, f.fileName ≠ X) :
    LineInv (t ++ [initializeFile X n]) t.length 0 := by
  refine ⟨?_, by simp, ?_, ?_⟩
  · rw [List.map_append]
    refine List.Nodup.append inv.wf.names_nodup (List.nodup_singleton _) ?_
    intro x hx hx'
    simp only [List.map_cons, List.map_nil, List.mem_singleton] at hx'
    obtain ⟨f, hf, hfx⟩ := List.mem_map.mp hx
    exact hnew f hf (by rw [hfx, hx']; rfl)
  · intro a f ha i hi
    rcases getElem?_append_singleton ha with h | ⟨rfl, rfl⟩
    · have hne : a ≠ t.length := by
        have := (List.getElem?_eq_some_iff.mp h).1; omega
      rw [liveCount_other hne] at hi
      obtain ⟨k, hk, hkl⟩ := inv.wf.deps_valid f (List.getElem?_mem h) i (by omega)
      exact ⟨k, hk, by simp; omega⟩
    · rw [liveCount_self] at hi; omega
  · intro a f ha
    rcases getElem?_append_singleton ha with h | ⟨rfl, rfl⟩
    · have hne : a ≠ t.length := by
        have := (List.getElem?_eq_some_iff.mp h).1; omega
      rw [liveCount_other hne]
      exact inv.dedup f (List.getElem?_mem h)
    · rw [liveCount_self]; simp

theorem lineDecl_new {P : List (List Char × List Char)} {t : List File} (inv : TableInv t)
    (dec : TableDecl P t) (X : List Char) (n : Int) :
    LineDecl P (t ++ [initializeFile X n]) t.length 0 := by
  refine ⟨?_, ?_⟩
  · intro a f ha i hi k y hk hy
    rcases getElem?_append_singleton ha with h | ⟨rfl, rfl⟩
    · have hne : a ≠ t.length := by
        have := (List.getElem?_eq_some_iff.mp h).1; omega
      rw [liveCount_other hne] at hi
      obtain ⟨k1, hk1, hk1l⟩ := inv.wf.deps_valid f (List.getElem?_mem h) i (by omega)
      rw [hk] at hk1
      have hkk : k = k1 := Int.ofNat.inj (Option.some.inj hk1)
      subst hkk
      rw [List.map_append, List.getElem?_append_left (by simpa using hk1l)] at hy
      exact dec.recorded_declared a f h i (by omega) k y hk hy
    · rw [liveCount_self] at hi; omega
  · intro Y y hxy
    obtain ⟨a, f, ha, hfx, i, hi, k, hk, hy⟩ := dec.declared_recorded Y y hxy
    have hal := (List.getElem?_eq_some_iff.mp ha).1
    have hkl : k < (t.map File.fileName).length := (List.getElem?_eq_some_iff.mp hy).1
    have hne : a ≠ t.length := by omega
    refine ⟨a, f, ?_, hfx, i, by rw [liveCount_other hne]; omega, k, hk, ?_⟩
    · rw [List.getElem?_append_left hal]; exact ha
    · rw [List.map_append, List.getElem?_append_left hkl]; exact hy

/-! ## The invariants are kept by every line -/

/-- What the body of the outer loop does on a line when it ends without a fault: the name
is new and a file is appended for it, or the name is in the table with a count that is
not negative; then the dependency tokens are processed. -/
theorem processLine_ok {c : Nat} {t t2 : List File} {line : List Char}
    (h : processLine c t line = .ok t2) :
    ∃ (X rest : List Char), strtok FILE_NAME_DELIMITER line = (some X, rest) ∧
      (((∀ f ∈ t, f.fileName ≠ X) ∧ ∃ i2, processDependencies c t.length
          (dependencyTokens rest)
          (t ++ [initializeFile X (countDependencies line : Nat)]) 0 = .ok (t2, i2)) ∨
        (∃ (ci : Nat) (cf : File), t[ci]? = some cf ∧ cf.fileName = X ∧
          0 ≤ cf.numberOfDependencies ∧ ∃ i2, processDependencies c ci
            (dependencyTokens rest)
            (t.set ci (updateExistingFile cf (countDependencies line : Nat)))
            cf.numberOfDependencies.toNat = .ok (t2, i2))) := by
  unfold processLine at h
  cases hs : strtok FILE_NAME_DELIMITER line with
  | mk tok rest =>
    cases tok with
    | none => simp [hs] at h
    | some X =>
      simp only [hs] at h
      refine ⟨X, rest, rfl, ?_⟩
      rcases containsFile_spec X t with ⟨h1, h2⟩ | ⟨k, f, h1, h2, h3⟩
      · left
        rw [if_pos h1] at h
        cases ha : addNewFile c X t (countDependencies line : Nat) with
        | error e => simp [ha] at h
        | ok y =>
          obtain ⟨t1, ci⟩ := y
          obtain ⟨rfl, rfl, _⟩ := addNewFile_ok ha
          simp only [ha] at h
          cases hp : processDependencies c t.length (dependencyTokens rest)
              (t ++ [initializeFile X (countDependencies line : Nat)]) 0 with
          | error e => simp [hp] at h
          | ok z =>
            obtain ⟨t3, i2⟩ := z
            simp only [hp] at h
            rw [← Except.ok.inj h]
            exact ⟨h2, i2, rfl⟩
      · right
        have hne : containsFile X t ≠ FILE_NOT_FOUND := by
          rw [h1]; simp only [FILE_NOT_FOUND]; omega
        rw [if_neg hne, h1] at h
        simp only [Int.toNat_ofNat, h2] at h
        by_cases hn : f.numberOfDependencies < NO_DEPENDENCIES
        · simp [hn] at h
        · rw [if_neg hn] at h
          cases hp : processDependencies c k (dependencyTokens rest)
              (t.set k (updateExistingFile f (countDependencies line : Nat)))
              f.numberOfDependencies.toNat with
          | error e => simp [hp] at h
          | ok z =>
            obtain ⟨t3, i2⟩ := z
            simp only [hp] at h
            rw [← Except.ok.inj h]
            refine ⟨k, f, h2, h3, ?_, i2, hp⟩
            simp only [NO_DEPENDENCIES] at hn
            omega

theorem countDependencies_le {line X rest : List Char}
    (hs : strtok FILE_NAME_DELIMITER line = (some X, rest)) :
    countDependencies line ≤ (dependencyTokens rest).length := by
  unfold countDependencies
  rw [hs]
  exact List.length_filter_le _ _

theorem countDependencies_clean {line X rest : List Char}
    (hs : strtok FILE_NAME_DELIMITER line = (some X, rest)) (hc : CleanLine line) :
    countDependencies line = (dependencyTokens rest).length := by
  unfold countDependencies
  unfold CleanLine at hc
  rw [hs] at hc ⊢
  rw [List.filter_eq_self.mpr hc]

/-- The body of the outer loop keeps the invariant of the table. -/
theorem processLine_inv {c : Nat} {t t2 : List File} {line : List Char} (inv : TableInv t)
    (h : processLine c t line = .ok t2) : TableInv t2 := by
  obtain ⟨X, rest, hs, hcase⟩ := processLine_ok h
  have hcount := countDependencies_le hs
  rcases hcase with ⟨hnew, i2, hp⟩ | ⟨ci, cf, hcf, hX, hnn, i2, hp⟩
  · have inv0 := lineInv_new inv (countDependencies line : Nat) hnew
    have hcf0 : (t ++ [initializeFile X (countDependencies line : Nat)])[t.length]? =
        some (initializeFile X (countDependencies line : Nat)) := by
      rw [List.getElem?_append_right (Nat.le_refl _)]; simp
    obtain ⟨inv2, cf2, hcf2, _, hnum⟩ :=
      processDependencies_inv c t.length X _ _ t2 0 i2 _ inv0 hcf0 rfl hp
    refine tableInv_of_lineInv inv2 hcf2 ?_
    simp only [initializeFile] at hnum
    push_cast at hnum
    omega
  · have inv0 := lineInv_count (cf.numberOfDependencies + (countDependencies line : Nat))
      (lineInv_of_tableInv inv hcf) hcf
    have hcf0 : (t.set ci (updateExistingFile cf (countDependencies line : Nat)))[ci]? =
        some (updateExistingFile cf (countDependencies line : Nat)) :=
      List.getElem?_set_self (List.getElem?_eq_some_iff.mp hcf).1
    obtain ⟨inv2, cf2, hcf2, _, hnum⟩ :=
      processDependencies_inv c ci X _ _ t2 _ i2 _ inv0 hcf0 hX hp
    refine tableInv_of_lineInv inv2 hcf2 ?_
    simp only [updateExistingFile] at hnum
    omega

/-- On a line whose tokens are all counted, the body of the outer loop adds exactly the
pairs of the line to the recorded dependencies. -/
theorem processLine_decl {P : List (List Char × List Char)} {c : Nat} {t t2 : List File}
    {line : List Char} (inv : TableInv t) (dec : TableDecl P t) (hclean : CleanLine line)
    (h : processLine c t line = .ok t2) : TableDecl (P ++ linePairs line) t2 := by
  obtain ⟨X, rest, hs, hcase⟩ := processLine_ok h
  have hcount := countDependencies_clean hs hclean
  have hpairs : linePairs line = (dependencyTokens rest).map (fun d => (X, d)) := by
    unfold linePairs; rw [hs]
  rw [hpairs]
  rcases hcase with ⟨hnew, i2, hp⟩ | ⟨ci, cf, hcf, hX, hnn, i2, hp⟩
  · have inv0 := lineInv_new inv (countDependencies line : Nat) hnew
    have dec0 := lineDecl_new inv dec X (countDependencies line : Nat)
    have hcf0 : (t ++ [initializeFile X (countDependencies line : Nat)])[t.length]? =
        some (initializeFile X (countDependencies line : Nat)) := by
      rw [List.getElem?_append_right (Nat.le_refl _)]; simp
    obtain ⟨inv2, cf2, hcf2, _, hnum⟩ :=
      processDependencies_inv c t.length X _ _ t2 0 i2 _ inv0 hcf0 rfl hp
    have dec2 := processDependencies_decl c t.length X _ P _ t2 0 i2 _ inv0 dec0 hcf0 rfl hp
    refine tableDecl_of_lineDecl dec2 hcf2 ?_
    simp only [initializeFile] at hnum
    push_cast at hnum
    omega
  · have inv0 := lineInv_count (cf.numberOfDependencies + (countDependencies line : Nat))
      (lineInv_of_tableInv inv hcf) hcf
    have dec0 := lineDecl_count (cf.numberOfDependencies + (countDependencies line : Nat))
      (lineDecl_of_tableDecl dec hcf) hcf
    have hcf0 : (t.set ci (updateExistingFile cf (countDependencies line : Nat)))[ci]? =
        some (updateExistingFile cf (countDependencies line : Nat)) :=
      List.getElem?_set_self (List.getElem?_eq_some_iff.mp hcf).1
    obtain ⟨inv2, cf2, hcf2, _, hnum⟩ :=
      processDependencies_inv c ci X _ _ t2 _ i2 _ inv0 hcf0 hX hp
    have dec2 := processDependencies_decl c ci X _ P _ t2 _ i2 _ inv0 dec0 hcf0 hX hp
    refine tableDecl_of_lineDecl dec2 hcf2 ?_
    simp only [updateExistingFile] at hnum
    omega

theorem processLines_inv (c : Nat) :
    ∀ (lines : List (List Char)) (t t2 : List File), TableInv t →
      processLines c lines t = .ok t2 → TableInv t2 := by
  intro lines
  induction lines with
  | nil =>
    intro t t2 inv h
    rw [← Except.ok.inj h]; exact inv
  | cons line lines ih =>
    intro t t2 inv h
    rw [processLines] at h
    cases hl : processLine c t line with
    | error e => simp [hl] at h
    | ok t1 =>
      simp only [hl] at h
      exact ih t1 t2 (processLine_inv inv hl) h

theorem processLines_decl (c : Nat) :
    ∀ (lines : List (List Char)) (P : List (List Char × List Char)) (t t2 : List File),
      TableInv t → TableDecl P t → (∀ line ∈ lines, CleanLine line) →
      processLines c lines t = .ok t2 → TableDecl (P ++ declaredPairs lines) t2 := by
  intro lines
  induction lines with
  | nil =>
    intro P t t2 _ dec _ h
    rw [← Except.ok.inj h]
    simpa [declaredPairs] using dec
  | cons line lines ih =>
    intro P t t2 inv dec hclean h
    rw [processLines] at h
    cases hl : processLine c t line with
    | error e => simp [hl] at h
    | ok t1 =>
      simp only [hl] at h
      have dec1 := processLine_decl inv dec (hclean line (List.mem_cons_self _ _)) hl
      have := ih _ t1 t2 (processLine_inv inv hl) dec1
        (fun l hl' => hclean l (List.mem_cons_of_mem _ hl')) h
      simpa [declaredPairs, List.append_assoc] using this

theorem tableInv_nil : TableInv [] :=
  ⟨⟨List.nodup_nil, fun _ h => absurd h (List.not_mem_nil _)⟩,
    fun _ h => absurd h (List.not_mem_nil _)⟩

theorem tableDecl_nil : TableDecl [] [] :=
  ⟨fun a f ha => by simp at ha, fun _ _ h => absurd h (List.not_mem_nil _)⟩

/-- Every table that `processFile` builds is well formed and free of repeated recorded
dependencies. -/
theorem processFile_inv {c : Nat} {stream : List Char} {t : List File}
    (h : processFile c stream = .ok t) : TableInv t :=
  processLines_inv c _ _ _ tableInv_nil h

/-! ## The graph of the table and the declared relation -/

theorem mem_declaredPairs {lines : List (List Char)} {line X rest d : List Char}
    (hl : line ∈ lines) (hs : strtok FILE_NAME_DELIMITER line = (some X, rest))
    (hd : d ∈ dependencyTokens rest) : (X, d) ∈ declaredPairs lines := by
  induction lines with
  | nil => exact absurd hl (List.not_mem_nil _)
  | cons l lines ih =>
    rw [declaredPairs]
    rcases List.mem_cons.mp hl with h | h
    · subst h
      apply List.mem_append_left
      unfold linePairs
      rw [hs]
      exact List.mem_map.mpr ⟨d, hd, rfl⟩
    · exact List.mem_append_right _ (ih h)

theorem name_index_unique {t : List File} (hn : (t.map File.fileName).Nodup) {a b : Nat}
    {X : List Char} (ha : (t.map File.fileName)[a]? = some X)
    (hb : (t.map File.fileName)[b]? = some X) : a = b := by
  obtain ⟨ha1, ha2⟩ := List.getElem?_eq_some_iff.mp ha
  obtain ⟨hb1, hb2⟩ := List.getElem?_eq_some_iff.mp hb
  exact (@List.Nodup.getElem_inj_iff _ (t.map File.fileName) hn a ha1 b hb1).mp
    (by rw [ha2, hb2])

theorem getElem?_name {t : List File} {a : Nat} {f : File} (h : t[a]? = some f) :
    (t.map File.fileName)[a]? = some f.fileName := by
  rw [List.getElem?_map, h]; rfl

/-- When the recorded dependencies are exactly the pairs `P`, the table has a cycle exactly
when the relation `P` on the names has one. -/
theorem hasCycle_iff_pairs {P : List (List Char × List Char)} {t : List File}
    (inv : TableInv t) (dec : TableDecl P t) :
    HasCycle t ↔ ∃ X, Relation.TransGen (fun x y => (x, y) ∈ P) X X := by
  constructor
  · rintro ⟨a, hcyc⟩
    have hstep : ∀ a b, Edge t a b →
        (((t.map File.fileName)[a]?).getD [], ((t.map File.fileName)[b]?).getD []) ∈ P := by
      rintro a b ⟨f, hf, i, hi, hd⟩
      obtain ⟨j, hj, hjl⟩ := inv.wf.deps_valid f (List.getElem?_mem hf) i hi
      rw [hd] at hj
      have hbj : b = j := Int.ofNat.inj (Option.some.inj hj)
      subst hbj
      have hb : (t.map File.fileName)[b]? = some (t[b]).fileName :=
        getElem?_name (List.getElem?_eq_getElem hjl)
      rw [getElem?_name hf, hb]
      exact dec.recorded_declared a f hf i hi b _ hd hb
    exact ⟨_, Relation.TransGen.lift
      (fun a => ((t.map File.fileName)[a]?).getD []) hstep hcyc⟩
  · rintro ⟨X, hcyc⟩
    have hedge : ∀ x y, (x, y) ∈ P → ∃ a b, (t.map File.fileName)[a]? = some x ∧
        (t.map File.fileName)[b]? = some y ∧ Edge t a b := by
      intro x y hxy
      obtain ⟨a, f, ha, hfx, i, hi, k, hk, hy⟩ := dec.declared_recorded x y hxy
      exact ⟨a, k, by rw [← hfx]; exact getElem?_name ha, hy, f, ha, i, hi, hk⟩
    have key : ∀ Y, Relation.TransGen (fun x y => (x, y) ∈ P) X Y →
        ∃ a b, (t.map File.fileName)[a]? = some X ∧ (t.map File.fileName)[b]? = some Y ∧
          Relation.TransGen (Edge t) a b := by
      intro Y hY
      induction hY with
      | single h1 =>
        obtain ⟨a, b, ha, hb, he⟩ := hedge _ _ h1
        exact ⟨a, b, ha, hb, Relation.TransGen.single he⟩
      | tail _ h2 ih =>
        obtain ⟨a, b, ha, hb, hab⟩ := ih
        obtain ⟨b1, c1, hb1, hc1, he⟩ := hedge _ _ h2
        have := name_index_unique inv.wf.names_nodup hb hb1
        subst this
        exact ⟨a, c1, ha, hc1, Relation.TransGen.tail hab he⟩
    obtain ⟨a, b, ha, hb, hab⟩ := key X hcyc
    have := name_index_unique inv.wf.names_nodup ha hb
    subst this
    exact ⟨a, hab⟩

/-- On an input whose dependency tokens all start with a letter or a digit, the recorded
dependencies of the table are exactly the declared pairs. -/
theorem processFile_decl {c : Nat} {stream : List Char} {t : List File}
    (h : processFile c stream = .ok t) (hclean : ∀ line ∈ inputLines stream, CleanLine line) :
    TableDecl (declaredPairs (inputLines stream)) t := by
  have := processLines_decl c _ [] _ _ tableInv_nil tableDecl_nil hclean h
  simpa using this

/-- C8 (deduplication invariant): in every table that `processFile` builds, from any input
and in an array of any size, no file has the same table index twice among its recorded
dependencies, the first `numberOfDependencies` entries of `fileDependencies`. -/
theorem recorded_nodup (c : Nat) (stream : List Char) (t : List File)
    (h : processFile c stream = .ok t) :
    ∀ f ∈ t, (recordedDependencies f).Nodup :=
  (processFile_inv h).dedup

/-- Witness of C8: the input `A: B,C,B\nA: C\n` repeats `B` within a line and `C` across two
lines; the file `A` has the recorded dependencies 1 and 2. -/
theorem recorded_nodup_witness :
    buildTable "A: B,C,B\nA: C\n".toList = .ok tableRepeats ∧
      tableRepeats.map recordedDependencies = [[1, 2], [], []] ∧
      ∀ f ∈ tableRepeats, (recordedDependencies f).Nodup :=
  ⟨by decide, by decide,
    recorded_nodup (estimateFilesCount "A: B,C,B\nA: C\n".toList) "A: B,C,B\nA: C\n".toList
      tableRepeats (by decide)⟩

/-! ## Declared dependencies and recorded dependencies -/

theorem mem_recorded_of_getElem? {f : File} {i : Nat} {v : Int}
    (hi : (i : Int) < f.numberOfDependencies) (hv : f.fileDependencies[i]? = some v) :
    v ∈ recordedDependencies f := by
  unfold recordedDependencies
  have h1 : (f.fileDependencies.take f.numberOfDependencies.toNat)[i]? = some v := by
    rw [List.getElem?_take, if_pos (by omega)]
    exact hv
  exact List.getElem?_mem h1

/-- Counterexample of C6: on the input `A: B, C\nB:\n` the tokens of the first line are `B`
and ` C`; the table has the files `A`, `B` and ` C` (none is named `C`), and the recorded
dependencies of `A` are the index 1 alone: the file ` C` at the index 2 is stored in
`fileDependencies` but lies behind `numberOfDependencies = 1`. -/
theorem declared_not_recorded :
    buildTable "A: B, C\nB:\n".toList = .ok tableSpacedPair ∧
      linePairs "A: B, C\n".toList = [("A".toList, "B".toList), ("A".toList, " C".toList)] ∧
      tableSpacedPair.map File.fileName = ["A".toList, "B".toList, " C".toList] ∧
      tableSpacedPair.map recordedDependencies = [[1], [], []] ∧
      containsFile " C".toList tableSpacedPair = 2 := by
  decide

/-- C6 as amended: on an input whose dependency tokens all start with a letter or a digit
(the tokens that the counting pass counts), after `processFile` every declared dependency
is an edge: for every line with the name token `X` and every dependency token `d` of that
line, the table has a file named `X` and a file named `d`, and the index of the latter is
among the recorded dependencies of the former. -/
theorem declared_dependency_recorded (c : Nat) (stream : List Char) (t : List File)
    (h : processFile c stream = .ok t)
    (hclean : ∀ line ∈ inputLines stream, CleanLine line) :
    ∀ line ∈ inputLines stream, ∀ (X rest : List Char),
      strtok FILE_NAME_DELIMITER line = (some X, rest) → ∀ d ∈ dependencyTokens rest,
        ∃ (a j : Nat) (f g : File), t[a]? = some f ∧ f.fileName = X ∧ t[j]? = some g ∧
          g.fileName = d ∧ (j : Int) ∈ recordedDependencies f := by
  intro line hl X rest hs d hd
  have dec := processFile_decl h hclean
  obtain ⟨a, f, ha, hfx, i, hi, k, hk, hy⟩ :=
    dec.declared_recorded X d (mem_declaredPairs hl hs hd)
  rw [List.getElem?_map] at hy
  cases hg : t[k]? with
  | none => rw [hg] at hy; simp at hy
  | some g =>
    rw [hg] at hy
    exact ⟨a, k, f, g, ha, hfx, hg, by simpa using hy, mem_recorded_of_getElem? hi hk⟩

/-- Witness of C6 as amended: the input `A: B,C\nB:\n` and the token `C` of its first
line. -/
theorem declared_dependency_recorded_witness :
    (∀ line ∈ inputLines "A: B,C\nB:\n".toList, CleanLine line) ∧
      ∃ (a j : Nat) (f g : File), tableRepeats[a]? = some f ∧ f.fileName = "A".toList ∧
        tableRepeats[j]? = some g ∧ g.fileName = "C".toList ∧
        (j : Int) ∈ recordedDependencies f :=
  ⟨by decide,
    declared_dependency_recorded (estimateFilesCount "A: B,C\nB:\n".toList) "A: B,C\nB:\n".toList
      tableRepeats (by decide) (by decide) "A: B,C\n".toList (by decide) "A".toList
      " B,C\n".toList (by decide) "C".toList (by decide)⟩

/-! ## End to end -/

theorem linePairs_renderLine (d : List Char × List (List Char)) (hd : IsDeclaration d) :
    linePairs (renderLine d.1 d.2) = d.2.map (fun y => (d.1, y)) := by
  unfold linePairs
  rw [strtok_renderLine d.1 d.2 hd.1]
  simp only
  rw [dependencyTokens_join d.2 hd.2.1]

theorem cleanLine_renderLine (d : List Char × List (List Char)) (hd : IsDeclaration d)
    (hv : ∀ y ∈ d.2, isValidName y = true) : CleanLine (renderLine d.1 d.2) := by
  unfold CleanLine
  rw [strtok_renderLine d.1 d.2 hd.1]
  simp only
  rw [dependencyTokens_join d.2 hd.2.1]
  exact hv

theorem declaredPairs_render :
    ∀ (decls : List (List Char × List (List Char))), (∀ d ∈ decls, IsDeclaration d) →
      ∀ x y, (x, y) ∈ declaredPairs (decls.map (fun d => renderLine d.1 d.2)) ↔
        DeclaredEdge decls x y := by
  intro decls
  induction decls with
  | nil => intro _ x y; simp [declaredPairs, DeclaredEdge]
  | cons d decls ih =>
    intro hall x y
    have hd := hall d (List.mem_cons_self _ _)
    have ih' := ih (fun e he => hall e (List.mem_cons_of_mem _ he)) x y
    simp only [List.map_cons, declaredPairs, List.mem_append]
    rw [linePairs_renderLine d hd, ih']
    unfold DeclaredEdge
    constructor
    · rintro (h | ⟨e, he, h1, h2⟩)
      · obtain ⟨z, hz, hzz⟩ := List.mem_map.mp h
        simp only [Prod.mk.injEq] at hzz
        exact ⟨d, List.mem_cons_self _ _, hzz.1, by rw [← hzz.2]; exact hz⟩
      · exact ⟨e, List.mem_cons_of_mem _ he, h1, h2⟩
    · rintro ⟨e, he, h1, h2⟩
      rcases List.mem_cons.mp he with h | h
      · subst h
        left
        exact List.mem_map.mpr ⟨y, h2, by rw [h1]⟩
      · right
        exact ⟨e, h, h1, h2⟩

/-- Counterexample of C1: the text `B: X\nA: B, A\n` declares the dependency of `A` on
itself, a cycle; the program stores the second dependency of `A` as the name ` A` and does
not count it, and answers that there is no cycle.  (The array of `main` is large enough
for this input.) -/
theorem spaced_cycle_missed :
    specEdges "B: X\nA: B, A\n".toList =
        [("B".toList, "X".toList), ("A".toList, "B".toList), ("A".toList, "A".toList)] ∧
      SpecHasCycle "B: X\nA: B, A\n".toList ∧
      checkDependency "B: X\nA: B, A\n".toList = .ok false :=
  ⟨by decide, ⟨"A".toList, Relation.TransGen.single (by decide)⟩, by decide⟩

/-- On an input whose dependency tokens all start with a letter or a digit, `analyzeData`
on the table that `processFile` built returns a result, and the result is `true` exactly
when the relation of the name tokens and dependency tokens of the lines has a cycle. -/
theorem analyzeData_iff_tokenCycle {c : Nat} {stream : List Char} {t : List File}
    (h : processFile c stream = .ok t) (hclean : ∀ line ∈ inputLines stream, CleanLine line) :
    ∃ b, analyzeData t = .ok b ∧
      (b = true ↔ ∃ X, Relation.TransGen (TokenEdge (inputLines stream)) X X) := by
  have inv := processFile_inv h
  obtain ⟨b, hres, _, hiff⟩ := analyzeData_spec inv.wf
  refine ⟨b, hres, ?_⟩
  rw [hiff, hasCycle_iff_pairs inv (processFile_decl h hclean)]
  rfl

theorem tokenCycle_iff_declaredCycle (decls : List (List Char × List (List Char)))
    (hdecl : ∀ d ∈ decls, IsDeclaration d) :
    (∃ X, Relation.TransGen (TokenEdge (inputLines (renderInput decls))) X X) ↔
      ∃ X, Relation.TransGen (DeclaredEdge decls) X X := by
  rw [inputLines_renderInput decls hdecl]
  have hrel := declaredPairs_render decls hdecl
  constructor
  · rintro ⟨X, hX⟩
    exact ⟨X, Relation.TransGen.mono (fun a b hab => (hrel a b).mp hab) hX⟩
  · rintro ⟨X, hX⟩
    exact ⟨X, Relation.TransGen.mono (fun a b hab => (hrel a b).mpr hab) hX⟩

theorem clean_renderInput (decls : List (List Char × List (List Char)))
    (hdecl : ∀ d ∈ decls, IsDeclaration d)
    (hvalid : ∀ d ∈ decls, ∀ y ∈ d.2, isValidName y = true) :
    ∀ line ∈ inputLines (renderInput decls), CleanLine line := by
  rw [inputLines_renderInput decls hdecl]
  intro line hl
  obtain ⟨d, hd, rfl⟩ := List.mem_map.mp hl
  exact cleanLine_renderLine d (hdecl d hd) (hvalid d hd)

/-! ## The builder ends without a fault on inputs in the format of the program -/

theorem containsDependencyLoop_total (cf : File) (v : Int) :
    ∀ (rem i : Nat), i + rem ≤ cf.fileDependencies.length →
      ∃ b, containsDependencyLoop cf v rem i = .ok b := by
  intro rem
  induction rem with
  | zero => intro i _; exact ⟨false, rfl⟩
  | succ rem ih =>
    intro i hi
    rw [containsDependencyLoop, List.getElem?_eq_getElem (by omega)]
    simp only
    by_cases hv : cf.fileDependencies[i] = v
    · exact ⟨true, by rw [if_pos hv]⟩
    · rw [if_neg hv]
      exact ih (i + 1) (by omega)

theorem processDependency_extra {c ci : Nat} {d : List Char} {t t2 : List File}
    {index index2 : Nat} (hci : ci < t.length) (ex : LineExtra t ci)
    (h : processDependency c ci d t index = .ok (t2, index2)) :
    LineExtra t2 ci ∧ t2.length ≤ t.length + 1 := by
  obtain ⟨t1, j, cf, cf1, hr, hcf, ht2, hadd⟩ := processDependency_ok h
  have ex1 : LineExtra t1 ci ∧ t1.length ≤ t.length + 1 := by
    rcases hr with ⟨rfl, _⟩ | ⟨rfl, _, _⟩
    · exact ⟨ex, Nat.le_succ _⟩
    · refine ⟨⟨?_, ?_⟩, by simp⟩
      · intro a f ha
        rcases getElem?_append_singleton ha with h1 | ⟨_, rfl⟩
        · exact ex.slots a f h1
        · simp [initializeFile, MAX_NUMBER_OF_DEPENDENCIES]
      · intro a f ha hne
        rcases getElem?_append_singleton ha with h1 | ⟨_, rfl⟩
        · exact ex.nonneg a f h1 hne
        · simp [initializeFile]
  have hslots : cf1.fileDependencies.length = MAX_NUMBER_OF_DEPENDENCIES := by
    have := ex1.1.slots ci cf hcf
    rcases hadd with ⟨_, _, rfl, _⟩ | ⟨_, _, rfl, _⟩
    · simpa using this
    · exact this
  subst ht2
  refine ⟨⟨?_, ?_⟩, by simpa using ex1.2⟩
  · intro a f ha
    rcases getElem?_set_cases ha with ⟨_, rfl⟩ | ⟨_, ha'⟩
    · exact hslots
    · exact ex1.1.slots a f ha'
  · intro a f ha hne
    rcases getElem?_set_cases ha with ⟨hac, _⟩ | ⟨_, ha'⟩
    · exact absurd hac hne
    · exact ex1.1.nonneg a f ha' hne

/-- One iteration of the loop over the dependency tokens ends without a fault when the
array has a free slot, the count of the current file is positive and the declared
dependencies of the current file stay within `MAX_NUMBER_OF_DEPENDENCIES`. -/
theorem processDependency_total {P D : List (List Char × List Char)} {c ci : Nat}
    {d : List Char} {t : List File} {index : Nat} {cf : File}
    (inv : LineInv t ci index) (dec : LineDecl P t ci index) (ex : LineExtra t ci)
    (hcf : t[ci]? = some cf) (hcap : t.length < c) (hnum : 0 ≤ cf.numberOfDependencies)
    (hP : ∀ p ∈ P, p ∈ D) (hd : (cf.fileName, d) ∈ D) (hD : PairsBound D) :
    ∃ t2 index2, processDependency c ci d t index = .ok (t2, index2) := by
  have hres : ∃ t1 j, (if containsFile d t = FILE_NOT_FOUND
      then addNewFile c d t NO_DEPENDENCIES
      else .ok (t, (containsFile d t).toNat)) = .ok (t1, j) := by
    rcases containsFile_spec d t with ⟨h1, _⟩ | ⟨k, f, h1, _, _⟩
    · rw [if_pos h1]
      unfold addNewFile
      have h2 : ¬ c ≤ t.length := by omega
      simp only [h2, if_false, lt_self_iff_false]
      exact ⟨_, _, rfl⟩
    · have hne : containsFile d t ≠ FILE_NOT_FOUND := by
        rw [h1]; simp only [FILE_NOT_FOUND]; omega
      rw [if_neg hne]
      exact ⟨_, _, rfl⟩
  obtain ⟨t1, j, hr⟩ := hres
  have hr' := resolve_ok hr
  obtain ⟨inv1, hj, hjd⟩ := lineInv_resolve inv hr'
  have dec1 := lineDecl_resolve inv dec hr'
  have hcf1 : t1[ci]? = some cf := by
    rcases hr' with ⟨rfl, _⟩ | ⟨rfl, _, _⟩
    · exact hcf
    · rw [List.getElem?_append_left inv.cur]; exact hcf
  have hslots : cf.fileDependencies.length = MAX_NUMBER_OF_DEPENDENCIES := ex.slots ci cf hcf
  have hindex : index ≤ cf.fileDependencies.length := by
    by_contra hlt
    obtain ⟨k, hk, _⟩ := inv1.valid ci cf hcf1 cf.fileDependencies.length
      (by rw [liveCount_self]; omega)
    rw [List.getElem?_eq_none (Nat.le_refl _)] at hk
    simp at hk
  obtain ⟨b, hb⟩ := containsDependencyLoop_total cf (j : Int) index 0 (by omega)
  have hbm := containsDependency_ok (show containsDependency cf (j : Int) index = .ok b from hb)
  have hadd : ∃ cf1 index1, addNewDependency cf (j : Int) index = .ok (cf1, index1) := by
    unfold addNewDependency
    rw [show containsDependency cf (j : Int) index = .ok b from hb]
    cases b with
    | true =>
      simp only
      rw [if_neg (by simp only [NO_DEPENDENCIES]; omega)]
      exact ⟨_, _, rfl⟩
    | false =>
      simp only
      have hnot : (j : Int) ∉ cf.fileDependencies.take index := by
        intro hmem
        exact absurd (hbm.mpr hmem) (by simp)
      have hlt : index < cf.fileDependencies.length := by
        -- the names of the entries in use and the new name are distinct dependencies
        let nameOf : Int → List Char := fun e => ((t1.map File.fileName)[e.toNat]?).getD []
        have hentry : ∀ e ∈ cf.fileDependencies.take index, ∃ k : Nat, e = (k : Int) ∧
            ∃ y, (t1.map File.fileName)[k]? = some y ∧ (cf.fileName, y) ∈ P := by
          intro e he
          obtain ⟨i, hi⟩ := List.getElem?_of_mem he
          have hil : i < index := by
            have := (List.getElem?_eq_some_iff.mp hi).1
            simp only [List.length_take] at this
            omega
          rw [List.getElem?_take, if_pos hil] at hi
          obtain ⟨k, hk, hkl⟩ := inv1.valid ci cf hcf1 i (by rw [liveCount_self]; exact hil)
          rw [hi] at hk
          have hek : e = (k : Int) := Option.some.inj hk
          have hname : (t1.map File.fileName)[k]? = some (t1[k]).fileName :=
            getElem?_name (List.getElem?_eq_getElem hkl)
          refine ⟨k, hek, _, hname, ?_⟩
          rw [hek] at hi
          exact dec1.recorded_declared ci cf hcf1 i (by rw [liveCount_self]; exact hil) k _
            hi hname
        have hnd : ((cf.fileDependencies.take index).map nameOf ++ [d]).Nodup := by
          refine List.Nodup.append ?_ (List.nodup_singleton _) ?_
          · have hdd := inv1.dedup ci cf hcf1
            rw [liveCount_self] at hdd
            refine List.Nodup.map_on ?_ hdd
            intro e1 he1 e2 he2 heq
            obtain ⟨k1, rfl, y1, hy1, _⟩ := hentry e1 he1
            obtain ⟨k2, rfl, y2, hy2, _⟩ := hentry e2 he2
            simp only [nameOf, Int.toNat_ofNat, hy1, hy2, Option.getD_some] at heq
            rw [heq] at hy1
            rw [name_index_unique inv1.names hy1 hy2]
          · intro x hx hx'
            rw [List.mem_singleton.mp hx'] at hx
            obtain ⟨e, he, hed⟩ := List.mem_map.mp hx
            obtain ⟨k, rfl, y, hy, _⟩ := hentry e he
            simp only [nameOf, Int.toNat_ofNat, hy, Option.getD_some] at hed
            rw [hed] at hy
            rw [name_index_unique inv1.names hy hjd] at he
            exact hnot he
        have hall : ∀ y ∈ (cf.fileDependencies.take index).map nameOf ++ [d],
            (cf.fileName, y) ∈ D := by
          intro y hy
          rcases List.mem_append.mp hy with h1 | h1
          · obtain ⟨e, he, hey⟩ := List.mem_map.mp h1
            obtain ⟨k, rfl, y1, hy1, hP1⟩ := hentry e he
            simp only [nameOf, Int.toNat_ofNat, hy1, Option.getD_some] at hey
            rw [← hey]
            exact hP _ hP1
          · rw [List.mem_singleton.mp h1]; exact hd
        have hlen := hD cf.fileName _ hnd hall
        simp only [List.length_append, List.length_map, List.length_take,
          List.length_singleton] at hlen
        rw [hslots]
        omega
      rw [if_pos hlt]
      exact ⟨_, _, rfl⟩
  obtain ⟨cf1, index1, ha⟩ := hadd
  refine ⟨t1.set ci cf1, index1, ?_⟩
  unfold processDependency
  simp only [hr, hcf1, ha]

/-- The loop over the dependency tokens of a line ends without a fault when the array has
a free slot for every token, the count of the current file is the index plus the number
of the tokens, and the declared dependencies stay within `MAX_NUMBER_OF_DEPENDENCIES`. -/
theorem processDependencies_total (c ci : Nat) (X : List Char)
    (D : List (List Char × List Char)) (hD : PairsBound D) :
    ∀ (toks : List (List Char)) (P : List (List Char × List Char)) (t : List File)
      (index : Nat) (cf : File),
      LineInv t ci index → LineDecl P t ci index → LineExtra t ci →
      t[ci]? = some cf → cf.fileName = X →
      cf.numberOfDependencies = (index : Int) + (toks.length : Int) →
      t.length + toks.length ≤ c → (∀ p ∈ P, p ∈ D) → (∀ d ∈ toks, (X, d) ∈ D) →
      ∃ t2 index2, processDependencies c ci toks t index = .ok (t2, index2) ∧
        LineExtra t2 ci ∧ t2.length ≤ t.length + toks.length := by
  intro toks
  induction toks with
  | nil =>
    intro P t index cf _ _ ex _ _ _ _ _ _
    exact ⟨t, index, rfl, ex, Nat.le_refl _⟩
  | cons d toks ih =>
    intro P t index cf inv dec ex hcf hX hnum hcap hP hall
    simp only [List.length_cons] at hnum hcap
    have hcap1 : t.length < c := by omega
    obtain ⟨t1, index1, hstep⟩ := processDependency_total inv dec ex hcf hcap1
      (by push_cast at hnum; omega) hP
      (by rw [hX]; exact hall d (List.mem_cons_self _ _)) hD
    obtain ⟨inv1, cf1, hcf1, hname1, hnum1⟩ := processDependency_inv inv hcf hstep
    have dec1 := processDependency_decl inv dec hcf hstep
    obtain ⟨ex1, hlen1⟩ := processDependency_extra inv.cur ex hstep
    rw [hX] at dec1 hname1
    obtain ⟨t2, index2, hrest, ex2, hlen2⟩ :=
      ih (P ++ [(X, d)]) t1 index1 cf1 inv1 dec1 ex1 hcf1 hname1
        (by push_cast at hnum; omega) (by omega)
        (by
          intro p hp
          rcases List.mem_append.mp hp with h | h
          · exact hP p h
          · rw [List.mem_singleton.mp h]; exact hall d (List.mem_cons_self _ _))
        (fun e he => hall e (List.mem_cons_of_mem _ he))
    have hfin : t2.length ≤ t.length + (d :: toks).length := by
      simp only [List.length_cons]; omega
    refine ⟨t2, index2, ?_, ex2, hfin⟩
    rw [processDependencies, hstep]
    exact hrest

theorem lineExtra_of_tableExtra {t : List File} (ex : TableExtra t) (ci : Nat) :
    LineExtra t ci :=
  ⟨fun _ f ha => ex.slots f (List.getElem?_mem ha),
    fun _ f ha _ => ex.nonneg f (List.getElem?_mem ha)⟩

theorem tableExtra_of_lineExtra {t : List File} {ci : Nat} {cf : File} (ex : LineExtra t ci)
    (hcf : t[ci]? = some cf) (hnn : 0 ≤ cf.numberOfDependencies) : TableExtra t := by
  refine ⟨?_, ?_⟩
  · intro f hf
    obtain ⟨a, ha⟩ := List.getElem?_of_mem hf
    exact ex.slots a f ha
  · intro f hf
    obtain ⟨a, ha⟩ := List.getElem?_of_mem hf
    by_cases hac : a = ci
    · subst hac
      rw [hcf] at ha
      rw [← Option.some.inj ha]; exact hnn
    · exact ex.nonneg a f ha hac

/-- The body of the outer loop ends without a fault on a line with a name token whose
dependency tokens are all counted, when the array has a free slot for the name and for
every token and the declared dependencies stay within `MAX_NUMBER_OF_DEPENDENCIES`. -/
theorem processLine_total {P D : List (List Char × List Char)} {c : Nat} {t : List File}
    {line X rest : List Char} (inv : TableInv t) (dec : TableDecl P t) (ex : TableExtra t)
    (hs : strtok FILE_NAME_DELIMITER line = (some X, rest)) (hclean : CleanLine line)
    (hcap : t.length + 1 + (dependencyTokens rest).length ≤ c)
    (hP : ∀ p ∈ P, p ∈ D) (hline : ∀ d ∈ dependencyTokens rest, (X, d) ∈ D)
    (hD : PairsBound D) :
    ∃ t2, processLine c t line = .ok t2 ∧ TableExtra t2 ∧
      t2.length ≤ t.length + 1 + (dependencyTokens rest).length := by
  have hcount := countDependencies_clean hs hclean
  unfold processLine
  simp only [hs]
  rcases containsFile_spec X t with ⟨h1, h2⟩ | ⟨k, f, h1, h2, h3⟩
  · rw [if_pos h1]
    have hadd : addNewFile c X t (countDependencies line : Nat) =
        .ok (t ++ [initializeFile X (countDependencies line : Nat)], t.length) := by
      unfold addNewFile
      have ha : ¬ ((countDependencies line : Nat) : Int) < NO_DEPENDENCIES := by
        simp only [NO_DEPENDENCIES]; omega
      have hb : ¬ c ≤ t.length := by omega
      simp only [ha, hb, if_false]
    rw [hadd]
    simp only
    have inv0 := lineInv_new inv (countDependencies line : Nat) h2
    have dec0 := lineDecl_new inv dec X (countDependencies line : Nat)
    have hcf0 : (t ++ [initializeFile X (countDependencies line : Nat)])[t.length]? =
        some (initializeFile X (countDependencies line : Nat)) := by
      rw [List.getElem?_append_right (Nat.le_refl _)]; simp
    have ex0 : LineExtra (t ++ [initializeFile X (countDependencies line : Nat)])
        t.length := by
      refine ⟨?_, ?_⟩
      · intro a g ha
        rcases getElem?_append_singleton ha with h | ⟨_, rfl⟩
        · exact ex.slots g (List.getElem?_mem h)
        · simp [initializeFile, MAX_NUMBER_OF_DEPENDENCIES]
      · intro a g ha hne
        rcases getElem?_append_singleton ha with h | ⟨hal, _⟩
        · exact ex.nonneg g (List.getElem?_mem h)
        · exact absurd hal hne
    obtain ⟨t2, i2, hp, ex2, hlen2⟩ :=
      processDependencies_total c t.length X D hD (dependencyTokens rest) P _ 0 _
        inv0 dec0 ex0 hcf0 rfl (by simp only [initializeFile]; rw [hcount]; simp)
        (by simp only [List.length_append, List.length_singleton]; omega) hP hline
    obtain ⟨_, cf2, hcf2, _, hnum⟩ :=
      processDependencies_inv c t.length X _ _ t2 0 i2 _ inv0 hcf0 rfl hp
    rw [hp]
    refine ⟨t2, rfl, tableExtra_of_lineExtra ex2 hcf2 ?_, ?_⟩
    · simp only [initializeFile] at hnum
      rw [hcount] at hnum
      push_cast at hnum
      omega
    · simp only [List.length_append, List.length_singleton] at hlen2
      exact hlen2
  · have hne : containsFile X t ≠ FILE_NOT_FOUND := by
      rw [h1]; simp only [FILE_NOT_FOUND]; omega
    rw [if_neg hne, h1]
    simp only [Int.toNat_ofNat, h2]
    have hnn : 0 ≤ f.numberOfDependencies := ex.nonneg f (List.getElem?_mem h2)
    rw [if_neg (by simp only [NO_DEPENDENCIES]; omega)]
    have inv0 := lineInv_count (f.numberOfDependencies + (countDependencies line : Nat))
      (lineInv_of_tableInv inv h2) h2
    have dec0 := lineDecl_count (f.numberOfDependencies + (countDependencies line : Nat))
      (lineDecl_of_tableDecl dec h2) h2
    have hkl : k < t.length := (List.getElem?_eq_some_iff.mp h2).1
    have hcf0 : (t.set k (updateExistingFile f (countDependencies line : Nat)))[k]? =
        some (updateExistingFile f (countDependencies line : Nat)) :=
      List.getElem?_set_self hkl
    have ex0 : LineExtra (t.set k (updateExistingFile f (countDependencies line : Nat)))
        k := by
      refine ⟨?_, ?_⟩
      · intro a g ha
        rcases getElem?_set_cases ha with ⟨_, rfl⟩ | ⟨_, ha'⟩
        · exact ex.slots f (List.getElem?_mem h2)
        · exact ex.slots g (List.getElem?_mem ha')
      · intro a g ha hne'
        rcases getElem?_set_cases ha with ⟨hak, _⟩ | ⟨_, ha'⟩
        · exact absurd hak hne'
        · exact ex.nonneg g (List.getElem?_mem ha')
    obtain ⟨t2, i2, hp, ex2, hlen2⟩ :=
      processDependencies_total c k X D hD (dependencyTokens rest) P
        (t.set k (updateExistingFile f (countDependencies line : Nat)))
        f.numberOfDependencies.toNat _ inv0 dec0 ex0 hcf0 h3
        (by simp only [updateExistingFile]; rw [hcount]; omega)
        (by simp only [List.length_set]; omega) hP hline
    obtain ⟨_, cf2, hcf2, _, hnum⟩ :=
      processDependencies_inv c k X _
        (t.set k (updateExistingFile f (countDependencies line : Nat))) t2 _ i2 _
        inv0 hcf0 h3 hp
    rw [hp]
    refine ⟨t2, rfl, tableExtra_of_lineExtra ex2 hcf2 ?_, ?_⟩
    · simp only [updateExistingFile] at hnum
      rw [hcount] at hnum
      omega
    · simp only [List.length_set] at hlen2
      omega

theorem tableExtra_nil : TableExtra [] :=
  ⟨fun _ h => absurd h (List.not_mem_nil _), fun _ h => absurd h (List.not_mem_nil _)⟩

/-- The outer loop ends without a fault when every line has a name token and only counted
dependency tokens, the array has a slot for every name token and every dependency token,
and the declared dependencies stay within `MAX_NUMBER_OF_DEPENDENCIES`. -/
theorem processLines_total (c : Nat) (D : List (List Char × List Char))
    (hD : PairsBound D) :
    ∀ (lines : List (List Char)) (P : List (List Char × List Char)) (t : List File),
      TableInv t → TableDecl P t → TableExtra t →
      (∀ line ∈ lines, (strtok FILE_NAME_DELIMITER line).1 ≠ none ∧ CleanLine line) →
      t.length + (lines.map (fun l => 1 + countDependencies l)).sum ≤ c →
      (∀ p ∈ P, p ∈ D) → (∀ p ∈ declaredPairs lines, p ∈ D) →
      ∃ t2, processLines c lines t = .ok t2 := by
  intro lines
  induction lines with
  | nil => intro P t _ _ _ _ _ _ _; exact ⟨t, rfl⟩
  | cons line lines ih =>
    intro P t inv dec ex hall hcap hP hdecl
    obtain ⟨hname, hclean⟩ := hall line (List.mem_cons_self _ _)
    cases hs : strtok FILE_NAME_DELIMITER line with
    | mk tok rest =>
      cases tok with
      | none => rw [hs] at hname; exact absurd rfl hname
      | some X =>
        have hcount := countDependencies_clean hs hclean
        simp only [List.map_cons, List.sum_cons] at hcap
        have hpairs : linePairs line = (dependencyTokens rest).map (fun d => (X, d)) := by
          unfold linePairs; rw [hs]
        have hcap1 : t.length + 1 + (dependencyTokens rest).length ≤ c := by omega
        obtain ⟨t1, hl, ex1, hlen1⟩ :=
          processLine_total inv dec ex hs hclean hcap1 hP
            (by
              intro d hd
              apply hdecl
              rw [declaredPairs, hpairs]
              exact List.mem_append_left _ (List.mem_map.mpr ⟨d, hd, rfl⟩))
            hD
        obtain ⟨t2, h2⟩ :=
          ih (P ++ linePairs line) t1 (processLine_inv inv hl)
            (processLine_decl inv dec hclean hl) ex1
            (fun l hl' => hall l (List.mem_cons_of_mem _ hl')) (by omega)
            (by
              intro p hp
              rcases List.mem_append.mp hp with h | h
              · exact hP p h
              · apply hdecl
                rw [declaredPairs]
                exact List.mem_append_left _ h)
            (by
              intro p hp
              apply hdecl
              rw [declaredPairs]
              exact List.mem_append_right _ hp)
        exact ⟨t2, by rw [processLines, hl]; exact h2⟩

/-- The table of `main` is built without a fault on every input whose lines have a name
token and only counted dependency tokens and give no name more than
`MAX_NUMBER_OF_DEPENDENCIES` distinct dependencies. -/
theorem buildTable_total (stream : List Char)
    (hall : ∀ line ∈ inputLines stream,
      (strtok FILE_NAME_DELIMITER line).1 ≠ none ∧ CleanLine line)
    (hD : PairsBound (declaredPairs (inputLines stream))) :
    ∃ t, buildTable stream = .ok t := by
  unfold buildTable processFile
  exact processLines_total _ _ hD (inputLines stream) [] [] tableInv_nil tableDecl_nil
    tableExtra_nil hall (by unfold estimateFilesCount; simp)
    (fun _ h => absurd h (List.not_mem_nil _)) (fun _ h => h)

theorem mem_declaredDependencies {decls : List (List Char × List (List Char))}
    {X y : List Char} (h : DeclaredEdge decls X y) : y ∈ declaredDependencies decls X := by
  obtain ⟨d, hd, hX, hy⟩ := h
  unfold declaredDependencies
  rw [List.mem_flatten]
  exact ⟨d.2, List.mem_map.mpr ⟨d, List.mem_filter.mpr ⟨hd, by simpa using hX⟩, rfl⟩, hy⟩

theorem pairsBound_render (decls : List (List Char × List (List Char)))
    (hdecl : ∀ d ∈ decls, IsDeclaration d) (hbound : DependencyBound decls) :
    PairsBound (declaredPairs (inputLines (renderInput decls))) := by
  rw [inputLines_renderInput decls hdecl]
  intro X l hn hall
  have hedge : ∀ y ∈ l, DeclaredEdge decls X y :=
    fun y hy => (declaredPairs_render decls hdecl X y).mp (hall y hy)
  cases l with
  | nil => simp
  | cons y0 l =>
    obtain ⟨d, hd, hX, _⟩ := hedge y0 (List.mem_cons_self _ _)
    have hb := hbound d hd
    rw [hX] at hb
    have hsub : (y0 :: l) ⊆ (declaredDependencies decls X).dedup := by
      intro y hy
      exact List.mem_dedup.mpr (mem_declaredDependencies (hedge y hy))
    exact Nat.le_trans (List.subperm_of_subset hn hsub).length_le hb

theorem lines_renderInput (decls : List (List Char × List (List Char)))
    (hdecl : ∀ d ∈ decls, IsDeclaration d)
    (hvalid : ∀ d ∈ decls, ∀ y ∈ d.2, isValidName y = true) :
    ∀ line ∈ inputLines (renderInput decls),
      (strtok FILE_NAME_DELIMITER line).1 ≠ none ∧ CleanLine line := by
  intro line hl
  refine ⟨?_, clean_renderInput decls hdecl hvalid line hl⟩
  rw [inputLines_renderInput decls hdecl] at hl
  obtain ⟨d, hd, rfl⟩ := List.mem_map.mp hl
  rw [strtok_renderLine d.1 d.2 (hdecl d hd).1]
  simp

/-- C1 as amended (end to end): for every input text whose lines have the form
`name: d1,d2,...,dk` (the dependency list possibly empty, the dependencies separated by one
comma without whitespace), where the names are free of delimiter characters, every
dependency name starts with a letter or a digit, every line fits into the line buffer and
no file is given more than `MAX_NUMBER_OF_DEPENDENCIES` distinct dependencies, the
computation of `main` (the table built by `processFile` in the array of
`estimateFilesCount` slots, then `analyzeData`) ends without a fault, and it returns `true`
if and only if the declared dependency relation contains a directed cycle. -/
theorem checkDependency_iff_cycle (decls : List (List Char × List (List Char)))
    (hdecl : ∀ d ∈ decls, IsDeclaration d)
    (hvalid : ∀ d ∈ decls, ∀ y ∈ d.2, isValidName y = true)
    (hbound : DependencyBound decls) :
    ∃ b, checkDependency (renderInput decls) = .ok b ∧
      (b = true ↔ ∃ X, Relation.TransGen (DeclaredEdge decls) X X) := by
  obtain ⟨t, ht⟩ := buildTable_total (renderInput decls)
    (lines_renderInput decls hdecl hvalid) (pairsBound_render decls hdecl hbound)
  obtain ⟨b, hres, hiff⟩ :=
    analyzeData_iff_tokenCycle ht (clean_renderInput decls hdecl hvalid)
  refine ⟨b, ?_, ?_⟩
  · unfold checkDependency
    rw [ht]
    exact hres
  · rw [hiff, tokenCycle_iff_declaredCycle decls hdecl]

/-- Witness of C1 as amended: the ring `A: B\nB: C\nC: A\n`. -/
theorem checkDependency_iff_cycle_witness :
    renderInput [("A".toList, ["B".toList]), ("B".toList, ["C".toList]),
        ("C".toList, ["A".toList])] = "A: B\nB: C\nC: A\n".toList ∧
      (∀ d ∈ [("A".toList, ["B".toList]), ("B".toList, ["C".toList]),
        ("C".toList, ["A".toList])], IsDeclaration d) ∧
      DependencyBound [("A".toList, ["B".toList]), ("B".toList, ["C".toList]),
        ("C".toList, ["A".toList])] ∧
      ∃ b, checkDependency "A: B\nB: C\nC: A\n".toList = .ok b ∧
        (b = true ↔ ∃ X, Relation.TransGen
          (DeclaredEdge [("A".toList, ["B".toList]), ("B".toList, ["C".toList]),
            ("C".toList, ["A".toList])]) X X) :=
  ⟨by decide, by decide, by decide,
    checkDependency_iff_cycle
      [("A".toList, ["B".toList]), ("B".toList, ["C".toList]), ("C".toList, ["A".toList])]
      (by decide) (by decide) (by decide)⟩

/-! ## References and names of the table -/

theorem processDependency_placeholder {c ci : Nat} {d : List Char} {t t2 : List File}
    {index index2 : Nat} (hci : ci < t.length) (hnew : ∀ f ∈ t, f.fileName ≠ d)
    (h : processDependency c ci d t index = .ok (t2, index2)) :
    t2[t.length]? = some (initializeFile d NO_DEPENDENCIES) := by
  obtain ⟨t1, j, cf, cf1, hr, hcf, ht2, _⟩ := processDependency_ok h
  rcases hr with ⟨_, g, hg, hgd⟩ | ⟨rfl, _, _⟩
  · exact absurd hgd (hnew g (List.getElem?_mem hg))
  · subst ht2
    rw [List.getElem?_set_ne (by omega), List.getElem?_append_right (Nat.le_refl _)]
    simp [NO_DEPENDENCIES]

/-- C11 (reference validity): after every number `k` of processed lines of any input, in an
array of any size, each of the first `numberOfDependencies` entries of the
`fileDependencies` of every file of the table is an index of the table; this holds for the
table that `processFile` returns.  A dependency token whose name is not in the table is
appended as a placeholder with zero dependencies. -/
theorem reference_validity :
    (∀ (c : Nat) (stream : List Char) (k : Nat) (t : List File),
      processLines c ((inputLines stream).take k) [] = .ok t →
      ∀ f ∈ t, ∀ i : Nat, (i : Int) < f.numberOfDependencies →
        ∃ j : Nat, f.fileDependencies[i]? = some (j : Int) ∧ j < t.length) ∧
    (∀ (c : Nat) (stream : List Char) (t : List File), processFile c stream = .ok t →
      ∀ f ∈ t, ∀ i : Nat, (i : Int) < f.numberOfDependencies →
        ∃ j : Nat, f.fileDependencies[i]? = some (j : Int) ∧ j < t.length) ∧
    (∀ (c ci : Nat) (d : List Char) (t t2 : List File) (index index2 : Nat),
      ci < t.length → (∀ f ∈ t, f.fileName ≠ d) →
      processDependency c ci d t index = .ok (t2, index2) →
      t2[t.length]? = some (initializeFile d NO_DEPENDENCIES) ∧
        (initializeFile d NO_DEPENDENCIES).numberOfDependencies = 0) := by
  refine ⟨?_, ?_, ?_⟩
  · intro c stream k t h
    exact (processLines_inv c _ _ _ tableInv_nil h).wf.deps_valid
  · intro c stream t h
    exact (processFile_inv h).wf.deps_valid
  · intro c ci d t t2 index index2 hci hnew h
    exact ⟨processDependency_placeholder hci hnew h, rfl⟩

/-- Witness of C11: the input `A: B\nB: C\n` after its first line, where `B` is a
placeholder with zero dependencies, and the entry of `A` refers to it. -/
theorem reference_validity_witness :
    processLines 4 ((inputLines "A: B\nB: C\n".toList).take 1) [] = .ok tableAfterFirstLine ∧
      tableAfterFirstLine[1]? = some (initializeFile "B".toList NO_DEPENDENCIES) ∧
      ∀ f ∈ tableAfterFirstLine, ∀ i : Nat, (i : Int) < f.numberOfDependencies →
        ∃ j : Nat, f.fileDependencies[i]? = some (j : Int) ∧ j < tableAfterFirstLine.length :=
  ⟨by decide, by decide,
    reference_validity.1 4 "A: B\nB: C\n".toList 1 tableAfterFirstLine (by decide)⟩

theorem names_processDependency {c ci : Nat} {d : List Char} {t t2 : List File}
    {index index2 : Nat} (hci : ci < t.length)
    (h : processDependency c ci d t index = .ok (t2, index2)) :
    ∀ x, x ∈ t2.map File.fileName ↔ (x ∈ t.map File.fileName ∨ x = d) := by
  obtain ⟨t1, j, cf, cf1, hr, hcf, ht2, hadd⟩ := processDependency_ok h
  have hname : cf1.fileName = cf.fileName := by
    rcases hadd with ⟨_, _, rfl, _⟩ | ⟨_, _, rfl, _⟩ <;> rfl
  subst ht2
  intro x
  rw [map_fileName_set cf1 hcf hname]
  rcases hr with ⟨rfl, g, hg, hgd⟩ | ⟨rfl, _, _⟩
  · constructor
    · exact Or.inl
    · rintro (hx | hx)
      · exact hx
      · rw [hx, ← hgd]
        exact List.mem_map.mpr ⟨g, List.getElem?_mem hg, rfl⟩
  · simp [initializeFile]

theorem names_processDependencies (c ci : Nat) :
    ∀ (toks : List (List Char)) (t t2 : List File) (index index2 : Nat), ci < t.length →
      processDependencies c ci toks t index = .ok (t2, index2) →
      ci < t2.length ∧
        ∀ x, x ∈ t2.map File.fileName ↔ (x ∈ t.map File.fileName ∨ x ∈ toks) := by
  intro toks
  induction toks with
  | nil =>
    intro t t2 index index2 hci h
    simp only [processDependencies] at h
    have := Except.ok.inj h
    simp only [Prod.mk.injEq] at this
    obtain ⟨rfl, rfl⟩ := this
    exact ⟨hci, by simp⟩
  | cons d toks ih =>
    intro t t2 index index2 hci h
    rw [processDependencies] at h
    cases hd : processDependency c ci d t index with
    | error e => simp [hd] at h
    | ok x =>
      obtain ⟨t1, index1⟩ := x
      simp only [hd] at h
      have h1 := names_processDependency hci hd
      have hci1 : ci < t1.length := by
        obtain ⟨t0, j, cf, cf1, hr, hcf, ht2, _⟩ := processDependency_ok hd
        subst ht2
        rcases hr with ⟨rfl, _⟩ | ⟨rfl, _, _⟩
        · simpa using hci
        · simp; omega
      obtain ⟨hci2, h2⟩ := ih t1 t2 index1 index2 hci1 h
      refine ⟨hci2, ?_⟩
      intro x
      rw [h2 x, h1 x, List.mem_cons]
      constructor
      · rintro ((h | h) | h)
        · exact Or.inl h
        · exact Or.inr (Or.inl h)
        · exact Or.inr (Or.inr h)
      · rintro (h | h | h)
        · exact Or.inl (Or.inl h)
        · exact Or.inl (Or.inr h)
        · exact Or.inr h

theorem names_processLine {c : Nat} {t t2 : List File} {line : List Char}
    (h : processLine c t line = .ok t2) :
    ∀ x, x ∈ t2.map File.fileName ↔ (x ∈ t.map File.fileName ∨ x ∈ lineNames line) := by
  obtain ⟨X, rest, hs, hcase⟩ := processLine_ok h
  have hln : lineNames line = X :: dependencyTokens rest := by
    unfold lineNames; rw [hs]
  rw [hln]
  intro x
  rcases hcase with ⟨_, i2, hp⟩ | ⟨ci, cf, hcf, hX, _, i2, hp⟩
  · obtain ⟨_, h2⟩ := names_processDependencies c t.length _ _ t2 0 i2 (by simp) hp
    rw [h2 x]
    simp only [List.map_append, List.map_cons, List.map_nil, List.mem_append,
      List.mem_singleton, List.mem_cons, initializeFile, List.not_mem_nil, or_false]
    constructor
    · rintro ((h | h) | h)
      · exact Or.inl h
      · exact Or.inr (Or.inl h)
      · exact Or.inr (Or.inr h)
    · rintro (h | h | h)
      · exact Or.inl (Or.inl h)
      · exact Or.inl (Or.inr h)
      · exact Or.inr h
  · have hcil : ci < t.length := (List.getElem?_eq_some_iff.mp hcf).1
    obtain ⟨_, h2⟩ := names_processDependencies c ci _ _ t2 _ i2
      (by simpa using hcil) hp
    rw [h2 x, map_fileName_set (updateExistingFile cf (countDependencies line : Nat)) hcf rfl]
    simp only [List.mem_cons]
    constructor
    · rintro (h | h)
      · exact Or.inl h
      · exact Or.inr (Or.inr h)
    · rintro (h | h | h)
      · exact Or.inl h
      · left
        rw [h, ← hX]
        exact List.mem_map.mpr ⟨cf, List.getElem?_mem hcf, rfl⟩
      · exact Or.inr h

theorem names_processLines (c : Nat) :
    ∀ (lines : List (List Char)) (t t2 : List File), processLines c lines t = .ok t2 →
      ∀ x, x ∈ t2.map File.fileName ↔ (x ∈ t.map File.fileName ∨ x ∈ allNames lines) := by
  intro lines
  induction lines with
  | nil =>
    intro t t2 h x
    rw [← Except.ok.inj h]
    simp [allNames]
  | cons line lines ih =>
    intro t t2 h x
    rw [processLines] at h
    cases hl : processLine c t line with
    | error e => simp [hl] at h
    | ok t1 =>
      simp only [hl] at h
      rw [ih t1 t2 h x, names_processLine hl x, allNames, List.mem_append]
      constructor
      · rintro ((h | h) | h)
        · exact Or.inl h
        · exact Or.inr (Or.inl h)
        · exact Or.inr (Or.inr h)
      · rintro (h | h | h)
        · exact Or.inl (Or.inl h)
        · exact Or.inl (Or.inr h)
        · exact Or.inr h

/-- C12 (unique names): in every table that `processFile` builds no two entries have the
same `fileName`, the names of the table are exactly the name tokens (declaring names and
dependency names, as `strtok` delivers them) of the input, and the number of files is the
number of distinct name tokens; so a name has one entry, whether it was first met as a
dependency or as a declaring name. -/
theorem unique_names (c : Nat) (stream : List Char) (t : List File)
    (h : processFile c stream = .ok t) :
    (t.map File.fileName).Nodup ∧
      (∀ x, x ∈ t.map File.fileName ↔ x ∈ allNames (inputLines stream)) ∧
      t.length = (allNames (inputLines stream)).dedup.length := by
  have hn := (processFile_inv h).wf.names_nodup
  have hmem : ∀ x, x ∈ t.map File.fileName ↔ x ∈ allNames (inputLines stream) := by
    intro x
    have := names_processLines c _ _ _ h x
    simpa using this
  refine ⟨hn, hmem, ?_⟩
  have hperm : (t.map File.fileName).Perm (allNames (inputLines stream)).dedup := by
    rw [List.perm_ext_iff_of_nodup hn (List.nodup_dedup _)]
    intro x
    rw [hmem x, List.mem_dedup]
  have := hperm.length_eq
  simpa using this

/-- Witness of C12: in the input `A: B\nB: C\n` the name `B` is first a dependency and then
a declaring name; the table has the three files `A`, `B`, `C`, and the entry `B` created
by the first line carries the dependency of the second line. -/
theorem unique_names_witness :
    buildTable "A: B\nB: C\n".toList = .ok tableForwardReference ∧
      allNames (inputLines "A: B\nB: C\n".toList) =
        ["A".toList, "B".toList, "B".toList, "C".toList] ∧
      tableForwardReference.map File.fileName = ["A".toList, "B".toList, "C".toList] ∧
      (tableForwardReference.map File.fileName).Nodup ∧
      tableForwardReference.length =
        (allNames (inputLines "A: B\nB: C\n".toList)).dedup.length :=
  ⟨by decide, by decide, by decide,
    (unique_names (estimateFilesCount "A: B\nB: C\n".toList) "A: B\nB: C\n".toList
      tableForwardReference (by decide)).1,
    (unique_names (estimateFilesCount "A: B\nB: C\n".toList) "A: B\nB: C\n".toList
      tableForwardReference (by decide)).2.2⟩

/-! ## Lines without a name, a second run of the search, the second example -/

/-- C17 (the second example): the input `A: B, C\nB:\nC:\n` is built without a fault; the
table of its first line is kept by the lines `B:` and `C:`, which only append the file `C`
without dependencies; the recorded dependencies are the index 1 for `A` and none for the
other files; `analyzeData` returns `false`. -/
theorem example_two :
    buildTable "A: B, C\nB:\nC:\n".toList = .ok tableExampleTwo ∧
      processLines 4 ((inputLines "A: B, C\nB:\nC:\n".toList).take 1) [] =
        .ok tableSpacedPair ∧
      tableExampleTwo.map File.fileName =
        ["A".toList, "B".toList, " C".toList, "C".toList] ∧
      tableExampleTwo.map recordedDependencies = [[1], [], [], []] ∧
      analyzeData tableExampleTwo = .ok false ∧
      checkDependency "A: B, C\nB:\nC:\n".toList = .ok false := by
  decide

/-! ## The program on inputs in its format: permuted lines, rings, undeclared leaves -/

/-- The outer loop ends without a fault on clean lines, as in `processLines_total`, and the
table it returns has full dependency arrays and no negative count. -/
theorem processLines_extra (c : Nat) (D : List (List Char × List Char))
    (hD : PairsBound D) :
    ∀ (lines : List (List Char)) (P : List (List Char × List Char)) (t : List File),
      TableInv t → TableDecl P t → TableExtra t →
      (∀ line ∈ lines, (strtok FILE_NAME_DELIMITER line).1 ≠ none ∧ CleanLine line) →
      t.length + (lines.map (fun l => 1 + countDependencies l)).sum ≤ c →
      (∀ p ∈ P, p ∈ D) → (∀ p ∈ declaredPairs lines, p ∈ D) →
      ∃ t2, processLines c lines t = .ok t2 ∧ TableExtra t2 := by
  intro lines
  induction lines with
  | nil => intro P t _ _ ex _ _ _ _; exact ⟨t, rfl, ex⟩
  | cons line lines ih =>
    intro P t inv dec ex hall hcap hP hdecl
    obtain ⟨hname, hclean⟩ := hall line (List.mem_cons_self _ _)
    cases hs : strtok FILE_NAME_DELIMITER line with
    | mk tok rest =>
      cases tok with
      | none => rw [hs] at hname; exact absurd rfl hname
      | some X =>
        have hcount := countDependencies_clean hs hclean
        simp only [List.map_cons, List.sum_cons] at hcap
        have hpairs : linePairs line = (dependencyTokens rest).map (fun d => (X, d)) := by
          unfold linePairs; rw [hs]
        have hcap1 : t.length + 1 + (dependencyTokens rest).length ≤ c := by omega
        obtain ⟨t1, hl, ex1, hlen1⟩ :=
          processLine_total inv dec ex hs hclean hcap1 hP
            (by
              intro d hd
              apply hdecl
              rw [declaredPairs, hpairs]
              exact List.mem_append_left _ (List.mem_map.mpr ⟨d, hd, rfl⟩))
            hD
        obtain ⟨t2, h2, ex2⟩ :=
          ih (P ++ linePairs line) t1 (processLine_inv inv hl)
            (processLine_decl inv dec hclean hl) ex1
            (fun l hl' => hall l (List.mem_cons_of_mem _ hl')) (by omega)
            (by
              intro p hp
              rcases List.mem_append.mp hp with h | h
              · exact hP p h
              · apply hdecl
                rw [declaredPairs]
                exact List.mem_append_left _ h)
            (by
              intro p hp
              apply hdecl
              rw [declaredPairs]
              exact List.mem_append_right _ hp)
        exact ⟨t2, by rw [processLines, hl]; exact h2, ex2⟩

/-- The run of `main` on an input in the format of the program: the table is built without a
fault, it satisfies the invariants of the builder with the declared pairs, and `analyzeData`
returns whether the declared relation has a cycle. -/
theorem checkDependency_render (decls : List (List Char × List (List Char)))
    (hdecl : ∀ d ∈ decls, IsDeclaration d)
    (hvalid : ∀ d ∈ decls, ∀ y ∈ d.2, isValidName y = true)
    (hbound : DependencyBound decls) :
    ∃ t b, buildTable (renderInput decls) = .ok t ∧ TableInv t ∧ TableExtra t ∧
      TableDecl (declaredPairs (inputLines (renderInput decls))) t ∧
      analyzeData t = .ok b ∧ checkDependency (renderInput decls) = .ok b ∧
      (b = true ↔ ∃ X, Relation.TransGen (DeclaredEdge decls) X X) := by
  have hall := lines_renderInput decls hdecl hvalid
  have hclean := clean_renderInput decls hdecl hvalid
  obtain ⟨t, ht, ex⟩ : ∃ t, buildTable (renderInput decls) = .ok t ∧ TableExtra t := by
    unfold buildTable processFile
    exact processLines_extra _ _ (pairsBound_render decls hdecl hbound)
      (inputLines (renderInput decls)) [] [] tableInv_nil tableDecl_nil
      tableExtra_nil hall (by unfold estimateFilesCount; simp)
      (fun _ h => absurd h (List.not_mem_nil _)) (fun _ h => h)
  obtain ⟨b, hres, hiff⟩ := analyzeData_iff_tokenCycle ht hclean
  refine ⟨t, b, ht, processFile_inv ht, ex, processFile_decl ht hclean, hres, ?_, ?_⟩
  · unfold checkDependency
    rw [ht]
    exact hres
  · rw [hiff, tokenCycle_iff_declaredCycle decls hdecl]

theorem declaredDependencies_cons (d : List Char × List (List Char))
    (decls : List (List Char × List (List Char))) (X : List Char) :
    declaredDependencies (d :: decls) X =
      if d.1 = X then d.2 ++ declaredDependencies decls X else declaredDependencies decls X := by
  unfold declaredDependencies
  by_cases h : d.1 = X
  · simp [List.filter_cons, h]
  · simp [List.filter_cons, h]

theorem declaredDependencies_not_mem {decls : List (List Char × List (List Char))}
    {X : List Char} (h : X ∉ decls.map Prod.fst) : declaredDependencies decls X = [] := by
  induction decls with
  | nil => rfl
  | cons d decls ih =>
    rw [declaredDependencies_cons]
    simp only [List.map_cons, List.mem_cons, not_or] at h
    rw [if_neg (fun hd => h.1 hd.symm)]
    exact ih h.2

/-- Declarations with distinct declaring names and at most `MAX_NUMBER_OF_DEPENDENCIES`
dependencies each stay within the bound. -/
theorem dependencyBound_of_nodup {decls : List (List Char × List (List Char))}
    (hn : (decls.map Prod.fst).Nodup)
    (hlen : ∀ d ∈ decls, d.2.length ≤ MAX_NUMBER_OF_DEPENDENCIES) :
    DependencyBound decls := by
  have key : ∀ X, (declaredDependencies decls X).length ≤ MAX_NUMBER_OF_DEPENDENCIES := by
    induction decls with
    | nil => intro X; simp [declaredDependencies]
    | cons d decls ih =>
      intro X
      rw [declaredDependencies_cons]
      simp only [List.map_cons, List.nodup_cons] at hn
      by_cases hd : d.1 = X
      · rw [if_pos hd, declaredDependencies_not_mem (hd ▸ hn.1), List.append_nil]
        exact hlen d (List.mem_cons_self _ _)
      · rw [if_neg hd]
        exact ih hn.2 (fun e he => hlen e (List.mem_cons_of_mem _ he)) X
  intro d _
  exact Nat.le_trans (List.Sublist.length_le (List.dedup_sublist _)) (key d.1)

theorem dependencyBound_perm {decls1 decls2 : List (List Char × List (List Char))}
    (hperm : decls1.Perm decls2) (hbound : DependencyBound decls1) :
    DependencyBound decls2 := by
  intro d hd
  have h1 := hbound d (hperm.mem_iff.mpr hd)
  have hp : (declaredDependencies decls1 d.1).Perm (declaredDependencies decls2 d.1) := by
    unfold declaredDependencies
    exact List.Perm.flatten ((hperm.filter _).map _)
  rw [← (List.Perm.dedup hp).length_eq]
  exact h1

theorem declaredEdge_perm {decls1 decls2 : List (List Char × List (List Char))}
    (hperm : decls1.Perm decls2) : DeclaredEdge decls1 = DeclaredEdge decls2 := by
  funext x y
  apply propext
  constructor
  · rintro ⟨d, hd, h⟩; exact ⟨d, hperm.mem_iff.mp hd, h⟩
  · rintro ⟨d, hd, h⟩; exact ⟨d, hperm.mem_iff.mpr hd, h⟩

/-- Counterexample of C15: the three lines `A: B`, `A: -,B`, `-: A` declare the cycle
`A → - → A`; in this order the program answers that there is no cycle, with the first two
lines exchanged it answers that there is one. -/
theorem order_dependent :
    ["A: -,B\n".toList, "A: B\n".toList, "-: A\n".toList].Perm
        ["A: B\n".toList, "A: -,B\n".toList, "-: A\n".toList] ∧
      inputLines "A: B\nA: -,B\n-: A\n".toList =
        ["A: B\n".toList, "A: -,B\n".toList, "-: A\n".toList] ∧
      inputLines "A: -,B\nA: B\n-: A\n".toList =
        ["A: -,B\n".toList, "A: B\n".toList, "-: A\n".toList] ∧
      checkDependency "A: B\nA: -,B\n-: A\n".toList = .ok false ∧
      checkDependency "A: -,B\nA: B\n-: A\n".toList = .ok true :=
  ⟨List.Perm.swap _ _ _, by decide, by decide, by decide, by decide⟩

/-- C15 as amended: for declarations in the format of the program (lines
`name: d1,...,dk` with names free of delimiters, dependency names that start with a letter
or a digit, lines that fit into the buffer, at most `MAX_NUMBER_OF_DEPENDENCIES` distinct
dependencies per file), the run of `main` on the input with the lines in any other order
ends without a fault too and gives the same boolean. -/
theorem order_independent (decls1 decls2 : List (List Char × List (List Char)))
    (hperm : decls1.Perm decls2)
    (hdecl : ∀ d ∈ decls1, IsDeclaration d)
    (hvalid : ∀ d ∈ decls1, ∀ y ∈ d.2, isValidName y = true)
    (hbound : DependencyBound decls1) :
    ∃ b, checkDependency (renderInput decls1) = .ok b ∧
      checkDependency (renderInput decls2) = .ok b := by
  obtain ⟨_, b1, _, _, _, _, _, h1, hiff1⟩ := checkDependency_render decls1 hdecl hvalid hbound
  obtain ⟨_, b2, _, _, _, _, _, h2, hiff2⟩ :=
    checkDependency_render decls2 (fun d hd => hdecl d (hperm.mem_iff.mpr hd))
      (fun d hd => hvalid d (hperm.mem_iff.mpr hd)) (dependencyBound_perm hperm hbound)
  rw [← declaredEdge_perm hperm, ← hiff1] at hiff2
  have : b1 = b2 := by
    cases b1 <;> cases b2 <;> simp_all
  subst this
  exact ⟨b1, h1, h2⟩

/-- Witness of C15 as amended: `A: B\nB: A\n` and `B: A\nA: B\n`. -/
theorem order_independent_witness :
    renderInput [("A".toList, ["B".toList]), ("B".toList, ["A".toList])] =
        "A: B\nB: A\n".toList ∧
      renderInput [("B".toList, ["A".toList]), ("A".toList, ["B".toList])] =
        "B: A\nA: B\n".toList ∧
      ∃ b, checkDependency
          (renderInput [("A".toList, ["B".toList]), ("B".toList, ["A".toList])]) = .ok b ∧
        checkDependency
          (renderInput [("B".toList, ["A".toList]), ("A".toList, ["B".toList])]) = .ok b :=
  ⟨by decide, by decide,
    order_independent [("A".toList, ["B".toList]), ("B".toList, ["A".toList])]
      [("B".toList, ["A".toList]), ("A".toList, ["B".toList])]
      (List.Perm.swap _ _ _) (by decide) (by decide) (by decide)⟩

/-! ## Rings of declarations and pairs with undeclared leaves -/

theorem isDeclaration_single {x y : List Char} (hx : IsName x) (hy : IsName y)
    (hlx : x.length ≤ 498) (hly : y.length ≤ 498) : IsDeclaration (x, [y]) := by
  refine ⟨hx, ?_, ?_⟩
  · intro z hz
    rw [List.mem_singleton.mp hz]
    exact hy
  · simp only [renderLine, joinDependencies, List.length_append, List.length_cons,
      List.length_nil, MAX_LINE_SIZE]
    omega

theorem ringFrom_mem (first : List Char) :
    ∀ (l : List (List Char)), ∀ d ∈ ringFrom first l,
      d.1 ∈ l ∧ ∃ y, d.2 = [y] ∧ (y ∈ l ∨ y = first) := by
  intro l
  induction l with
  | nil => intro d hd; simp [ringFrom] at hd
  | cons x l ih =>
    cases l with
    | nil =>
      intro d hd
      simp only [ringFrom, List.mem_singleton] at hd
      subst hd
      exact ⟨List.mem_cons_self _ _, first, rfl, Or.inr rfl⟩
    | cons y rest =>
      intro d hd
      simp only [ringFrom, List.mem_cons] at hd
      rcases hd with rfl | hd
      · exact ⟨List.mem_cons_self _ _, y, rfl,
          Or.inl (List.mem_cons_of_mem _ (List.mem_cons_self _ _))⟩
      · obtain ⟨h1, z, h2, h3⟩ := ih d (by simpa [ringFrom] using hd)
        refine ⟨List.mem_cons_of_mem _ h1, z, h2, ?_⟩
        rcases h3 with h3 | h3
        · exact Or.inl (List.mem_cons_of_mem _ h3)
        · exact Or.inr h3

theorem ringFrom_fst (first : List Char) :
    ∀ (l : List (List Char)), (ringFrom first l).map Prod.fst = l := by
  intro l
  induction l with
  | nil => rfl
  | cons x l ih =>
    cases l with
    | nil => rfl
    | cons y rest =>
      simp only [ringFrom, List.map_cons]
      rw [ih]

/-- Along the declarations `x1: x2`, ..., `xn: first` the name `x1` reaches `first`. -/
theorem ringFrom_reach (first : List Char) (D : List (List Char × List (List Char))) :
    ∀ (l : List (List Char)) (x : List Char), (∀ d ∈ ringFrom first (x :: l), d ∈ D) →
      Relation.TransGen (DeclaredEdge D) x first := by
  intro l
  induction l with
  | nil =>
    intro x h
    exact Relation.TransGen.single
      ⟨(x, [first]), h _ (by simp [ringFrom]), rfl, List.mem_singleton.mpr rfl⟩
  | cons y rest ih =>
    intro x h
    have hxy : DeclaredEdge D x y :=
      ⟨(x, [y]), h _ (by simp [ringFrom]), rfl, List.mem_singleton.mpr rfl⟩
    exact Relation.TransGen.head hxy
      (ih y (fun d hd => h d (by simp only [ringFrom, List.mem_cons]; exact Or.inr hd)))

/-- Counterexample of C16: the ring `_a: _b`, `_b: _a` of two distinct names is built
without a fault and reported as free of cycles. -/
theorem ring_missed :
    renderInput (ringDecls ["_a".toList, "_b".toList]) = "_a: _b\n_b: _a\n".toList ∧
      checkDependency "_a: _b\n_b: _a\n".toList = .ok false := by
  decide

/-- C16 as amended: for every `n ≥ 1` and pairwise distinct names `f1 ... fn` that are free
of delimiter characters, start with a letter or a digit and have at most 498 characters,
the run of `main` on the input with the `n` lines `f1: f2`, ..., `fn: f1` ends without a
fault and returns `true`. -/
theorem ring_cyclic (fs : List (List Char)) (hne : fs ≠ []) (hn : fs.Nodup)
    (hname : ∀ f ∈ fs, IsName f) (hvalid : ∀ f ∈ fs, isValidName f = true)
    (hlen : ∀ f ∈ fs, f.length ≤ 498) :
    checkDependency (renderInput (ringDecls fs)) = .ok true := by
  cases fs with
  | nil => exact absurd rfl hne
  | cons f rest =>
    have hmem := ringFrom_mem f (f :: rest)
    have hy : ∀ d ∈ ringDecls (f :: rest), ∃ y, d.2 = [y] ∧ y ∈ f :: rest := by
      intro d hd
      obtain ⟨_, y, h2, h3⟩ := hmem d hd
      refine ⟨y, h2, ?_⟩
      rcases h3 with h3 | h3
      · exact h3
      · rw [h3]; exact List.mem_cons_self _ _
    have hdecl : ∀ d ∈ ringDecls (f :: rest), IsDeclaration d := by
      intro d hd
      obtain ⟨y, h2, h3⟩ := hy d hd
      have h1 := (hmem d hd).1
      have hd2 : d = (d.1, [y]) := by rw [← h2]
      rw [hd2]
      exact isDeclaration_single (hname _ h1) (hname _ h3) (hlen _ h1) (hlen _ h3)
    have hval : ∀ d ∈ ringDecls (f :: rest), ∀ y ∈ d.2, isValidName y = true := by
      intro d hd y hyd
      obtain ⟨z, h2, h3⟩ := hy d hd
      rw [h2, List.mem_singleton] at hyd
      rw [hyd]
      exact hvalid z h3
    have hbound : DependencyBound (ringDecls (f :: rest)) := by
      apply dependencyBound_of_nodup
      · show ((ringFrom f (f :: rest)).map Prod.fst).Nodup
        rw [ringFrom_fst]
        exact hn
      · intro d hd
        obtain ⟨z, h2, _⟩ := hy d hd
        rw [h2]
        simp [MAX_NUMBER_OF_DEPENDENCIES]
    obtain ⟨_, b, _, _, _, _, _, hres, hiff⟩ :=
      checkDependency_render (ringDecls (f :: rest)) hdecl hval hbound
    have hb : b = true :=
      hiff.mpr ⟨f, ringFrom_reach f (ringDecls (f :: rest)) rest f (fun d hd => hd)⟩
    rw [hres, hb]

/-- Witness of C16 as amended: the ring `A: B\nB: C\nC: A\n`. -/
theorem ring_cyclic_witness :
    renderInput (ringDecls ["A".toList, "B".toList, "C".toList]) =
        "A: B\nB: C\nC: A\n".toList ∧
      checkDependency (renderInput (ringDecls ["A".toList, "B".toList, "C".toList])) =
        .ok true :=
  ⟨by decide,
    ring_cyclic ["A".toList, "B".toList, "C".toList] (by decide) (by decide) (by decide)
      (by decide) (by decide)⟩

set_option maxRecDepth 1000000 in
/-- Counterexample of C18: the name `longLeaf` of 1000 characters is a dependency of `A` on
the one line `A: longLeaf`; `fgets` delivers the line in two pieces of 1000 and 4
characters, and the table that is built has three files with names of 1, 997 and 3
characters, none of them `longLeaf`. For the line `A: _b` the array of `main` has one
slot, as the counting pass skips the token `_b`, and the builder stores two files. -/
theorem undeclared_leaf_lost :
    (renderInput (pairDecls [("A".toList, longLeaf)])).length = 1004 ∧
      (inputLines (renderInput (pairDecls [("A".toList, longLeaf)]))).map List.length =
        [1000, 4] ∧
      (buildTable (renderInput (pairDecls [("A".toList, longLeaf)]))).map
        (fun t => t.map (fun f => (f.fileName.length, decide (f.fileName = longLeaf)))) =
          .ok [(1, false), (997, false), (3, false)] ∧
      renderInput (pairDecls [("A".toList, "_b".toList)]) = "A: _b\n".toList ∧
      estimateFilesCount "A: _b\n".toList = 1 ∧
      (processFile 2 "A: _b\n".toList).map List.length = .ok 2 ∧
      buildTable "A: _b\n".toList = .error .outOfBounds := by
  decide

/-- C18 as amended: for pairs `(a_i, b_i)` of pairwise distinct names that are free of
delimiter characters and have at most 498 characters, every `b_i` starting with a letter or
a digit, the input with the lines `a_i: b_i` is built without a fault in the array of
`main`, every `b_i` has an entry with `numberOfDependencies = 0`, and `analyzeData` returns
`false`. -/
theorem undeclared_leaves (pairs : List (List Char × List Char))
    (hn : (pairs.map Prod.fst ++ pairs.map Prod.snd).Nodup)
    (hname : ∀ p ∈ pairs, IsName p.1 ∧ IsName p.2)
    (hvalid : ∀ p ∈ pairs, isValidName p.2 = true)
    (hlen : ∀ p ∈ pairs, p.1.length ≤ 498 ∧ p.2.length ≤ 498) :
    ∃ t, buildTable (renderInput (pairDecls pairs)) = .ok t ∧
      (∀ p ∈ pairs, ∃ f ∈ t, f.fileName = p.2 ∧ f.numberOfDependencies = 0) ∧
      analyzeData t = .ok false := by
  obtain ⟨hn1, _, hdisj⟩ := List.nodup_append.mp hn
  have hdecl : ∀ d ∈ pairDecls pairs, IsDeclaration d := by
    intro d hd
    obtain ⟨p, hp, rfl⟩ := List.mem_map.mp hd
    exact isDeclaration_single (hname p hp).1 (hname p hp).2 (hlen p hp).1 (hlen p hp).2
  have hval : ∀ d ∈ pairDecls pairs, ∀ y ∈ d.2, isValidName y = true := by
    intro d hd y hy
    obtain ⟨p, hp, rfl⟩ := List.mem_map.mp hd
    rw [List.mem_singleton.mp hy]
    exact hvalid p hp
  have hbound : DependencyBound (pairDecls pairs) := by
    apply dependencyBound_of_nodup
    · unfold pairDecls
      rw [List.map_map]
      exact hn1
    · intro d hd
      obtain ⟨p, _, rfl⟩ := List.mem_map.mp hd
      simp [MAX_NUMBER_OF_DEPENDENCIES]
  have hsrc : ∀ x y, DeclaredEdge (pairDecls pairs) x y →
      x ∈ pairs.map Prod.fst ∧ y ∈ pairs.map Prod.snd := by
    rintro x y ⟨d, hd, hx, hy⟩
    obtain ⟨p, hp, rfl⟩ := List.mem_map.mp hd
    rw [List.mem_singleton.mp hy, ← hx]
    exact ⟨List.mem_map.mpr ⟨p, hp, rfl⟩, List.mem_map.mpr ⟨p, hp, rfl⟩⟩
  obtain ⟨t, b, ht, inv, ex, dec, hres, _, hiff⟩ :=
    checkDependency_render (pairDecls pairs) hdecl hval hbound
  rw [inputLines_renderInput _ hdecl] at dec
  have hrel := declaredPairs_render (pairDecls pairs) hdecl
  refine ⟨t, ht, ?_, ?_⟩
  · intro p hp
    have hedge : DeclaredEdge (pairDecls pairs) p.1 p.2 :=
      ⟨(p.1, [p.2]), List.mem_map.mpr ⟨p, hp, rfl⟩, rfl, List.mem_singleton.mpr rfl⟩
    obtain ⟨_, _, _, _, _, _, j, _, hj⟩ :=
      dec.declared_recorded p.1 p.2 ((hrel p.1 p.2).mpr hedge)
    rw [List.getElem?_map] at hj
    cases hg : t[j]? with
    | none => rw [hg] at hj; simp at hj
    | some g =>
      rw [hg] at hj
      have hgname : g.fileName = p.2 := by simpa using hj
      have hgmem : g ∈ t := List.getElem?_mem hg
      refine ⟨g, hgmem, hgname, ?_⟩
      have hnn := ex.nonneg g hgmem
      by_contra hne0
      have hpos : ((0 : Nat) : Int) < g.numberOfDependencies := by
        simp only [Nat.cast_zero]
        omega
      obtain ⟨k, hk, hklt⟩ := inv.wf.deps_valid g hgmem 0 hpos
      have hklt2 : k < (t.map File.fileName).length := by simpa using hklt
      have hy : (t.map File.fileName)[k]? = some ((t.map File.fileName)[k]) :=
        List.getElem?_eq_getElem hklt2
      have hin := dec.recorded_declared j g hg 0 hpos k _ hk hy
      rw [hgname] at hin
      have hfst := (hsrc _ _ ((hrel _ _).mp hin)).1
      exact hdisj hfst (List.mem_map.mpr ⟨p, hp, rfl⟩)
  · have hb : b = false := by
      cases b with
      | false => rfl
      | true =>
        obtain ⟨X, hX⟩ := hiff.mp rfl
        obtain ⟨Y, hXY, _⟩ := Relation.TransGen.head'_iff.mp hX
        obtain ⟨Z, _, hZX⟩ := Relation.TransGen.tail'_iff.mp hX
        exact absurd (hsrc _ _ hZX).2 (fun h => hdisj (hsrc _ _ hXY).1 h)
    rw [hres, hb]

/-- Witness of C18 as amended: the input `A: B\nC: D\n`. -/
theorem undeclared_leaves_witness :
    renderInput (pairDecls [("A".toList, "B".toList), ("C".toList, "D".toList)]) =
        "A: B\nC: D\n".toList ∧
      ∃ t, buildTable
          (renderInput (pairDecls [("A".toList, "B".toList), ("C".toList, "D".toList)])) =
            .ok t ∧
        (∀ p ∈ [("A".toList, "B".toList), ("C".toList, "D".toList)],
          ∃ f ∈ t, f.fileName = p.2 ∧ f.numberOfDependencies = 0) ∧
        analyzeData t = .ok false :=
  ⟨by decide,
    undeclared_leaves [("A".toList, "B".toList), ("C".toList, "D".toList)] (by decide)
      (by decide) (by decide) (by decide)⟩

/-! ## MyLinkedList.c: insertFirst and removeData -/

theorem wrapInt_eq {x : Int} (h1 : -2147483648 ≤ x) (h2 : x ≤ 2147483647) :
    wrapInt x = x := by
  unfold wrapInt
  omega

theorem createNode_ok (heap : List Bool) (data : List Char) (h1 : (malloc heap).1 = true)
    (h2 : (malloc (malloc heap).2).1 = true) :
    createNode heap data = (some data, (malloc (malloc heap).2).2) := by
  unfold createNode
  cases hm : malloc heap with
  | mk b heap1 =>
    rw [hm] at h1 h2
    simp only at h1 h2
    subst h1
    cases hm2 : malloc heap1 with
    | mk b2 heap2 =>
      rw [hm2] at h2
      simp only at h2
      subst h2
      simp only [hm2]

/-- Counterexample of C19: when `malloc` returns `NULL` for the node or for its string,
`insertFirst` on a list and a string that are not `NULL` returns `false` and the list is as
before. -/
theorem insertFirst_allocation_fails :
    insertFirst [false] (some ⟨[], 0⟩) (some "a".toList) = (false, some ⟨[], 0⟩, []) ∧
      insertFirst [true, false] (some ⟨["b".toList], 1⟩) (some "a".toList) =
        (false, some ⟨["b".toList], 1⟩, []) := by
  decide

theorem createNode_fail (heap : List Bool) (data : List Char)
    (h : (malloc heap).1 = false ∨ (malloc (malloc heap).2).1 = false) :
    (createNode heap data).1 = none := by
  unfold createNode
  cases hm : malloc heap with
  | mk b heap1 =>
    rw [hm] at h
    simp only at h
    cases b with
    | false => rfl
    | true =>
      simp only [Bool.true_eq_false, false_or] at h
      cases hm2 : malloc heap1 with
      | mk b2 heap2 =>
        rw [hm2] at h
        simp only at h
        subst h
        simp only [hm2]

/-- C19 as amended: for every list and string that are not `NULL`, with a `size` that is
not negative and below `INT_MAX`: when the two allocations of `createNode` succeed,
`insertFirst` returns `true`, the chain of the list is `val` followed by the chain before
the call, and `getSize` is one more than before; when one of the two allocations fails,
`insertFirst` returns `false` and the list is as before the call. -/
theorem insertFirst_prepends (MYLIST_ERROR_CODE : Int) (heap : List Bool) (l : MyLinkedList)
    (val : List Char) (h0 : 0 ≤ l.size) (hmax : l.size < INT_MAX) :
    ((malloc heap).1 = true → (malloc (malloc heap).2).1 = true →
        ∃ l2 heap2, insertFirst heap (some l) (some val) = (true, some l2, heap2) ∧
          l2.head = val :: l.head ∧
          getSize MYLIST_ERROR_CODE (some l) = .ok l.size ∧
          getSize MYLIST_ERROR_CODE (some l2) = .ok (l.size + 1)) ∧
      (((malloc heap).1 = false ∨ (malloc (malloc heap).2).1 = false) →
        ∃ heap2, insertFirst heap (some l) (some val) = (false, some l, heap2) ∧
          getSize MYLIST_ERROR_CODE (some l) = .ok l.size) := by
  unfold INT_MAX at hmax
  have hw : wrapInt (l.size + 1) = l.size + 1 := wrapInt_eq (by omega) (by omega)
  have hsize : getSize MYLIST_ERROR_CODE (some l) = .ok l.size := by
    unfold getSize EMPTY_LIST_SIZE
    simp [h0]
  constructor
  · intro h1 h2
    refine ⟨⟨val :: l.head, l.size + 1⟩, (malloc (malloc heap).2).2, ?_, rfl, hsize, ?_⟩
    · unfold insertFirst
      simp only [createNode_ok heap val h1 h2, hw]
    · unfold getSize EMPTY_LIST_SIZE
      have : 0 ≤ l.size + 1 := by omega
      simp [this]
  · intro hfail
    have hnone := createNode_fail heap val hfail
    refine ⟨(createNode heap val).2, ?_, hsize⟩
    unfold insertFirst
    simp only
    cases hc : createNode heap val with
    | mk node heap1 =>
      rw [hc] at hnone
      simp only at hnone
      subst hnone
      rfl

/-- Witness of C19 as amended: `insertFirst` of `a` into the list `b -> a -> b`, with
allocations that succeed. -/
theorem insertFirst_prepends_witness :
    ((malloc []).1 = true → (malloc (malloc []).2).1 = true →
        ∃ l2 heap2, insertFirst [] (some listBAB) (some "a".toList) = (true, some l2, heap2) ∧
          l2.head = "a".toList :: listBAB.head ∧
          getSize (-1) (some listBAB) = .ok listBAB.size ∧
          getSize (-1) (some l2) = .ok (listBAB.size + 1)) ∧
      (((malloc []).1 = false ∨ (malloc (malloc []).2).1 = false) →
        ∃ heap2, insertFirst [] (some listBAB) (some "a".toList) =
            (false, some listBAB, heap2) ∧
          getSize (-1) (some listBAB) = .ok listBAB.size) :=
  insertFirst_prepends (-1) [] listBAB "a".toList (by decide) (by decide)

theorem isInListLoop_count (val : List Char) :
    ∀ (chain : List (List Char)) (occ : Int), 0 ≤ occ →
      occ + (chain.length : Int) ≤ INT_MAX →
      isInListLoop val chain occ = occ + (chain.count val : Int) := by
  intro chain
  induction chain with
  | nil => intro occ _ _; simp [isInListLoop]
  | cons data next ih =>
    intro occ h0 hmax
    unfold INT_MAX at hmax ih
    simp only [List.length_cons, Nat.cast_add, Nat.cast_one] at hmax
    rw [isInListLoop]
    by_cases hd : data = val
    · rw [if_pos hd, wrapInt_eq (by omega) (by omega), ih (occ + 1) (by omega) (by omega)]
      subst hd
      simp only [List.count_cons_self, Nat.cast_add, Nat.cast_one]
      omega
    · rw [if_neg hd, ih occ h0 (by omega), List.count_cons_of_ne (fun h => hd h.symm)]

theorem removeDataLoop_spec (val : List Char) :
    ∀ (current previous : List (List Char)) (size occ : Int),
      (current.length : Int) ≤ size → size ≤ INT_MAX → 0 ≤ occ →
      occ + (current.length : Int) ≤ INT_MAX →
      removeDataLoop val current.length previous current size occ =
        .ok (previous ++ current.filter (fun x => decide (x ≠ val)),
          size - (current.count val : Int), occ + (current.count val : Int)) := by
  intro current
  induction current with
  | nil => intro previous size occ _ _ _ _; simp [removeDataLoop]
  | cons data next ih =>
    intro previous size occ hlen hmax h0 hocc
    unfold INT_MAX at hmax hocc ih
    simp only [List.length_cons, Nat.cast_add, Nat.cast_one] at hlen hocc
    simp only [List.length_cons]
    rw [removeDataLoop]
    by_cases hd : data = val
    · rw [if_pos hd, wrapInt_eq (by omega) (by omega), wrapInt_eq (by omega) (by omega),
        ih previous (size - 1) (occ + 1) (by omega) (by omega) (by omega) (by omega)]
      subst hd
      simp only [List.count_cons_self, Nat.cast_add, Nat.cast_one, ne_eq, not_true_eq_false,
        decide_False, Bool.false_eq_true, not_false_eq_true, List.filter_cons_of_neg]
      congr 2
      · congr 1
        · omega
        · omega
    · rw [if_neg hd, ih (previous ++ [data]) size occ (by omega) (by omega) h0 (by omega),
        List.count_cons_of_ne (fun h => hd h.symm)]
      simp [hd]

/-- C20 (removeData removes all occurrences): for every list that satisfies the
representation invariant and every string, both not `NULL`, `removeData` ends without a
failed assert, the chain after the call is the chain before it without the nodes whose
data equals `val`, the others in their order, the returned number is the number of these
nodes, it is what `isInList` returns before the call, and `getSize` has gone down by this
number. -/
theorem removeData_removes_all (MYLIST_ERROR_CODE : Int) (l : MyLinkedList)
    (val : List Char) (hinv : SizeInv l) :
    removeData MYLIST_ERROR_CODE (some l) (some val) =
        .ok ((l.head.count val : Int),
          some ⟨l.head.filter (fun x => decide (x ≠ val)), l.size - (l.head.count val : Int)⟩) ∧
      isInList MYLIST_ERROR_CODE (some l) (some val) = (l.head.count val : Int) ∧
      getSize MYLIST_ERROR_CODE (some l) = .ok l.size ∧
      getSize MYLIST_ERROR_CODE
          (some ⟨l.head.filter (fun x => decide (x ≠ val)),
            l.size - (l.head.count val : Int)⟩) =
        .ok (l.size - (l.head.count val : Int)) := by
  obtain ⟨head, size⟩ := l
  obtain ⟨hsize, hmax⟩ := hinv
  simp only at hsize hmax
  subst hsize
  have hcount : (head.count val : Int) ≤ (head.length : Int) := by
    exact_mod_cast List.count_le_length val head
  refine ⟨?_, ?_, ?_, ?_⟩
  · unfold removeData EMPTY_LIST_SIZE NO_OCCURRENCES
    simp only [ge_iff_le, Int.natCast_nonneg, if_true, Int.toNat_ofNat]
    by_cases hne : head = []
    · subst hne
      simp
    · rw [if_pos hne,
        removeDataLoop_spec val head [] head.length 0 (Int.le_refl _) hmax (Int.le_refl _)
          (by omega)]
      simp
  · unfold isInList NO_OCCURRENCES
    simp only
    rw [isInListLoop_count val head 0 (Int.le_refl _) (by omega)]
    omega
  · unfold getSize EMPTY_LIST_SIZE
    simp
  · unfold getSize EMPTY_LIST_SIZE
    simp only [ge_iff_le]
    rw [if_pos (by omega)]

/-- Witness of C20: `removeData` of `b` on the list `b -> a -> b`. -/
theorem removeData_removes_all_witness :
    SizeInv listBAB ∧
      removeData (-1) (some listBAB) (some "b".toList) = .ok (2, some ⟨["a".toList], 1⟩) ∧
      isInList (-1) (some listBAB) (some "b".toList) = 2 ∧
      getSize (-1) (some listBAB) = .ok 3 ∧
      getSize (-1) (some ⟨["a".toList], 1⟩) = .ok 1 :=
  ⟨⟨rfl, by decide⟩, removeData_removes_all (-1) listBAB "b".toList ⟨rfl, by decide⟩⟩

/-! ## The size of the table and the sign of the counts -/

/-- C29, the code at the failing input: for the line `A: B, C` the counting pass counts the
token `B` only (the token ` C` starts with a space), `estimateFilesCount` returns 2, and
the builder stores the three files `A`, `B` and ` C`: in an array of three slots it ends
with three files, in the array of `main` the third file is written past the end. -/
theorem estimate_too_small :
    estimateFilesCount "A: B, C\n".toList = 2 ∧
      (processFile 3 "A: B, C\n".toList).map List.length = .ok 3 ∧
      buildTable "A: B, C\n".toList = .error .outOfBounds := by
  decide

/-- C30, the code at the failing input: on the line `A: B,B,-x,-x,-x` the counting pass
counts the two tokens `B`, and the storing pass decrements the count for each of the three
repeated tokens: the table is built with the count `-1` for `A`. With one `B` and one `-x`
more on the line the count is `-1` when the next repetition is met, and the assert of
`addNewDependency` fails; after the line `A: -x,-x` a second line for `A` fails the assert
of `processFile` on the count of an existing file. -/
theorem count_goes_negative :
    buildTable "A: B,B,-x,-x,-x\n".toList = .ok tableNegativeCount ∧
      tableNegativeCount.map File.numberOfDependencies = [-1, 0, 0] ∧
      buildTable "A: B,B,B,-x,-x,-x,-x\n".toList = .error .assertion ∧
      (processFile 2 "A: -x,-x\n".toList).map (fun t => t.map File.numberOfDependencies) =
        .ok [-1, 0] ∧
      processFile 2 "A: -x,-x\nA:\n".toList = .error .assertion := by
  decide

/-! ## MyLinkedList.c: counting, cloning, the size invariant, the error results -/

theorem malloc_all {heap : List Bool} (h : ∀ b ∈ heap, b = true) :
    (malloc heap).1 = true ∧ ∀ b ∈ (malloc heap).2, b = true := by
  cases heap with
  | nil => exact ⟨rfl, fun _ hb => absurd hb (List.not_mem_nil _)⟩
  | cons a rest =>
    exact ⟨h a (List.mem_cons_self _ _), fun b hb => h b (List.mem_cons_of_mem _ hb)⟩

theorem length_filter_ne (val : List Char) (chain : List (List Char)) :
    ((chain.filter (fun x => decide (x ≠ val))).length : Int) =
      (chain.length : Int) - (chain.count val : Int) := by
  induction chain with
  | nil => simp
  | cons data next ih =>
    by_cases hd : data = val
    · subst hd
      simp only [ne_eq, not_true_eq_false, decide_False, Bool.false_eq_true, not_false_eq_true,
        List.filter_cons_of_neg, List.length_cons, List.count_cons_self, Nat.cast_add,
        Nat.cast_one]
      simp only [ne_eq] at ih
      omega
    · rw [List.count_cons_of_ne (fun h => hd h.symm)]
      simp only [ne_eq, hd, not_false_eq_true, decide_True, List.filter_cons_of_pos,
        List.length_cons, Nat.cast_add, Nat.cast_one]
      simp only [ne_eq] at ih
      omega

theorem count_filter_ne (val : List Char) (chain : List (List Char)) :
    (chain.filter (fun x => decide (x ≠ val))).count val = 0 := by
  apply List.count_eq_zero_of_not_mem
  intro h
  have := (List.mem_filter.mp h).2
  simp at this

/-- What `removeData` does on a list that satisfies the representation invariant. -/
theorem removeData_spec (MYLIST_ERROR_CODE : Int) (l : MyLinkedList) (val : List Char)
    (hinv : SizeInv l) :
    removeData MYLIST_ERROR_CODE (some l) (some val) =
      .ok ((l.head.count val : Int),
        some ⟨l.head.filter (fun x => decide (x ≠ val)), l.size - (l.head.count val : Int)⟩) := by
  obtain ⟨head, size⟩ := l
  obtain ⟨hsize, hmax⟩ := hinv
  simp only at hsize hmax
  subst hsize
  have hcount : (head.count val : Int) ≤ (head.length : Int) := by
    exact_mod_cast List.count_le_length val head
  unfold removeData EMPTY_LIST_SIZE NO_OCCURRENCES
  simp only [ge_iff_le, Int.natCast_nonneg, if_true, Int.toNat_ofNat]
  by_cases hne : head = []
  · subst hne
    simp
  · rw [if_pos hne,
      removeDataLoop_spec val head [] head.length 0 (Int.le_refl _) hmax (Int.le_refl _)
        (by omega)]
    simp

theorem sizeInv_removed (l : MyLinkedList) (val : List Char) (hinv : SizeInv l) :
    SizeInv ⟨l.head.filter (fun x => decide (x ≠ val)), l.size - (l.head.count val : Int)⟩ := by
  obtain ⟨hsize, hmax⟩ := hinv
  have h1 := length_filter_ne val l.head
  unfold SizeInv
  simp only
  constructor
  · rw [h1, hsize]
  · have : (0 : Int) ≤ (l.head.count val : Int) := Int.natCast_nonneg _
    omega

theorem isInList_count (MYLIST_ERROR_CODE : Int) (l : MyLinkedList) (val : List Char)
    (hinv : SizeInv l) :
    isInList MYLIST_ERROR_CODE (some l) (some val) = (l.head.count val : Int) := by
  obtain ⟨hsize, hmax⟩ := hinv
  unfold isInList NO_OCCURRENCES
  simp only
  rw [isInListLoop_count val l.head 0 (Int.le_refl _) (by omega)]
  omega

theorem insertFirst_cases (heap : List Bool) (l : MyLinkedList) (val : List Char) :
    (∃ heap1, insertFirst heap (some l) (some val) =
        (true, some ⟨val :: l.head, wrapInt (l.size + 1)⟩, heap1)) ∨
      (∃ heap1, insertFirst heap (some l) (some val) = (false, some l, heap1)) := by
  unfold insertFirst
  simp only
  cases hc : createNode heap val with
  | mk node heap1 =>
    cases node with
    | none => exact Or.inr ⟨heap1, rfl⟩
    | some newHead =>
      have : newHead = val := by
        unfold createNode at hc
        cases hm : malloc heap with
        | mk b h1 =>
          rw [hm] at hc
          cases b with
          | false => simp at hc
          | true =>
            simp only at hc
            cases hm2 : malloc h1 with
            | mk b2 h2 =>
              rw [hm2] at hc
              cases b2 with
              | false => simp at hc
              | true =>
                simp only [Prod.mk.injEq, Option.some.injEq] at hc
                exact hc.1.symm
      subst this
      exact Or.inl ⟨heap1, rfl⟩

theorem sizeInv_inserted (l : MyLinkedList) (val : List Char) (hinv : SizeInv l)
    (hmax : l.size < INT_MAX) : wrapInt (l.size + 1) = l.size + 1 ∧
      SizeInv ⟨val :: l.head, wrapInt (l.size + 1)⟩ := by
  obtain ⟨hsize, _⟩ := hinv
  unfold INT_MAX at hmax
  have hw : wrapInt (l.size + 1) = l.size + 1 := wrapInt_eq (by omega) (by omega)
  refine ⟨hw, ?_⟩
  unfold SizeInv INT_MAX
  simp only [List.length_cons, Nat.cast_add, Nat.cast_one]
  omega

/-- Counterexample of C21: when `malloc` returns `NULL`, the list is the same after
`insertFirst(l, v)` and `isInList(l, v)` returns what it returned before, not one more. -/
theorem isInList_after_failed_insert :
    insertFirst [false] (some listBAB) (some "a".toList) = (false, some listBAB, []) ∧
      isInList (-1) (some listBAB) (some "a".toList) = 1 ∧
      isInList (-1) (insertFirst [false] (some listBAB) (some "a".toList)).2.1
        (some "a".toList) = 1 := by
  decide

/-- C21 as amended: for every list that satisfies the representation invariant and has
fewer than `INT_MAX` elements and every string, both not `NULL`, `isInList` returns the
number of nodes whose data equals `val`; after `removeData` of `val` it returns 0; after
`insertFirst` of `val` it returns one more than before when `insertFirst` returned `true`,
and the same as before when `insertFirst` returned `false`. -/
theorem isInList_counts (MYLIST_ERROR_CODE : Int) (heap : List Bool) (l : MyLinkedList)
    (val : List Char) (hinv : SizeInv l) (hmax : l.size < INT_MAX) :
    isInList MYLIST_ERROR_CODE (some l) (some val) = (l.head.count val : Int) ∧
      (∃ n l2, removeData MYLIST_ERROR_CODE (some l) (some val) = .ok (n, some l2) ∧
        isInList MYLIST_ERROR_CODE (some l2) (some val) = 0) ∧
      (∀ b l2 heap2, insertFirst heap (some l) (some val) = (b, l2, heap2) →
        isInList MYLIST_ERROR_CODE l2 (some val) =
          isInList MYLIST_ERROR_CODE (some l) (some val) + (if b = true then 1 else 0)) := by
  refine ⟨isInList_count _ l val hinv, ⟨_, _, removeData_spec _ l val hinv, ?_⟩, ?_⟩
  · rw [isInList_count _ _ val (sizeInv_removed l val hinv)]
    simp only [count_filter_ne, Nat.cast_zero]
  · intro b l2 heap2 h
    rcases insertFirst_cases heap l val with ⟨heap1, h1⟩ | ⟨heap1, h1⟩
    · rw [h1] at h
      simp only [Prod.mk.injEq] at h
      obtain ⟨hb, hl2, _⟩ := h
      obtain ⟨hw, hinv2⟩ := sizeInv_inserted l val hinv hmax
      rw [← hb, ← hl2, isInList_count _ _ val hinv2, isInList_count _ l val hinv]
      simp
    · rw [h1] at h
      simp only [Prod.mk.injEq] at h
      obtain ⟨hb, hl2, _⟩ := h
      rw [← hb, ← hl2]
      simp

/-- Witness of C21 as amended: the list `b -> a -> b` and the string `b`. -/
theorem isInList_counts_witness :
    SizeInv listBAB ∧ listBAB.size < INT_MAX ∧
      isInList (-1) (some listBAB) (some "b".toList) = 2 ∧
      (∃ n l2, removeData (-1) (some listBAB) (some "b".toList) = .ok (n, some l2) ∧
        isInList (-1) (some l2) (some "b".toList) = 0) ∧
      (∀ b l2 heap2, insertFirst [] (some listBAB) (some "b".toList) = (b, l2, heap2) →
        isInList (-1) l2 (some "b".toList) =
          isInList (-1) (some listBAB) (some "b".toList) + (if b = true then 1 else 0)) :=
  ⟨⟨rfl, by decide⟩, by decide,
    isInList_counts (-1) [] listBAB "b".toList ⟨rfl, by decide⟩ (by decide)⟩

/-- When every allocation succeeds, `cloneListHelper` puts the whole chain in front of the
list, in its order. -/
theorem cloneListHelper_ok :
    ∀ (chain : List (List Char)) (heap : List Bool) (l0 : MyLinkedList),
      (∀ b ∈ heap, b = true) → 0 ≤ l0.size →
      l0.size + (chain.length : Int) ≤ INT_MAX →
      ∃ heap2, cloneListHelper heap (some l0) chain =
          (true, some ⟨chain ++ l0.head, l0.size + (chain.length : Int)⟩, heap2) ∧
        ∀ b ∈ heap2, b = true := by
  intro chain
  induction chain with
  | nil =>
    intro heap l0 hheap _ _
    exact ⟨heap, by simp [cloneListHelper], hheap⟩
  | cons data next ih =>
    intro heap l0 hheap h0 hmax
    unfold INT_MAX at hmax ih
    simp only [List.length_cons, Nat.cast_add, Nat.cast_one] at hmax
    obtain ⟨heap1, h1, hheap1⟩ := ih heap l0 hheap h0 (by omega)
    have hm1 := malloc_all hheap1
    have hm2 := malloc_all hm1.2
    refine ⟨(malloc (malloc heap1).2).2, ?_, hm2.2⟩
    rw [cloneListHelper, h1]
    simp only
    unfold insertFirst
    simp only [createNode_ok heap1 data hm1.1 hm2.1]
    rw [wrapInt_eq (by omega) (by omega)]
    simp only [List.cons_append, List.length_cons, Nat.cast_add, Nat.cast_one, Prod.mk.injEq,
      Option.some.injEq, MyLinkedList.mk.injEq, true_and, and_true]
    omega

/-- C22 (cloneList copies faithfully): for every list that satisfies the representation
invariant, when every allocation succeeds, `cloneList` ends without a failed assert and
returns a list with the same chain of data, in the same order, and the same `size`, so
`getSize` gives the same on both; `cloneList(NULL)` returns `NULL`. -/
theorem cloneList_copies (MYLIST_ERROR_CODE : Int) (heap : List Bool) (l : MyLinkedList)
    (hheap : ∀ b ∈ heap, b = true) (hinv : SizeInv l) :
    (∃ clone heap2, cloneList heap (some l) = .ok (some clone, heap2) ∧
        clone.head = l.head ∧ clone.size = l.size ∧
        getSize MYLIST_ERROR_CODE (some clone) = getSize MYLIST_ERROR_CODE (some l)) ∧
      cloneList heap none = .ok (none, heap) := by
  obtain ⟨hsize, hmax⟩ := hinv
  refine ⟨?_, rfl⟩
  have hm := malloc_all hheap
  obtain ⟨heap2, h2, _⟩ :=
    cloneListHelper_ok l.head (malloc heap).2 ⟨[], EMPTY_LIST_SIZE⟩ hm.2 (Int.le_refl _)
      (by simp only [EMPTY_LIST_SIZE]; omega)
  refine ⟨⟨l.head, l.size⟩, heap2, ?_, rfl, rfl, rfl⟩
  unfold cloneList createList
  cases hmal : malloc heap with
  | mk b heap1 =>
    rw [hmal] at hm h2
    simp only at hm h2
    rw [hm.1]
    simp only [h2]
    simp only [EMPTY_LIST_SIZE, List.append_nil, zero_add, hsize]

/-- Witness of C22: the clone of the list `b -> a -> b`. -/
theorem cloneList_copies_witness :
    (∃ clone heap2, cloneList [] (some listBAB) = .ok (some clone, heap2) ∧
        clone.head = listBAB.head ∧ clone.size = listBAB.size ∧
        getSize (-1) (some clone) = getSize (-1) (some listBAB)) ∧
      cloneList [] none = .ok (none, []) :=
  cloneList_copies (-1) [] listBAB (by decide) ⟨rfl, by decide⟩

/-- Whatever the allocations do, `cloneListHelper` leaves a list whose `size` is the number
of its nodes. -/
theorem cloneListHelper_inv :
    ∀ (chain : List (List Char)) (heap : List Bool) (l0 : MyLinkedList),
      l0.size = (l0.head.length : Int) → l0.size + (chain.length : Int) ≤ INT_MAX →
      ∃ b l1 heap1, cloneListHelper heap (some l0) chain = (b, some l1, heap1) ∧
        l1.size = (l1.head.length : Int) ∧ l1.size ≤ l0.size + (chain.length : Int) := by
  intro chain
  induction chain with
  | nil =>
    intro heap l0 hsize _
    exact ⟨true, l0, heap, rfl, hsize, by simp⟩
  | cons data next ih =>
    intro heap l0 hsize hmax
    unfold INT_MAX at hmax ih
    simp only [List.length_cons, Nat.cast_add, Nat.cast_one] at hmax
    obtain ⟨b1, l1, heap1, h1, hs1, hle1⟩ := ih heap l0 hsize (by omega)
    rw [cloneListHelper, h1]
    simp only
    have h0 : (0 : Int) ≤ l1.size := by rw [hs1]; exact Int.natCast_nonneg _
    rcases insertFirst_cases heap1 l1 data with ⟨heap2, h2⟩ | ⟨heap2, h2⟩
    · refine ⟨true, _, heap2, h2, ?_, ?_⟩
      · rw [wrapInt_eq (by omega) (by omega)]
        simp only [List.length_cons, Nat.cast_add, Nat.cast_one]
        omega
      · rw [wrapInt_eq (by omega) (by omega)]
        simp only [List.length_cons, Nat.cast_add, Nat.cast_one]
        omega
    · refine ⟨false, l1, heap2, h2, hs1, ?_⟩
      simp only [List.length_cons, Nat.cast_add, Nat.cast_one]
      omega

/-- C23 (size invariant): for every list obtained from `createList` by calls of
`insertFirst`, `removeData` and `cloneList`, the field `size` is the number of nodes
reachable from `head` and `getSize` returns this number; a fresh list has no node and
`size` 0. -/
theorem size_invariant (MYLIST_ERROR_CODE : Int) (l : MyLinkedList)
    (h : Obtained MYLIST_ERROR_CODE l) :
    l.size = (l.head.length : Int) ∧
      getSize MYLIST_ERROR_CODE (some l) = .ok (l.head.length : Int) ∧
      ∀ heap l0 heap1, createList heap = (some l0, heap1) → l0.head = [] ∧ l0.size = 0 := by
  have hfresh : ∀ heap l0 heap1, createList heap = (some l0, heap1) →
      l0.head = [] ∧ l0.size = 0 := by
    intro heap l0 heap1 hc
    unfold createList at hc
    cases hm : malloc heap with
    | mk b heap2 =>
      rw [hm] at hc
      cases b with
      | false => simp at hc
      | true =>
        simp only [Prod.mk.injEq, Option.some.injEq] at hc
        rw [← hc.1]
        exact ⟨rfl, rfl⟩
  have hinv : SizeInv l := by
    induction h with
    | create heap l heap1 hc =>
      obtain ⟨hh, hs⟩ := hfresh heap l heap1 hc
      unfold SizeInv INT_MAX
      rw [hh, hs]
      simp
    | insert heap l val b l2 heap1 _ hmax hins ih =>
      cases val with
      | none =>
        simp only [insertFirst, Prod.mk.injEq, Option.some.injEq] at hins
        rw [← hins.2.1]
        exact ih
      | some v =>
        rcases insertFirst_cases heap l v with ⟨heap2, h2⟩ | ⟨heap2, h2⟩
        · rw [h2] at hins
          simp only [Prod.mk.injEq, Option.some.injEq] at hins
          rw [← hins.2.1]
          exact (sizeInv_inserted l v ih hmax).2
        · rw [h2] at hins
          simp only [Prod.mk.injEq, Option.some.injEq] at hins
          rw [← hins.2.1]
          exact ih
    | remove l val n l2 _ hrem ih =>
      cases val with
      | none =>
        simp only [removeData, Except.ok.injEq, Prod.mk.injEq, Option.some.injEq] at hrem
        rw [← hrem.2]
        exact ih
      | some v =>
        rw [removeData_spec _ l v ih] at hrem
        simp only [Except.ok.injEq, Prod.mk.injEq, Option.some.injEq] at hrem
        rw [← hrem.2]
        exact sizeInv_removed l v ih
    | clone heap l l2 heap1 _ hcl ih =>
      obtain ⟨hsize, hmax⟩ := ih
      unfold cloneList createList at hcl
      cases hm : malloc heap with
      | mk b heap2 =>
        rw [hm] at hcl
        cases b with
        | false => simp at hcl
        | true =>
          simp only at hcl
          obtain ⟨b1, l1, heap3, h1, hs1, hle1⟩ :=
            cloneListHelper_inv l.head heap2 ⟨[], EMPTY_LIST_SIZE⟩ rfl
              (by simp only [EMPTY_LIST_SIZE]; omega)
          rw [h1] at hcl
          cases b1 with
          | true =>
            simp only [Except.ok.injEq, Prod.mk.injEq, Option.some.injEq] at hcl
            rw [← hcl.1]
            refine ⟨hs1, ?_⟩
            simp only [EMPTY_LIST_SIZE] at hle1
            omega
          | false =>
            simp only at hcl
            cases hf : freeList (some l1) with
            | error e => rw [hf] at hcl; simp at hcl
            | ok u => rw [hf] at hcl; simp at hcl
  obtain ⟨hsize, _⟩ := hinv
  refine ⟨hsize, ?_, hfresh⟩
  have h0 : l.size ≥ 0 := by rw [hsize]; exact Int.natCast_nonneg _
  unfold getSize EMPTY_LIST_SIZE
  simp only
  rw [if_pos h0, hsize]

/-- Witness of C23: the list obtained by `createList`, `insertFirst` of `a`,
`insertFirst` of `b` and `removeData` of `a`. -/
theorem size_invariant_witness :
    Obtained (-1) ⟨["b".toList], 1⟩ ∧
      (⟨["b".toList], 1⟩ : MyLinkedList).size = 1 ∧
      getSize (-1) (some ⟨["b".toList], 1⟩) = .ok 1 :=
  have h : Obtained (-1) ⟨["b".toList], 1⟩ :=
    Obtained.remove ⟨["b".toList, "a".toList], 2⟩ (some "a".toList) 1 _
      (Obtained.insert [] ⟨["a".toList], 1⟩ (some "b".toList) true _ []
        (Obtained.insert [] ⟨[], 0⟩ (some "a".toList) true _ []
          (Obtained.create [] _ [] rfl) (by decide) (by decide))
        (by decide) (by decide))
      (by decide)
  ⟨h, (size_invariant (-1) _ h).1, (size_invariant (-1) _ h).2.1⟩

/-- C24 (error results), for a negative `MYLIST_ERROR_CODE`: `getSize(NULL)` returns
`MYLIST_ERROR_CODE`; on lists that satisfy the representation invariant `isInList` and
`removeData` return `MYLIST_ERROR_CODE` exactly when the list or the string is `NULL`;
`insertFirst` returns `false` when the list or the string is `NULL`; in these cases the
list is as before. -/
theorem error_results (MYLIST_ERROR_CODE : Int) (hcode : MYLIST_ERROR_CODE < 0) :
    getSize MYLIST_ERROR_CODE none = .ok MYLIST_ERROR_CODE ∧
      (∀ l val, (∀ x, l = some x → SizeInv x) →
        (isInList MYLIST_ERROR_CODE l val = MYLIST_ERROR_CODE ↔ (l = none ∨ val = none))) ∧
      (∀ l val, (∀ x, l = some x → SizeInv x) →
        ((∃ l2, removeData MYLIST_ERROR_CODE l val = .ok (MYLIST_ERROR_CODE, l2)) ↔
          (l = none ∨ val = none))) ∧
      (∀ l val, (l = none ∨ val = none) →
        removeData MYLIST_ERROR_CODE l val = .ok (MYLIST_ERROR_CODE, l)) ∧
      (∀ heap l val, (l = none ∨ val = none) →
        insertFirst heap l val = (false, l, heap)) := by
  have hrem : ∀ l val, (l = none ∨ val = none) →
      removeData MYLIST_ERROR_CODE l val = .ok (MYLIST_ERROR_CODE, l) := by
    intro l val h
    cases l with
    | none => rfl
    | some x =>
      cases val with
      | none => rfl
      | some v => simp at h
  refine ⟨rfl, ?_, ?_, hrem, ?_⟩
  · intro l val hinv
    cases l with
    | none => simp [isInList]
    | some x =>
      cases val with
      | none => simp [isInList]
      | some v =>
        rw [isInList_count _ x v (hinv x rfl)]
        have : (0 : Int) ≤ (x.head.count v : Int) := Int.natCast_nonneg _
        simp only [reduceCtorEq, or_self, iff_false]
        omega
  · intro l val hinv
    constructor
    · rintro ⟨l2, h⟩
      cases l with
      | none => exact Or.inl rfl
      | some x =>
        cases val with
        | none => exact Or.inr rfl
        | some v =>
          rw [removeData_spec _ x v (hinv x rfl)] at h
          simp only [Except.ok.injEq, Prod.mk.injEq] at h
          have : (0 : Int) ≤ (x.head.count v : Int) := Int.natCast_nonneg _
          omega
    · intro h
      exact ⟨l, hrem l val h⟩
  · intro heap l val h
    cases l with
    | none => rfl
    | some x =>
      cases val with
      | none => rfl
      | some v => simp at h

/-- Witness of C24: the error code `-1`. -/
theorem error_results_witness :
    getSize (-1) none = .ok (-1) ∧
      (∀ l val, (∀ x, l = some x → SizeInv x) →
        (isInList (-1) l val = -1 ↔ (l = none ∨ val = none))) ∧
      (∀ l val, (∀ x, l = some x → SizeInv x) →
        ((∃ l2, removeData (-1) l val = .ok (-1, l2)) ↔ (l = none ∨ val = none))) ∧
      (∀ l val, (l = none ∨ val = none) → removeData (-1) l val = .ok (-1, l)) ∧
      (∀ heap l val, (l = none ∨ val = none) → insertFirst heap l val = (false, l, heap)) :=
  error_results (-1) (by decide)

/-! ## The log of the search -/

theorem filled_rep {arr : List (Option File)} {idx : Int} {l : List File}
    (h : Rep arr idx l) : filled arr idx = l := by
  obtain ⟨hidx, hlen, hget⟩ := h
  have hn : (idx + 1).toNat = l.length := by omega
  have htake : arr.take l.length = l.map some := by
    apply List.ext_getElem?
    intro j
    rw [List.getElem?_take, List.getElem?_map]
    by_cases hj : j < l.length
    · rw [if_pos hj, hget j hj, List.getElem?_eq_getElem hj]
      rfl
    · rw [if_neg hj, List.getElem?_eq_none (by omega)]
      rfl
  unfold filled
  rw [hn, htake, List.filterMap_map]
  exact List.filterMap_some l

theorem pushedVisited_append (log : List Event) (e : Event) :
    pushedVisited (log ++ [e]) =
      pushedVisited log ++ (if e.kind = .pushVisited then [e.file] else []) := by
  unfold pushedVisited
  rw [List.filter_append, List.map_append]
  by_cases h : e.kind = .pushVisited
  · simp [h]
  · simp [h]

theorem pushedCurrent_append (log : List Event) (e : Event) :
    pushedCurrent (log ++ [e]) =
      pushedCurrent log ++ (if e.kind = .pushCurrent then [e.file] else []) := by
  unfold pushedCurrent
  rw [List.filter_append, List.map_append]
  by_cases h : e.kind = .pushCurrent
  · simp [h]
  · simp [h]

theorem callsPreceded_append {log : List Event} (h : CallsPreceded log) {e : Event}
    (he : e.kind ≠ .enterDependency) : CallsPreceded (log ++ [e]) := by
  intro i x hx hk
  by_cases hi : i < log.length
  · rw [List.getElem?_append_left hi] at hx
    obtain ⟨j, p, hij, hp, hpk, hpf, hpv⟩ := h i x hx hk
    refine ⟨j, p, hij, ?_, hpk, hpf, hpv⟩
    rw [List.getElem?_append_left (by omega)]
    exact hp
  · rw [List.getElem?_append_right (by omega)] at hx
    have : x = e := by
      cases hsub : i - log.length with
      | zero => rw [hsub] at hx; simpa using hx.symm
      | succ n => rw [hsub] at hx; simp at hx
    rw [this] at hk
    exact absurd hk he

theorem callsPreceded_call {log : List Event} (h : CallsPreceded log) {p e : Event}
    (hp : p.kind = .pushCurrent) (hf : p.file = e.file) (hv : p.visited = e.visited) :
    CallsPreceded (log ++ [p, e]) := by
  intro i x hx hk
  by_cases hi : i < log.length
  · rw [List.getElem?_append_left hi] at hx
    obtain ⟨j, q, hij, hq, hqk, hqf, hqv⟩ := h i x hx hk
    refine ⟨j, q, hij, ?_, hqk, hqf, hqv⟩
    rw [List.getElem?_append_left (by omega)]
    exact hq
  · rw [List.getElem?_append_right (by omega)] at hx
    cases hsub : i - log.length with
    | zero =>
      rw [hsub] at hx
      have : x = p := by simpa using hx.symm
      rw [this, hp] at hk
      exact absurd hk (by decide)
    | succ n =>
      rw [hsub] at hx
      cases n with
      | zero =>
        have hxe : x = e := by simpa using hx.symm
        refine ⟨log.length, p, by omega, ?_, hp, ?_, ?_⟩
        · rw [List.getElem?_append_right (Nat.le_refl _)]
          simp
        · rw [hxe]; exact hf
        · rw [hxe]; exact hv
      | succ m => simp at hx

/-- The log with one more event that is not a recursive call. -/
theorem logGood_append {t : List File} {log : List Event} (g : LogGood t log) {e : Event}
    (he : EventGood t e) (hk : e.kind ≠ .enterDependency)
    (hv : e.kind = .pushVisited → e.file ∉ pushedVisited log)
    (hc : e.kind = .pushCurrent → e.file ∉ pushedCurrent log) : LogGood t (log ++ [e]) := by
  refine ⟨?_, ?_, ?_, callsPreceded_append g.preceded hk⟩
  · intro x hx
    rcases List.mem_append.mp hx with h | h
    · exact g.events x h
    · rw [List.mem_singleton.mp h]; exact he
  · rw [pushedVisited_append]
    by_cases h : e.kind = .pushVisited
    · rw [if_pos h]
      refine List.Nodup.append g.visitedOnce (List.nodup_singleton _) ?_
      intro x hx hx'
      rw [List.mem_singleton.mp hx'] at hx
      exact hv h hx
    · rw [if_neg h, List.append_nil]; exact g.visitedOnce
  · rw [pushedCurrent_append]
    by_cases h : e.kind = .pushCurrent
    · rw [if_pos h]
      refine List.Nodup.append g.currentOnce (List.nodup_singleton _) ?_
      intro x hx hx'
      rw [List.mem_singleton.mp hx'] at hx
      exact hc h hx
    · rw [if_neg h, List.append_nil]; exact g.currentOnce

/-- The log with the write of a file to `currentDependencies` and the recursive call on
it. -/
theorem logGood_call {t : List File} {log : List Event} (g : LogGood t log) {p e : Event}
    (hp : EventGood t p) (he : EventGood t e) (hpk : p.kind = .pushCurrent)
    (hek : e.kind = .enterDependency) (hf : p.file = e.file) (hv : p.visited = e.visited)
    (hc : p.file ∉ pushedCurrent log) : LogGood t (log ++ [p, e]) := by
  have hsplit : log ++ [p, e] = (log ++ [p]) ++ [e] := by simp
  refine ⟨?_, ?_, ?_, callsPreceded_call g.preceded hpk hf hv⟩
  · intro x hx
    rcases List.mem_append.mp hx with h | h
    · exact g.events x h
    · rcases List.mem_cons.mp h with h1 | h1
      · rw [h1]; exact hp
      · rw [List.mem_singleton.mp h1]; exact he
  · rw [hsplit, pushedVisited_append, pushedVisited_append, hpk, hek]
    simpa using g.visitedOnce
  · rw [hsplit, pushedCurrent_append, pushedCurrent_append, hpk, hek]
    simp only [if_true, reduceCtorEq, if_false, List.append_nil]
    refine List.Nodup.append g.currentOnce (List.nodup_singleton _) ?_
    intro x hx hx'
    rw [List.mem_singleton.mp hx'] at hx
    exact hc hx

theorem eventGood_of_abs {t : List File} {st : DfsState} {vis cur : List File}
    (ha : Abs t st vis cur) (gv : GoodV t vis) (gc : GoodC t cur) {f : File} (hf : f ∈ t)
    (kind : EventKind)
    (hpc : kind = .pushCurrent → f ∉ vis ∧ f ∉ cur ∧ cur.length < t.length)
    (hed : kind = .enterDependency → f ∉ vis)
    (hpv : kind = .pushVisited → f ∉ vis ∧ vis.length < t.length)
    (hrf : kind = .returnFalse → f ∈ vis) : EventGood t (eventOf kind f st) := by
  have h1 : (eventOf kind f st).visited = vis := filled_rep ha.vrep
  have h2 : (eventOf kind f st).current = cur := filled_rep ha.crep
  refine ⟨hf, ?_, ?_, ?_, ?_, ?_, ?_, ?_, ?_⟩
  · rw [h1]; exact gv
  · rw [h2]; exact gc
  · rw [h1]; exact ha.vrep.1
  · rw [h2]; exact ha.crep.1
  · rw [h1, h2]; exact hpc
  · rw [h1]; exact hed
  · rw [h1]; exact hpv
  · rw [h1]; exact hrf

theorem append_pair (log : List Event) (p e : Event) : log ++ [p, e] = log ++ [p] ++ [e] := by
  simp

theorem logLink_append {log : List Event} {vis cur : List File} (ll : LogLink log vis cur)
    (e : Event) {vis1 cur1 : List File} (hv : ∀ x, x ∈ vis → x ∈ vis1)
    (hc : ∀ x, x ∈ cur → x ∈ cur1 ∨ x ∈ vis1)
    (hpv : e.kind = .pushVisited → e.file ∈ vis1)
    (hpc : e.kind = .pushCurrent → e.file ∈ cur1 ∨ e.file ∈ vis1) :
    LogLink (log ++ [e]) vis1 cur1 := by
  constructor
  · intro x hx
    rw [pushedVisited_append] at hx
    rcases List.mem_append.mp hx with h | h
    · exact hv x (ll.visited x h)
    · by_cases hk : e.kind = .pushVisited
      · rw [if_pos hk] at h
        rw [List.mem_singleton.mp h]
        exact hpv hk
      · rw [if_neg hk] at h
        exact absurd h (List.not_mem_nil _)
  · intro x hx
    rw [pushedCurrent_append] at hx
    rcases List.mem_append.mp hx with h | h
    · rcases ll.current x h with h1 | h1
      · exact hc x h1
      · exact Or.inr (hv x h1)
    · by_cases hk : e.kind = .pushCurrent
      · rw [if_pos hk] at h
        rw [List.mem_singleton.mp h]
        exact hpc hk
      · rw [if_neg hk] at h
        exact absurd h (List.not_mem_nil _)

theorem logGood_event {t : List File} {log : List Event} (g : LogGood t log)
    {k : EventKind} {f : File} {st : DfsState} (he : EventGood t (eventOf k f st))
    (hk : k ≠ .enterDependency) (hv : k = .pushVisited → f ∉ pushedVisited log)
    (hc : k = .pushCurrent → f ∉ pushedCurrent log) :
    LogGood t (log ++ [eventOf k f st]) :=
  logGood_append g he hk hv hc

theorem logLink_event {log : List Event} {vis cur : List File} (ll : LogLink log vis cur)
    {k : EventKind} {f : File} {st : DfsState} {vis1 cur1 : List File}
    (hv : ∀ x, x ∈ vis → x ∈ vis1) (hc : ∀ x, x ∈ cur → x ∈ cur1 ∨ x ∈ vis1)
    (hpv : k = .pushVisited → f ∈ vis1) (hpc : k = .pushCurrent → f ∈ cur1 ∨ f ∈ vis1) :
    LogLink (log ++ [eventOf k f st]) vis1 cur1 :=
  logLink_append ll _ hv hc hpv hpc

/-- The invariants of the search and of its log are kept by the loop of `dfsTrace`. -/
theorem dfsLoopTrace_spec {t : List File} (wf : WellFormed t)
    (r : File → DfsState → List Event → Except Fault (Bool × DfsState × List Event))
    (k : Nat) (hr : TraceSpec t r k) (f : File) (hf : f ∈ t) :
    ∀ (rem i : Nat) (st : DfsState) (log : List Event) (vis cur : List File),
      i + rem = f.numberOfDependencies.toNat →
      Abs t st vis cur → GoodV t vis → GoodC t cur →
      t.length < cur.length + (k + 1) →
      (∀ i1, i1 < i → ∀ (j : Nat) (g : File), f.fileDependencies[i1]? = some (j : Int) →
        t[j]? = some g → g ∈ vis) →
      LogGood t log → LogLink log vis cur →
      TraceLoopPost t f vis cur (dfsLoopTrace r t f rem i st log) := by
  intro rem
  induction rem with
  | zero =>
    intro i st log vis cur hi ha gv gc _ hdone lg ll
    refine ⟨false, st, log, rfl, lg, vis, cur, ha, gv, gc, fun _ h => h, Nat.le_refl _, ll,
      fun _ => ⟨?_, fun _ h => Or.inl h⟩⟩
    rintro g ⟨i1, hi1, j, hd, hj⟩
    have : i1 < i := by omega
    exact hdone i1 this j g hd hj
  | succ rem ih =>
    intro i st log vis cur hi ha gv gc hfuel hdone lg ll
    have hilt : (i : Int) < f.numberOfDependencies := by omega
    obtain ⟨j, hd, hjlt⟩ := wf.deps_valid f hf i hilt
    have hj : t[j]? = some t[j] := List.getElem?_eq_getElem hjlt
    have hg : t[j] ∈ t := List.getElem_mem hjlt
    have hstep : ∀ (st1 : DfsState) (log1 : List Event) (vis1 cur1 : List File),
        Abs t st1 vis1 cur1 → GoodV t vis1 → GoodC t cur1 →
        (∀ x, x ∈ vis → x ∈ vis1) → cur.length ≤ cur1.length →
        (∀ x, x ∈ cur1 → x ∈ cur ∨ x ∈ vis1) → t[j] ∈ vis1 →
        LogGood t log1 → LogLink log1 vis1 cur1 →
        TraceLoopPost t f vis cur (dfsLoopTrace r t f rem (i + 1) st1 log1) := by
      intro st1 log1 vis1 cur1 ha1 gv1 gc1 hvv hcc hnew hgv1 lg1 ll1
      have hdone1 : ∀ i1, i1 < i + 1 → ∀ (j1 : Nat) (g : File),
          f.fileDependencies[i1]? = some (j1 : Int) → t[j1]? = some g → g ∈ vis1 := by
        intro i1 hi1 j1 g hd1 hj1
        by_cases hlt : i1 < i
        · exact hvv g (hdone i1 hlt j1 g hd1 hj1)
        · have hieq : i1 = i := by omega
          subst hieq
          rw [hd] at hd1
          have hjj : j = j1 := by
            have := Option.some.inj hd1
            exact Int.ofNat.inj this
          subst hjj
          rw [hj] at hj1
          rw [← Option.some.inj hj1]
          exact hgv1
      obtain ⟨b, st2, log2, hres, lg2, vis2, cur2, ha2, gv2, gc2, hvv2, hcc2, ll2, hfalse⟩ :=
        ih (i + 1) st1 log1 vis1 cur1 (by omega) ha1 gv1 gc1 (by omega) hdone1 lg1 ll1
      refine ⟨b, st2, log2, hres, lg2, vis2, cur2, ha2, gv2, gc2,
        fun x hx => hvv2 x (hvv x hx), Nat.le_trans hcc hcc2, ll2, ?_⟩
      intro hb
      obtain ⟨hdeps2, hnew2⟩ := hfalse hb
      refine ⟨hdeps2, ?_⟩
      intro x hx
      rcases hnew2 x hx with h | h
      · rcases hnew x h with h3 | h3
        · exact Or.inl h3
        · exact Or.inr (hvv2 x h3)
      · exact Or.inr h
    have hnn : ¬ ((j : Int) < 0) := by omega
    rw [dfsLoopTrace]
    simp only [hd, hnn, if_false, Int.toNat_ofNat, hj]
    rw [contains_visited wf ha gv hg]
    by_cases hgv : t[j] ∈ vis
    · simp only [hgv, decide_True]
      exact hstep st log vis cur ha gv gc (fun _ h => h) (Nat.le_refl _)
        (fun _ h => Or.inl h) hgv lg ll
    · simp only [hgv, decide_False]
      rw [contains_current wf ha gc hg]
      by_cases hgc : t[j] ∈ cur
      · simp only [hgc, decide_True]
        exact ⟨true, st, log, rfl, lg, vis, cur, ha, gv, gc, fun _ h => h, Nat.le_refl _, ll,
          by simp⟩
      · simp only [hgc, decide_False]
        have hlt : cur.length < t.length := length_lt_of_not_mem gc.nodup gc.sub hg hgc
        have hlen : cur.length < st.currentDependencies.length := by
          rw [ha.clen]; exact hlt
        obtain ⟨hpush, hrep⟩ := pushSlot_rep _ _ _ t[j] ha.crep hlen
        rw [hpush]
        simp only
        have ha1 : Abs t { st with
            currentDependencies := st.currentDependencies.set cur.length (some t[j]),
            currentIndex := st.currentIndex + 1 } vis (cur ++ [t[j]]) :=
          ⟨ha.vrep, hrep, ha.vlen, by simp [ha.clen]⟩
        have gc1 := goodC_push gc hg hgc
        have hp : EventGood t (eventOf .pushCurrent t[j] st) :=
          eventGood_of_abs ha gv gc hg .pushCurrent (fun _ => ⟨hgv, hgc, hlt⟩)
            (fun h => absurd h (by decide)) (fun h => absurd h (by decide))
            (fun h => absurd h (by decide))
        have he : EventGood t (eventOf .enterDependency t[j] { st with
            currentDependencies := st.currentDependencies.set cur.length (some t[j]),
            currentIndex := st.currentIndex + 1 }) :=
          eventGood_of_abs ha1 gv gc1 hg .enterDependency (fun h => absurd h (by decide))
            (fun _ => hgv) (fun h => absurd h (by decide)) (fun h => absurd h (by decide))
        have hnot : t[j] ∉ pushedCurrent log := by
          intro hx
          rcases ll.current _ hx with h | h
          · exact hgc h
          · exact hgv h
        have lg1 := logGood_call lg hp he rfl rfl rfl rfl hnot
        have ll1 : LogLink (log ++ [eventOf .pushCurrent t[j] st,
            eventOf .enterDependency t[j] { st with
              currentDependencies := st.currentDependencies.set cur.length (some t[j]),
              currentIndex := st.currentIndex + 1 }]) vis (cur ++ [t[j]]) := by
          rw [append_pair]
          refine logLink_event (logLink_event ll (fun _ h => h)
            (fun x h => Or.inl (List.mem_append_left _ h))
            (fun h => absurd h (by decide))
            (fun _ => Or.inl (List.mem_append_right _ (List.mem_singleton.mpr rfl))))
            (fun _ h => h) (fun x h => Or.inl h) (fun h => absurd h (by decide))
            (fun h => absurd h (by decide))
        obtain ⟨b, st1, log1, hres, lg2, vis1, cur1, ha2, gv1, gc2, hvv, hcc, ll2, hfalse⟩ :=
          hr t[j] _ _ vis (cur ++ [t[j]]) hg ha1 gv gc1 (by simp; omega) lg1 ll1
        rw [hres]
        have hcc1 : cur.length ≤ cur1.length := by
          simp only [List.length_append, List.length_singleton] at hcc
          omega
        cases b with
        | true =>
          exact ⟨true, st1, log1, rfl, lg2, vis1, cur1, ha2, gv1, gc2, hvv, hcc1, ll2,
            by simp⟩
        | false =>
          obtain ⟨hgv1, hnew⟩ := hfalse rfl
          simp only
          refine hstep st1 log1 vis1 cur1 ha2 gv1 gc2 hvv hcc1 ?_ hgv1 lg2 ll2
          intro x hx
          rcases hnew x hx with h | h
          · rcases List.mem_append.mp h with h3 | h3
            · exact Or.inl h3
            · rw [List.mem_singleton.mp h3]; exact Or.inr hgv1
          · exact Or.inr h

/-- The invariants of the search and of its log are kept by every call of `dfsTrace`; the
call returns a result when the fuel covers the files not yet in `currentDependencies`. -/
theorem dfsTrace_spec {t : List File} (wf : WellFormed t) :
    ∀ k, TraceSpec t (dfsTrace k t) k := by
  intro k
  induction k with
  | zero =>
    intro f st log vis cur _ _ _ gc hfuel _ _
    have := length_le_of_nodup_sub gc.nodup gc.sub
    omega
  | succ k ih =>
    intro f st log vis cur hf ha gv gc hfuel lg ll
    obtain ⟨b, st1, log1, hres, lg1, vis1, cur1, ha1, gv1, gc1, hvv, hcc, ll1, hfalse⟩ :=
      dfsLoopTrace_spec wf (dfsTrace k t) k ih f hf
        f.numberOfDependencies.toNat 0 st log vis cur
        (by omega) ha gv gc hfuel (fun i1 h => absurd h (Nat.not_lt_zero i1)) lg ll
    rw [dfsTrace, hres]
    cases b with
    | true =>
      simp only
      have he : EventGood t (eventOf .returnTrue f st1) :=
        eventGood_of_abs ha1 gv1 gc1 hf .returnTrue (fun h => absurd h (by decide))
          (fun h => absurd h (by decide)) (fun h => absurd h (by decide))
          (fun h => absurd h (by decide))
      exact ⟨true, st1, _, rfl,
        logGood_event lg1 he (by decide) (fun h => absurd h (by decide))
          (fun h => absurd h (by decide)),
        vis1, cur1, ha1, gv1, gc1, hvv, hcc,
        logLink_event ll1 (fun _ h => h) (fun _ h => Or.inl h)
          (fun h => absurd h (by decide)) (fun h => absurd h (by decide)),
        by simp⟩
    | false =>
      obtain ⟨hdeps, hnew⟩ := hfalse rfl
      simp only
      unfold dfsFinishTrace
      rw [contains_visited wf ha1 gv1 hf]
      by_cases hfv : f ∈ vis1
      · simp only [hfv, decide_True]
        have he : EventGood t (eventOf .returnFalse f st1) :=
          eventGood_of_abs ha1 gv1 gc1 hf .returnFalse (fun h => absurd h (by decide))
            (fun h => absurd h (by decide)) (fun h => absurd h (by decide)) (fun _ => hfv)
        exact ⟨false, st1, _, rfl,
          logGood_event lg1 he (by decide) (fun h => absurd h (by decide))
            (fun h => absurd h (by decide)),
          vis1, cur1, ha1, gv1, gc1, hvv, hcc,
          logLink_event ll1 (fun _ h => h) (fun _ h => Or.inl h)
            (fun h => absurd h (by decide)) (fun h => absurd h (by decide)),
          fun _ => ⟨hfv, hnew⟩⟩
      · simp only [hfv, decide_False]
        have hlt : vis1.length < t.length := length_lt_of_not_mem gv1.nodup gv1.sub hf hfv
        have hlen : vis1.length < st1.visited.length := by
          rw [ha1.vlen]; exact hlt
        obtain ⟨hpush, hrep⟩ := pushSlot_rep _ _ _ f ha1.vrep hlen
        rw [hpush]
        have ha2 : Abs t { st1 with
            visited := st1.visited.set vis1.length (some f),
            visitedIndex := st1.visitedIndex + 1 } (vis1 ++ [f]) cur1 :=
          ⟨hrep, ha1.crep, by simp [ha1.vlen], ha1.clen⟩
        have gv2 := goodV_push gv1 hf hfv hdeps
        have hpv : EventGood t (eventOf .pushVisited f st1) :=
          eventGood_of_abs ha1 gv1 gc1 hf .pushVisited (fun h => absurd h (by decide))
            (fun h => absurd h (by decide)) (fun _ => ⟨hfv, hlt⟩)
            (fun h => absurd h (by decide))
        have hrf : EventGood t (eventOf .returnFalse f { st1 with
            visited := st1.visited.set vis1.length (some f),
            visitedIndex := st1.visitedIndex + 1 }) :=
          eventGood_of_abs ha2 gv2 gc1 hf .returnFalse (fun h => absurd h (by decide))
            (fun h => absurd h (by decide)) (fun h => absurd h (by decide))
            (fun _ => List.mem_append_right _ (List.mem_singleton.mpr rfl))
        have hnot : f ∉ pushedVisited log1 := fun hx => hfv (ll1.visited f hx)
        refine ⟨false, _, _, rfl, ?_, vis1 ++ [f], cur1, ha2, gv2, gc1,
          fun x hx => List.mem_append_left _ (hvv x hx), hcc, ?_, fun _ => ⟨?_, ?_⟩⟩
        · rw [append_pair]
          exact logGood_event
            (logGood_event lg1 hpv (by decide) (fun _ => hnot) (fun h => absurd h (by decide)))
            hrf (by decide) (fun h => absurd h (by decide)) (fun h => absurd h (by decide))
        · rw [append_pair]
          exact logLink_event
            (logLink_event ll1 (fun x h => List.mem_append_left _ h)
              (fun _ h => Or.inl h)
              (fun _ => List.mem_append_right _ (List.mem_singleton.mpr rfl))
              (fun h => absurd h (by decide)))
            (fun _ h => h) (fun _ h => Or.inl h) (fun h => absurd h (by decide))
            (fun h => absurd h (by decide))
        · exact List.mem_append_right _ (List.mem_singleton.mpr rfl)
        · intro x hx
          rcases hnew x hx with h | h
          · exact Or.inl h
          · exact Or.inr (List.mem_append_left _ h)

/-- The log of the loop of `analyzeData` satisfies its invariant, whatever the result. -/
theorem analyzeLoopTrace_spec {t : List File} (wf : WellFormed t) :
    ∀ (roots : List File) (visited : List (Option File)) (vi : Int) (log : List Event)
      (vis : List File),
      (∀ x, x ∈ roots → x ∈ t) → Rep visited vi vis → visited.length = t.length →
      GoodV t vis → LogGood t log → LogLink log vis [] →
      ∃ b vi1 log1, analyzeLoopTrace (t.length + 1) t roots visited vi log =
          .ok (b, vi1, log1) ∧ LogGood t log1 := by
  intro roots
  induction roots with
  | nil =>
    intro visited vi log vis _ _ _ _ lg _
    exact ⟨false, vi, log, rfl, lg⟩
  | cons f roots ih =>
    intro visited vi log vis hsub hrep hlen gv lg ll
    have hf : f ∈ t := hsub f (List.mem_cons_self _ _)
    have ha : Abs t (DfsState.mk (List.replicate t.length none) (START_INDEX - 1) visited vi)
        vis [] :=
      ⟨hrep, rep_empty _, hlen, by simp⟩
    have he : EventGood t (eventOf .enterRoot f
        (DfsState.mk (List.replicate t.length none) (START_INDEX - 1) visited vi)) :=
      eventGood_of_abs ha gv (goodC_nil t) hf .enterRoot (fun h => absurd h (by decide))
        (fun h => absurd h (by decide)) (fun h => absurd h (by decide))
        (fun h => absurd h (by decide))
    have lg0 := logGood_event lg he (by decide) (fun h => absurd h (by decide))
      (fun h => absurd h (by decide))
    have ll0 : LogLink (log ++ [eventOf .enterRoot f
        (DfsState.mk (List.replicate t.length none) (START_INDEX - 1) visited vi)]) vis [] :=
      logLink_event ll (fun _ h => h) (fun _ h => Or.inl h) (fun h => absurd h (by decide))
        (fun h => absurd h (by decide))
    obtain ⟨b, st1, log1, hres, lg1, vis1, cur1, ha1, gv1, _, _, _, ll1, hfalse⟩ :=
      dfsTrace_spec wf (t.length + 1) f _ _ vis [] hf ha gv (goodC_nil t) (by simp) lg0 ll0
    rw [analyzeLoopTrace, hres]
    cases b with
    | true => exact ⟨true, st1.visitedIndex, log1, rfl, lg1⟩
    | false =>
      obtain ⟨_, hnew⟩ := hfalse rfl
      simp only
      have ll2 : LogLink log1 vis1 [] := by
        refine ⟨ll1.visited, ?_⟩
        intro x hx
        rcases ll1.current x hx with h | h
        · rcases hnew x h with h2 | h2
          · exact absurd h2 (List.not_mem_nil _)
          · exact Or.inr h2
        · exact Or.inr h
      exact ih st1.visited st1.visitedIndex log1 vis1
        (fun x hx => hsub x (List.mem_cons_of_mem _ hx)) ha1.vrep ha1.vlen gv1 lg1 ll2

theorem logGood_nil (t : List File) : LogGood t [] :=
  ⟨fun _ h => absurd h (List.not_mem_nil _), List.nodup_nil, List.nodup_nil,
    fun i e h _ => by simp at h⟩

theorem logLink_nil : LogLink [] [] [] :=
  ⟨fun _ h => absurd h (List.not_mem_nil _), fun _ h => absurd h (List.not_mem_nil _)⟩

/-! ## The log does not change the result -/

theorem dfsLoopTrace_erase
    (rt : File → DfsState → List Event → Except Fault (Bool × DfsState × List Event))
    (r : File → DfsState → Except Fault (Bool × DfsState))
    (hr : ∀ f st log b st1 log1, rt f st log = .ok (b, st1, log1) → r f st = .ok (b, st1))
    (t : List File) (f : File) :
    ∀ (rem i : Nat) (st : DfsState) (log : List Event) (b : Bool) (st1 : DfsState)
      (log1 : List Event),
      dfsLoopTrace rt t f rem i st log = .ok (b, st1, log1) →
      dfsLoop r t f rem i st = .ok (b, st1) := by
  intro rem
  induction rem with
  | zero =>
    intro i st log b st1 log1 h
    simp only [dfsLoopTrace, Except.ok.injEq, Prod.mk.injEq] at h
    simp [dfsLoop, h.1, h.2.1]
  | succ rem ih =>
    intro i st log b st1 log1 h
    rw [dfsLoopTrace] at h
    rw [dfsLoop]
    cases hd : f.fileDependencies[i]? with
    | none => simp [hd] at h
    | some idx =>
      simp only [hd] at h ⊢
      by_cases hneg : idx < 0
      · simp [hneg] at h
      · simp only [hneg, if_false] at h ⊢
        cases hg : t[idx.toNat]? with
        | none => simp [hg] at h
        | some g =>
          simp only [hg] at h ⊢
          cases hv : dfsContains g.fileName st.visited st.visitedIndex with
          | error e => simp [hv] at h
          | ok bv =>
            cases bv with
            | true =>
              simp only [hv] at h ⊢
              exact ih _ _ _ _ _ _ h
            | false =>
              simp only [hv] at h ⊢
              cases hc : dfsContains g.fileName st.currentDependencies st.currentIndex with
              | error e => simp [hc] at h
              | ok bc =>
                cases bc with
                | true =>
                  simp only [hc, Except.ok.injEq, Prod.mk.injEq] at h ⊢
                  exact ⟨h.1, h.2.1⟩
                | false =>
                  simp only [hc] at h ⊢
                  cases hp : pushSlot st.currentDependencies st.currentIndex g with
                  | error e => simp [hp] at h
                  | ok pr =>
                    obtain ⟨cur, ci⟩ := pr
                    simp only [hp] at h ⊢
                    cases hrec : rt g
                        { st with currentDependencies := cur, currentIndex := ci }
                        (log ++ [eventOf .pushCurrent g st,
                          eventOf .enterDependency g
                            { st with currentDependencies := cur, currentIndex := ci }]) with
                    | error e => simp [hrec] at h
                    | ok res =>
                      obtain ⟨b2, st2, log2⟩ := res
                      rw [hr _ _ _ _ _ _ hrec]
                      simp only [hrec] at h
                      cases b2 with
                      | true =>
                        simp only [Except.ok.injEq, Prod.mk.injEq] at h ⊢
                        exact ⟨h.1, h.2.1⟩
                      | false => exact ih _ _ _ _ _ _ h

theorem dfsFinishTrace_erase (f : File) (st : DfsState) (log : List Event) (b : Bool)
    (st1 : DfsState) (log1 : List Event)
    (h : dfsFinishTrace f st log = .ok (b, st1, log1)) : dfsFinish f st = .ok (b, st1) := by
  unfold dfsFinishTrace at h
  unfold dfsFinish
  cases hv : dfsContains f.fileName st.visited st.visitedIndex with
  | error e => simp [hv] at h
  | ok bv =>
    cases bv with
    | true =>
      simp only [hv, Except.ok.injEq, Prod.mk.injEq] at h ⊢
      exact ⟨h.1, h.2.1⟩
    | false =>
      simp only [hv] at h ⊢
      cases hp : pushSlot st.visited st.visitedIndex f with
      | error e => simp [hp] at h
      | ok pr =>
        obtain ⟨vis, vi⟩ := pr
        simp only [hp, Except.ok.injEq, Prod.mk.injEq] at h ⊢
        exact ⟨h.1, h.2.1⟩

theorem dfsTrace_erase (t : List File) :
    ∀ (k : Nat) (f : File) (st : DfsState) (log : List Event) (b : Bool) (st1 : DfsState)
      (log1 : List Event),
      dfsTrace k t f st log = .ok (b, st1, log1) → dfs k t f st = .ok (b, st1) := by
  intro k
  induction k with
  | zero => intro f st log b st1 log1 h; simp [dfsTrace] at h
  | succ k ih =>
    intro f st log b st1 log1 h
    rw [dfsTrace] at h
    rw [dfs]
    cases hl : dfsLoopTrace (dfsTrace k t) t f f.numberOfDependencies.toNat 0 st log with
    | error e => simp [hl] at h
    | ok res =>
      obtain ⟨b2, st2, log2⟩ := res
      rw [dfsLoopTrace_erase _ _ ih t f _ _ _ _ _ _ _ hl]
      simp only [hl] at h
      cases b2 with
      | true =>
        simp only [Except.ok.injEq, Prod.mk.injEq] at h ⊢
        exact ⟨h.1, h.2.1⟩
      | false => exact dfsFinishTrace_erase _ _ _ _ _ _ h

theorem analyzeLoopTrace_erase (k : Nat) (t : List File) :
    ∀ (roots : List File) (visited : List (Option File)) (vi : Int) (log : List Event)
      (b : Bool) (vi1 : Int) (log1 : List Event),
      analyzeLoopTrace k t roots visited vi log = .ok (b, vi1, log1) →
      analyzeLoop k t roots visited vi = .ok (b, vi1) := by
  intro roots
  induction roots with
  | nil =>
    intro visited vi log b vi1 log1 h
    simp only [analyzeLoopTrace, Except.ok.injEq, Prod.mk.injEq] at h
    simp [analyzeLoop, h.1, h.2.1]
  | cons f roots ih =>
    intro visited vi log b vi1 log1 h
    rw [analyzeLoopTrace] at h
    rw [analyzeLoop]
    cases hd : dfsTrace k t f
        { currentDependencies := List.replicate t.length none,
          currentIndex := START_INDEX - 1, visited := visited, visitedIndex := vi }
        (log ++ [eventOf .enterRoot f
          { currentDependencies := List.replicate t.length none,
            currentIndex := START_INDEX - 1, visited := visited, visitedIndex := vi }]) with
    | error e => simp [hd] at h
    | ok res =>
      obtain ⟨b2, st2, log2⟩ := res
      rw [dfsTrace_erase _ _ _ _ _ _ _ _ hd]
      simp only [hd] at h
      cases b2 with
      | true =>
        simp only [Except.ok.injEq, Prod.mk.injEq] at h ⊢
        exact ⟨h.1, h.2.1⟩
      | false => exact ih _ _ _ _ _ _ h

/-- On a well-formed table the run with the log returns a result and a log that satisfies
the invariant, and `analyzeData` returns the same result. -/
theorem analyzeDataTrace_spec {t : List File} (wf : WellFormed t) :
    ∃ b log, analyzeDataTrace t = .ok (b, log) ∧ analyzeData t = .ok b ∧ LogGood t log := by
  obtain ⟨b, vi, log, hres, lg⟩ :=
    analyzeLoopTrace_spec wf t (List.replicate t.length none) (START_INDEX - 1) [] []
      (fun _ h => h) (rep_empty _) (by simp) (goodV_nil t) (logGood_nil t) logLink_nil
  refine ⟨b, log, ?_, ?_, lg⟩
  · unfold analyzeDataTrace
    rw [hres]
  · unfold analyzeData analyzeDataFrom
    rw [analyzeLoopTrace_erase _ _ _ _ _ _ _ _ _ hres]

/-! ## More fuel gives the same result -/

theorem dfsLoop_mono (r1 r2 : File → DfsState → Except Fault (Bool × DfsState))
    (hr : ∀ f st x, r1 f st = .ok x → r2 f st = .ok x) (t : List File) (f : File) :
    ∀ (rem i : Nat) (st : DfsState) (x : Bool × DfsState),
      dfsLoop r1 t f rem i st = .ok x → dfsLoop r2 t f rem i st = .ok x := by
  intro rem
  induction rem with
  | zero => intro i st x h; simpa [dfsLoop] using h
  | succ rem ih =>
    intro i st x h
    rw [dfsLoop] at h ⊢
    cases hd : f.fileDependencies[i]? with
    | none => simp [hd] at h
    | some idx =>
      simp only [hd] at h ⊢
      by_cases hneg : idx < 0
      · simp [hneg] at h
      · simp only [hneg, if_false] at h ⊢
        cases hg : t[idx.toNat]? with
        | none => simp [hg] at h
        | some g =>
          simp only [hg] at h ⊢
          cases hv : dfsContains g.fileName st.visited st.visitedIndex with
          | error e => simp [hv] at h
          | ok bv =>
            cases bv with
            | true =>
              simp only [hv] at h ⊢
              exact ih _ _ _ h
            | false =>
              simp only [hv] at h ⊢
              cases hc : dfsContains g.fileName st.currentDependencies st.currentIndex with
              | error e => simp [hc] at h
              | ok bc =>
                cases bc with
                | true =>
                  simp only [hc] at h ⊢
                  exact h
                | false =>
                  simp only [hc] at h ⊢
                  cases hp : pushSlot st.currentDependencies st.currentIndex g with
                  | error e => simp [hp] at h
                  | ok pr =>
                    obtain ⟨cur, ci⟩ := pr
                    simp only [hp] at h ⊢
                    cases hrec : r1 g
                        { st with currentDependencies := cur, currentIndex := ci } with
                    | error e => simp [hrec] at h
                    | ok res =>
                      obtain ⟨b, st1⟩ := res
                      rw [hr _ _ _ hrec]
                      simp only [hrec] at h
                      cases b with
                      | true => exact h
                      | false => exact ih _ _ _ h

theorem dfs_mono (t : List File) :
    ∀ (k : Nat) (f : File) (st : DfsState) (x : Bool × DfsState),
      dfs k t f st = .ok x → dfs (k + 1) t f st = .ok x := by
  intro k
  induction k with
  | zero => intro f st x h; simp [dfs] at h
  | succ k ih =>
    intro f st x h
    rw [dfs] at h ⊢
    cases hl : dfsLoop (dfs k t) t f f.numberOfDependencies.toNat 0 st with
    | error e => simp [hl] at h
    | ok res =>
      rw [dfsLoop_mono _ _ ih t f _ _ _ _ hl]
      rw [hl] at h
      exact h

theorem dfs_mono_le (t : List File) (k : Nat) :
    ∀ (k2 : Nat), k ≤ k2 → ∀ (f : File) (st : DfsState) (x : Bool × DfsState),
      dfs k t f st = .ok x → dfs k2 t f st = .ok x := by
  intro k2 hle
  induction hle with
  | refl => intro f st x h; exact h
  | step _ ih => intro f st x h; exact dfs_mono t _ f st x (ih f st x h)

theorem analyzeLoop_mono (t : List File) (k k2 : Nat) (hle : k ≤ k2) :
    ∀ (roots : List File) (visited : List (Option File)) (vi : Int) (x : Bool × Int),
      analyzeLoop k t roots visited vi = .ok x → analyzeLoop k2 t roots visited vi = .ok x := by
  intro roots
  induction roots with
  | nil => intro visited vi x h; simpa [analyzeLoop] using h
  | cons f roots ih =>
    intro visited vi x h
    rw [analyzeLoop] at h ⊢
    cases hd : dfs k t f
        { currentDependencies := List.replicate t.length none,
          currentIndex := START_INDEX - 1, visited := visited, visitedIndex := vi } with
    | error e => simp [hd] at h
    | ok res =>
      obtain ⟨b, st1⟩ := res
      rw [dfs_mono_le t k k2 hle _ _ _ hd]
      simp only [hd] at h
      cases b with
      | true => exact h
      | false => exact ih _ _ _ h

/-! ## Termination, the invariant of `visited`, and the steps of the files -/

/-- C25 (termination): on every well-formed table `analyzeData` returns a result: the fuel
`N + 1`, the bound of the depth of the recursion, is enough, and with any greater fuel the
result is the same; in the log of the run every recursive call of `dfs` comes right after
the write to `currentDependencies` of its file, which at the write is in neither `visited`
nor `currentDependencies`. -/
theorem analyzeData_terminates (t : List File) (wf : WellFormed t) :
    ∃ b log, analyzeData t = .ok b ∧
      (∀ fuel, t.length + 1 ≤ fuel →
        ∃ vi, analyzeDataFrom fuel (START_INDEX - 1) t = .ok (b, vi)) ∧
      analyzeDataTrace t = .ok (b, log) ∧
      ∀ (i : Nat) (e : Event), log[i]? = some e → e.kind = .enterDependency →
        ∃ (j : Nat) (p : Event), i = j + 1 ∧ log[j]? = some p ∧ p.kind = .pushCurrent ∧
          p.file = e.file ∧ p.file ∉ p.visited ∧ p.file ∉ p.current := by
  obtain ⟨b, log, htrace, hres, lg⟩ := analyzeDataTrace_spec wf
  refine ⟨b, log, hres, ?_, htrace, ?_⟩
  · intro fuel hfuel
    unfold analyzeData at hres
    cases h0 : analyzeDataFrom (t.length + 1) (START_INDEX - 1) t with
    | error e => rw [h0] at hres; simp at hres
    | ok x =>
      obtain ⟨b0, vi⟩ := x
      rw [h0] at hres
      simp only [Except.ok.injEq] at hres
      subst hres
      exact ⟨vi, analyzeLoop_mono t _ _ hfuel _ _ _ _ h0⟩
  · intro i e he hk
    obtain ⟨j, p, hij, hp, hpk, hpf, _⟩ := lg.preceded i e he hk
    have hgood := lg.events p (List.getElem?_mem hp)
    exact ⟨j, p, hij, hp, hpk, hpf, (hgood.pushC hpk).1, (hgood.pushC hpk).2.1⟩

/-- Witness of C25: the table of `A: B\nD: C\nC: D\n`. -/
theorem analyzeData_terminates_witness :
    WellFormed tableForwardCycle ∧
      ∃ b log, analyzeData tableForwardCycle = .ok b ∧
        (∀ fuel, tableForwardCycle.length + 1 ≤ fuel →
          ∃ vi, analyzeDataFrom fuel (START_INDEX - 1) tableForwardCycle = .ok (b, vi)) ∧
        analyzeDataTrace tableForwardCycle = .ok (b, log) ∧
        ∀ (i : Nat) (e : Event), log[i]? = some e → e.kind = .enterDependency →
          ∃ (j : Nat) (p : Event), i = j + 1 ∧ log[j]? = some p ∧ p.kind = .pushCurrent ∧
            p.file = e.file ∧ p.file ∉ p.visited ∧ p.file ∉ p.current :=
  ⟨wellFormed_forwardCycle, analyzeData_terminates tableForwardCycle wellFormed_forwardCycle⟩

/-- C26 (`visited` is closed and free of cycles): on every well-formed table, at every
step of the run of `analyzeData`, every file in `visited` has all of its dependencies in
`visited`, no file that is reachable from a file in `visited` lies on a cycle, and a call
of `dfs` that returns `false` leaves its file in `visited`. -/
theorem visited_closed_acyclic (t : List File) (wf : WellFormed t) :
    ∃ b log, analyzeData t = .ok b ∧ analyzeDataTrace t = .ok (b, log) ∧
      ∀ e ∈ log,
        (∀ v ∈ e.visited, ∀ g, EdgeF t v g → g ∈ e.visited) ∧
        (∀ v ∈ e.visited, ∀ w, Relation.ReflTransGen (EdgeF t) v w →
          ¬ Relation.TransGen (EdgeF t) w w) ∧
        (e.kind = .returnFalse → e.file ∈ e.visited) := by
  obtain ⟨b, log, htrace, hres, lg⟩ := analyzeDataTrace_spec wf
  refine ⟨b, log, hres, htrace, ?_⟩
  intro e he
  have hgood := lg.events e he
  refine ⟨hgood.goodV.closed, ?_, hgood.retF⟩
  intro v hv w hw
  exact hgood.goodV.acyc w (closed_reach hgood.goodV.closed hv hw)

/-- Witness of C26: the table of `A: B\nC: D\n`. -/
theorem visited_closed_acyclic_witness :
    WellFormed tableTwoChains ∧
      ∃ b log, analyzeData tableTwoChains = .ok b ∧
        analyzeDataTrace tableTwoChains = .ok (b, log) ∧
        ∀ e ∈ log,
          (∀ v ∈ e.visited, ∀ g, EdgeF tableTwoChains v g → g ∈ e.visited) ∧
          (∀ v ∈ e.visited, ∀ w, Relation.ReflTransGen (EdgeF tableTwoChains) v w →
            ¬ Relation.TransGen (EdgeF tableTwoChains) w w) ∧
          (e.kind = .returnFalse → e.file ∈ e.visited) :=
  ⟨wellFormed_twoChains, visited_closed_acyclic tableTwoChains wellFormed_twoChains⟩

/-- C27 (each file advances at most once): in the log of the run of `analyzeData` on a
well-formed table, no file is written to `visited` twice and no file is written to a
`currentDependencies` array twice, over all roots; every write to `visited` and to
`currentDependencies` goes to an index from 0 to `N - 1`. -/
theorem files_advance_once (t : List File) (wf : WellFormed t) :
    ∃ b log, analyzeData t = .ok b ∧ analyzeDataTrace t = .ok (b, log) ∧
      (pushedVisited log).Nodup ∧ (pushedCurrent log).Nodup ∧
      ∀ e ∈ log,
        (e.kind = .pushVisited →
          0 ≤ e.visitedIndex + 1 ∧ e.visitedIndex + 1 < (t.length : Int)) ∧
        (e.kind = .pushCurrent →
          0 ≤ e.currentIndex + 1 ∧ e.currentIndex + 1 < (t.length : Int)) := by
  obtain ⟨b, log, htrace, hres, lg⟩ := analyzeDataTrace_spec wf
  refine ⟨b, log, hres, htrace, lg.visitedOnce, lg.currentOnce, ?_⟩
  intro e he
  have hgood := lg.events e he
  constructor
  · intro hk
    have h1 := (hgood.pushV hk).2
    have h2 := hgood.vindex
    omega
  · intro hk
    have h1 := (hgood.pushC hk).2.2
    have h2 := hgood.cindex
    omega

/-- Witness of C27: the table of `A: B\nD: C\nC: D\n`. -/
theorem files_advance_once_witness :
    WellFormed tableForwardCycle ∧
      ∃ b log, analyzeData tableForwardCycle = .ok b ∧
        analyzeDataTrace tableForwardCycle = .ok (b, log) ∧
        (pushedVisited log).Nodup ∧ (pushedCurrent log).Nodup ∧
        ∀ e ∈ log,
          (e.kind = .pushVisited →
            0 ≤ e.visitedIndex + 1 ∧ e.visitedIndex + 1 < (tableForwardCycle.length : Int)) ∧
          (e.kind = .pushCurrent →
            0 ≤ e.currentIndex + 1 ∧ e.currentIndex + 1 < (tableForwardCycle.length : Int)) :=
  ⟨wellFormed_forwardCycle, files_advance_once tableForwardCycle wellFormed_forwardCycle⟩

/-- C32, the code at the failing input: the list `a -> b` is cloned while `malloc` succeeds
for the new list, fails for the node of `b` and succeeds from then on. `cloneListHelper`
drops the `false` of `insertFirst` for `b` and returns the `true` of `insertFirst` for `a`,
and `cloneList` returns the list `a` with `size` 1, a partial copy. When it is the node of
`a` that cannot be allocated, `cloneList` returns `NULL`. -/
theorem cloneList_partial_copy :
    SizeInv listAB ∧
      cloneListHelper [false, true, true] (some ⟨[], 0⟩) listAB.head =
        (true, some ⟨["a".toList], 1⟩, []) ∧
      cloneList [true, false, true, true] (some listAB) =
        .ok (some ⟨["a".toList], 1⟩, []) ∧
      cloneList [true, true, true, false] (some listAB) = .ok (none, []) :=
  ⟨⟨rfl, by decide⟩, by decide, by decide, by decide⟩

/-! ## The counting pass and the storing pass on lines `name:d1,...,dk` -/

/-- The body of the outer loop with the index returns the table that `processLine`
returns. -/
theorem processLineIndex_fst (c : Nat) (t : List File) (line : List Char) :
    (processLineIndex c t line).map (fun r => r.1) = processLine c t line := by
  unfold processLineIndex processLine
  simp only
  cases hs : strtok FILE_NAME_DELIMITER line with
  | mk tok rest =>
    cases tok with
    | none => rfl
    | some X =>
      simp only
      by_cases hf : containsFile X t = FILE_NOT_FOUND
      · simp only [hf, if_true]
        cases ha : addNewFile c X t (countDependencies line : Nat) with
        | error e => rfl
        | ok y =>
          obtain ⟨t1, ci⟩ := y
          simp only
          cases hp : processDependencies c ci (dependencyTokens rest) t1 0 with
          | error e => rfl
          | ok z => rfl
      · simp only [hf, if_false]
        cases hg : t[(containsFile X t).toNat]? with
        | none => rfl
        | some cf =>
          simp only
          by_cases hn : cf.numberOfDependencies < NO_DEPENDENCIES
          · simp only [hn, if_true]; rfl
          · simp only [hn, if_false]
            cases hp : processDependencies c (containsFile X t).toNat (dependencyTokens rest)
                (t.set (containsFile X t).toNat
                  (updateExistingFile cf (countDependencies line : Nat)))
                cf.numberOfDependencies.toNat with
            | error e => rfl
            | ok z => rfl

theorem processLine_of_index {c : Nat} {t t2 : List File} {line : List Char} {ci index : Nat}
    (h : processLineIndex c t line = .ok (t2, ci, index)) : processLine c t line = .ok t2 := by
  rw [← processLineIndex_fst, h]
  rfl

theorem lineNames_renderLine (d : List Char × List (List Char)) (hd : IsDeclaration d) :
    lineNames (renderLine d.1 d.2) = d.1 :: d.2 := by
  unfold lineNames
  rw [strtok_renderLine d.1 d.2 hd.1]
  simp only
  rw [dependencyTokens_join d.2 hd.2.1]

theorem mem_allNames_render :
    ∀ (decls : List (List Char × List (List Char))), (∀ d ∈ decls, IsDeclaration d) →
      ∀ x, x ∈ allNames (decls.map (fun d => renderLine d.1 d.2)) ↔
        ∃ d ∈ decls, x = d.1 ∨ x ∈ d.2 := by
  intro decls
  induction decls with
  | nil => intro _ x; simp [allNames]
  | cons d decls ih =>
    intro hall x
    have hd := hall d (List.mem_cons_self _ _)
    have ih' := ih (fun e he => hall e (List.mem_cons_of_mem _ he)) x
    simp only [List.map_cons, allNames, List.mem_append]
    rw [lineNames_renderLine d hd, ih']
    constructor
    · rintro (h | ⟨e, he, h⟩)
      · exact ⟨d, List.mem_cons_self _ _, List.mem_cons.mp h⟩
      · exact ⟨e, List.mem_cons_of_mem _ he, h⟩
    · rintro ⟨e, he, h⟩
      rcases List.mem_cons.mp he with rfl | he'
      · exact Or.inl (List.mem_cons.mpr h)
      · exact Or.inr ⟨e, he', h⟩

/-- C7 as amended: for every input whose lines have the form `X: d1,d2,...,dk` (one comma
without whitespace between the dependencies, names free of delimiter characters, dependency
names that start with a letter or a digit, lines within the buffer, at most
`MAX_NUMBER_OF_DEPENDENCIES` distinct dependencies per file), the table of `main` is built
without a fault; the tokens of every line, the names that `processFile` looks up and
stores, are `X` and `d1, ..., dk`; the names of the table are pairwise distinct and are
exactly the names that occur in the input; and for every dependency `di` of a line of `X`
the index of the entry named `di`, the only entry with this name and so the entry of a
declaring line `di: ...`, is among the recorded dependencies of the entry named `X`. -/
theorem dependency_names_stored (decls : List (List Char × List (List Char)))
    (hdecl : ∀ d ∈ decls, IsDeclaration d)
    (hvalid : ∀ d ∈ decls, ∀ y ∈ d.2, isValidName y = true)
    (hbound : DependencyBound decls) :
    ∃ t, buildTable (renderInput decls) = .ok t ∧
      (∀ d ∈ decls, (strtok FILE_NAME_DELIMITER (renderLine d.1 d.2)).1 = some d.1 ∧
        dependencyTokens (strtok FILE_NAME_DELIMITER (renderLine d.1 d.2)).2 = d.2) ∧
      (t.map File.fileName).Nodup ∧
      (∀ x, x ∈ t.map File.fileName ↔ ∃ d ∈ decls, x = d.1 ∨ x ∈ d.2) ∧
      (∀ d ∈ decls, ∀ y ∈ d.2, ∃ (a j : Nat) (f g : File),
        t[a]? = some f ∧ f.fileName = d.1 ∧ t[j]? = some g ∧ g.fileName = y ∧
        (j : Int) ∈ recordedDependencies f ∧
        ∀ (j2 : Nat) (g2 : File), t[j2]? = some g2 → g2.fileName = y → j2 = j) := by
  obtain ⟨t, _, ht, inv, _, dec, _, _, _⟩ := checkDependency_render decls hdecl hvalid hbound
  have hlines := inputLines_renderInput decls hdecl
  refine ⟨t, ht, ?_, inv.wf.names_nodup, ?_, ?_⟩
  · intro d hd
    rw [strtok_renderLine d.1 d.2 (hdecl d hd).1]
    exact ⟨rfl, dependencyTokens_join d.2 (hdecl d hd).2.1⟩
  · intro x
    have hn := names_processLines _ _ _ _ ht x
    rw [hlines] at hn
    rw [hn, mem_allNames_render decls hdecl x]
    simp
  · intro d hd y hy
    rw [hlines] at dec
    have hpair := (declaredPairs_render decls hdecl d.1 y).mpr ⟨d, hd, rfl, hy⟩
    obtain ⟨a, f, ha, hfx, i, hi, j, hj, hjy⟩ := dec.declared_recorded d.1 y hpair
    rw [List.getElem?_map] at hjy
    cases hg : t[j]? with
    | none => rw [hg] at hjy; simp at hjy
    | some g =>
      rw [hg] at hjy
      have hgname : g.fileName = y := by simpa using hjy
      refine ⟨a, j, f, g, ha, hfx, hg, hgname, mem_recorded_of_getElem? hi hj, ?_⟩
      intro j2 g2 hg2 hname2
      refine name_index_unique inv.wf.names_nodup (getElem?_name hg2) ?_
      rw [hname2, ← hgname]
      exact getElem?_name hg

/-- Witness of C7 as amended: the input `A: B,C\nB: \nC: \n`, whose table has the three
files `A`, `B`, `C` and the indices of `B` and `C` as the recorded dependencies of `A`; the
input `A: B,C\nB:\nC:\n` has the same table. -/
theorem dependency_names_stored_witness :
    renderInput [("A".toList, ["B".toList, "C".toList]), ("B".toList, []),
        ("C".toList, [])] = "A: B,C\nB: \nC: \n".toList ∧
      buildTable "A: B,C\nB: \nC: \n".toList = .ok tableTrimmed ∧
      buildTable "A: B,C\nB:\nC:\n".toList = .ok tableTrimmed ∧
      tableTrimmed.map (fun f => (f.fileName, recordedDependencies f)) =
        [("A".toList, [1, 2]), ("B".toList, []), ("C".toList, [])] ∧
      ∃ t, buildTable (renderInput [("A".toList, ["B".toList, "C".toList]),
          ("B".toList, []), ("C".toList, [])]) = .ok t ∧
        (∀ d ∈ [("A".toList, ["B".toList, "C".toList]), ("B".toList, []), ("C".toList, [])],
          (strtok FILE_NAME_DELIMITER (renderLine d.1 d.2)).1 = some d.1 ∧
          dependencyTokens (strtok FILE_NAME_DELIMITER (renderLine d.1 d.2)).2 = d.2) ∧
        (t.map File.fileName).Nodup ∧
        (∀ x, x ∈ t.map File.fileName ↔
          ∃ d ∈ [("A".toList, ["B".toList, "C".toList]), ("B".toList, []),
            ("C".toList, [])], x = d.1 ∨ x ∈ d.2) ∧
        (∀ d ∈ [("A".toList, ["B".toList, "C".toList]), ("B".toList, []), ("C".toList, [])],
          ∀ y ∈ d.2, ∃ (a j : Nat) (f g : File),
            t[a]? = some f ∧ f.fileName = d.1 ∧ t[j]? = some g ∧ g.fileName = y ∧
            (j : Int) ∈ recordedDependencies f ∧
            ∀ (j2 : Nat) (g2 : File), t[j2]? = some g2 → g2.fileName = y → j2 = j) :=
  ⟨by decide, by decide, by decide, by decide,
    dependency_names_stored
      [("A".toList, ["B".toList, "C".toList]), ("B".toList, []), ("C".toList, [])]
      (by decide) (by decide) (by decide)⟩

/-! ## A second run of the search -/

end CheckDependency
